import Mathlib

/-!
# blocktrace: the voxel ray tracer of `src/main.cpp`

A shallow embedding of `trace_ray` (and of the data it works on) together with the
properties of the specification that concern it.

Modelling conventions.

* A C++ `double` is a value of `Dbl`: finite values are exact rationals (no rounding and no
  overflow of finite results), and the IEEE-754 special values (negative zero, the two
  infinities, NaN) are kept with their IEEE-754 arithmetic, because `trace_ray` divides by a
  denominator that may be zero, starts its search from `+infinity`, and tests `isnan`.
  The constant `1e-7` is the rational `1/10^7`.
* A C++ `int` is an unbounded `Int` (cell coordinates and pixel indices stay far from the
  32-bit range: the PNG format bounds image dimensions by `2^31 - 1`), `uint8_t` channels
  and `size_t` dimensions are `Nat`.
* A failed `assert`, or a conversion to `int` of a value that is not finite (undefined
  behaviour in C++), makes the embedded function return `none`.
* `std::map<Coords, Block>` is a list of key/value pairs that is strictly increasing in the
  key, which is the order in which a range-for visits it.
-/

namespace Blocktrace

/-! ## Doubles -/

/-- Idealised IEEE-754 double: `fin q` is the finite value `q` (`fin 0` is `+0.0`),
`nzero` is `-0.0`, `pinf` and `ninf` are the infinities and `nan` is NaN. -/
inductive Dbl where
  | fin (q : ℚ)
  | nzero
  | pinf
  | ninf
  | nan
deriving DecidableEq

namespace Dbl

/-- Conversion of an `int` to `double`. -/
def ofInt (n : Int) : Dbl := fin n

/-- Conversion of a `size_t` to `double`. -/
def ofNat (n : Nat) : Dbl := fin n

/-- The sign bit of a double (`false` for NaN, whose sign never matters here). -/
def signBit : Dbl → Bool
  | fin q => decide (q < 0)
  | nzero => true
  | pinf => false
  | ninf => true
  | nan => false

/-- The test `isnan(x)`. -/
def isNaN : Dbl → Bool
  | nan => true
  | _ => false

/-- Whether the double is one of the two infinities. -/
def isInf : Dbl → Bool
  | pinf => true
  | ninf => true
  | _ => false

/-- Whether the double is finite (a rational value or a signed zero). -/
def isFinite : Dbl → Bool
  | fin _ => true
  | nzero => true
  | _ => false

/-- The rational value of a finite double, and `0` for the special values. -/
def val : Dbl → ℚ
  | fin q => q
  | _ => 0

/-- The zero with sign bit `s`. -/
def zero (s : Bool) : Dbl := if s then nzero else fin 0

/-- The infinity with sign bit `s`. -/
def inf (s : Bool) : Dbl := if s then ninf else pinf

/-- Unary minus: flips the sign bit. -/
def neg : Dbl → Dbl
  | fin q => if q = 0 then nzero else fin (-q)
  | nzero => fin 0
  | pinf => ninf
  | ninf => pinf
  | nan => nan

/-- Addition `x + y` (round-to-nearest sign rule for zero results: an exact zero sum is `+0.0`
unless both operands are `-0.0`). -/
def add : Dbl → Dbl → Dbl
  | nan, _ => nan
  | _, nan => nan
  | pinf, ninf => nan
  | ninf, pinf => nan
  | pinf, _ => pinf
  | _, pinf => pinf
  | ninf, _ => ninf
  | _, ninf => ninf
  | nzero, nzero => nzero
  | nzero, fin q => fin q
  | fin p, nzero => fin p
  | fin p, fin q => fin (p + q)

/-- Subtraction `x - y`, which IEEE-754 defines as `x + (-y)`. -/
def sub (x y : Dbl) : Dbl := add x (neg y)

/-- Multiplication `x * y`: the sign of the result is the exclusive or of the signs, and
`0 * infinity` is NaN. -/
def mul (x y : Dbl) : Dbl :=
  if x.isNaN || y.isNaN then nan
  else if x.isInf || y.isInf then
    (if (x.isFinite && decide (x.val = 0)) || (y.isFinite && decide (y.val = 0)) then nan
     else inf (xor x.signBit y.signBit))
  else if x.val * y.val = 0 then zero (xor x.signBit y.signBit)
  else fin (x.val * y.val)

/-- Division `x / y`: a non-zero value over zero is an infinity, `0 / 0` and
`infinity / infinity` are NaN, a finite value over an infinity is a zero. -/
def div (x y : Dbl) : Dbl :=
  if x.isNaN || y.isNaN then nan
  else if x.isInf then (if y.isInf then nan else inf (xor x.signBit y.signBit))
  else if y.isInf then zero (xor x.signBit y.signBit)
  else if y.val = 0 then (if x.val = 0 then nan else inf (xor x.signBit y.signBit))
  else if x.val = 0 then zero (xor x.signBit y.signBit)
  else fin (x.val / y.val)

/-- The comparison `x < y`: false as soon as one side is NaN; the two zeros are equal. -/
def lt : Dbl → Dbl → Bool
  | nan, _ => false
  | _, nan => false
  | _, ninf => false
  | ninf, _ => true
  | pinf, _ => false
  | _, pinf => true
  | x, y => decide (x.val < y.val)

/-- The comparison `x <= y`: false as soon as one side is NaN. -/
def le : Dbl → Dbl → Bool
  | nan, _ => false
  | _, nan => false
  | ninf, _ => true
  | _, ninf => false
  | _, pinf => true
  | pinf, _ => false
  | x, y => decide (x.val ≤ y.val)

/-- The comparison `x > y`. -/
def gt (x y : Dbl) : Bool := lt y x

/-- The comparison `x >= y`. -/
def ge (x y : Dbl) : Bool := le y x

/-- Truncation of a rational toward zero. -/
def truncQ (q : ℚ) : Int := q.num.tdiv q.den

/-- The conversion `int(x)`: truncation toward zero; undefined behaviour (`none`) when `x` is
an infinity or NaN. -/
def toInt : Dbl → Option Int
  | fin q => some (truncQ q)
  | nzero => some 0
  | _ => none

end Dbl

/-! ## Data model -/

/-- `struct Point4`. -/
structure Point4 where
  x : Dbl
  y : Dbl
  z : Dbl
  w : Dbl
deriving DecidableEq

namespace Point4

/-- `Point4::operator+` (a copy followed by `operator+=`). -/
def add (c p : Point4) : Point4 :=
  ⟨Dbl.add c.x p.x, Dbl.add c.y p.y, Dbl.add c.z p.z, Dbl.add c.w p.w⟩

/-- `Point4::operator*(double)` (a copy followed by `operator*=`). -/
def mul (c : Point4) (k : Dbl) : Point4 :=
  ⟨Dbl.mul c.x k, Dbl.mul c.y k, Dbl.mul c.z k, Dbl.mul c.w k⟩

/-- Unary `Point4::operator-`. -/
def neg (p : Point4) : Point4 := ⟨Dbl.neg p.x, Dbl.neg p.y, Dbl.neg p.z, Dbl.neg p.w⟩

/-- Binary `Point4::operator-`: a copy followed by `operator-=`, which is `*this += -p`. -/
def sub (c p : Point4) : Point4 := add c (neg p)

end Point4

/-- `png::rgb_pixel`: three 8-bit channels. -/
structure RgbPixel where
  red : Nat
  green : Nat
  blue : Nat
deriving DecidableEq

/-- `struct Texture`: the dimensions of the decoded image and its pixel grid, read as
`image[row][column]` (rows below `height`, columns below `width`). -/
structure Texture where
  width : Nat
  height : Nat
  image : Nat → Nat → RgbPixel

/-- `struct Block`: six texture references. -/
structure Block where
  top : Texture
  bottom : Texture
  left : Texture
  right : Texture
  front : Texture
  back : Texture

/-- `struct Coords`. -/
structure Coords where
  x : Int
  y : Int
  z : Int
deriving DecidableEq

/-- `Coords::operator<`: the comparison of `std::make_tuple(x, y, z)` values, which is
lexicographic and uses only `<` on the components. -/
def Coords.lt (a b : Coords) : Bool :=
  decide (a.x < b.x) ||
    (!decide (b.x < a.x) &&
      (decide (a.y < b.y) || (!decide (b.y < a.y) && decide (a.z < b.z))))

/-- `using World = std::map<Coords, Block>`: the key/value pairs in iteration order, which is
strictly increasing for `Coords::operator<`. -/
structure World where
  cells : List (Coords × Block)
  ordered : cells.Pairwise (fun p q => Coords.lt p.1 q.1 = true)

/-- The empty map. -/
def World.empty : World := ⟨[], List.Pairwise.nil⟩

/-- `struct Color`: four 8-bit channels. -/
structure Color where
  r : Nat
  g : Nat
  b : Nat
  a : Nat
deriving DecidableEq

/-- `struct Target`. -/
structure Target where
  a : Int
  b : Int
  c : Int
  d : Int
  x1 : Int
  y1 : Int
  x2 : Int
  y2 : Int
  texture : Texture

/-! ## `trace_ray` -/

/-- The six `targets.push_back` calls made for one map entry (lines 255-260), in order:
left, right, bottom, top, front, back. -/
def cell_targets (coords : Coords) (block : Block) : List Target :=
  [ ⟨-1, 0, 0, coords.x, coords.y, coords.z, coords.y + 1, coords.z + 1, block.left⟩,
    ⟨-1, 0, 0, coords.x + 1, coords.y, coords.z, coords.y + 1, coords.z + 1, block.right⟩,
    ⟨0, -1, 0, coords.y, coords.x, coords.z, coords.x + 1, coords.z + 1, block.bottom⟩,
    ⟨0, -1, 0, coords.y + 1, coords.x, coords.z, coords.x + 1, coords.z + 1, block.top⟩,
    ⟨0, 0, -1, coords.z, coords.x, coords.y, coords.x + 1, coords.y + 1, block.front⟩,
    ⟨0, 0, -1, coords.z + 1, coords.x, coords.y, coords.x + 1, coords.y + 1, block.back⟩ ]

/-- The first loop of `trace_ray` (lines 253-261): the vector `targets`. -/
def build_targets (world : World) : List Target :=
  world.cells.flatMap (fun entry => cell_targets entry.1 entry.2)

/-- Line 264: `num`. -/
def ray_num (camera : Point4) (target : Target) : Dbl :=
  Dbl.add
    (Dbl.add
      (Dbl.add (Dbl.mul (Dbl.ofInt target.a) camera.x) (Dbl.mul (Dbl.ofInt target.b) camera.y))
      (Dbl.mul (Dbl.ofInt target.c) camera.z))
    (Dbl.ofInt target.d)

/-- Line 265: `den`. -/
def ray_den (delta : Point4) (target : Target) : Dbl :=
  Dbl.add
    (Dbl.add (Dbl.mul (Dbl.ofInt target.a) delta.x) (Dbl.mul (Dbl.ofInt target.b) delta.y))
    (Dbl.mul (Dbl.ofInt target.c) delta.z)

/-- Line 266: `t = -num / den`. -/
def ray_t (camera delta : Point4) (target : Target) : Dbl :=
  Dbl.div (Dbl.neg (ray_num camera target)) (ray_den delta target)

/-- Line 267: the condition of the first `continue`, with `best` the value of
`min_value.first`. -/
def distance_rejects (t best : Dbl) : Bool :=
  Dbl.lt t (Dbl.ofInt 0) || Dbl.gt t best || Dbl.isNaN t

/-- Line 271: the hit point `camera + delta * t`. -/
def hit_point (camera delta : Point4) (t : Dbl) : Point4 :=
  Point4.add camera (Point4.mul delta t)

/-- Lines 272-282: the projection `(flatx, flaty)` of the hit point on the plane of the
target. -/
def flat_coords (point : Point4) (target : Target) : Dbl × Dbl :=
  if target.a ≠ 0 then (point.y, point.z)
  else if target.b ≠ 0 then (point.x, point.z)
  else (point.x, point.y)

/-- Line 284: the condition of the second `continue`. -/
def rect_rejects (flat : Dbl × Dbl) (target : Target) : Bool :=
  Dbl.lt flat.1 (Dbl.ofInt target.x1) || Dbl.gt flat.1 (Dbl.ofInt target.x2) ||
    Dbl.lt flat.2 (Dbl.ofInt target.y1) || Dbl.gt flat.2 (Dbl.ofInt target.y2)

/-- The constant expression `1 - 1e-7`. -/
def one_minus_eps : Dbl := Dbl.sub (Dbl.ofInt 1) (Dbl.fin (1 / 10000000))

/-- Lines 290-295 (and 296-301): the two clamping `if`s applied to one coordinate. -/
def clamp (k : Dbl) : Dbl :=
  let k1 := if Dbl.lt k (Dbl.ofInt 0) then Dbl.ofInt 0 else k
  if Dbl.ge k1 (Dbl.ofInt 1) then one_minus_eps else k1

/-- Lines 288-310: the texture fraction `(kx, ky)` after clamping and after the
per-orientation convention. -/
def tex_fraction (flat : Dbl × Dbl) (target : Target) : Dbl × Dbl :=
  let kx := clamp (Dbl.sub flat.1 (Dbl.ofInt target.x1))
  let ky := clamp (Dbl.sub flat.2 (Dbl.ofInt target.y1))
  if target.a ≠ 0 then (ky, Dbl.sub one_minus_eps kx)
  else if target.b ≠ 0 then (kx, ky)
  else (kx, Dbl.sub one_minus_eps ky)

/-- Lines 312-319: the pixel indices `(pixel_x, pixel_y)`; `none` when a conversion to `int`
is undefined or when one of the four assertions fails. -/
def pixel_index (k : Dbl × Dbl) (texture : Texture) : Option (Int × Int) :=
  match Dbl.toInt (Dbl.mul k.1 (Dbl.ofNat texture.width)),
      Dbl.toInt (Dbl.mul k.2 (Dbl.ofNat texture.height)) with
  | some pixel_x, some pixel_y =>
    if 0 ≤ pixel_x ∧ 0 ≤ pixel_y ∧ pixel_x < (texture.width : Int) ∧
        pixel_y < (texture.height : Int) then some (pixel_x, pixel_y)
    else none
  | _, _ => none

/-- Lines 322-323: the colour stored in `min_value`. The braced list
`{pixel.red, pixel.green, pixel.blue}` has three initialisers for the four members of
`Color`, so the member `a` is value-initialised to `0`. -/
def sample_color (texture : Texture) (pixel_x pixel_y : Int) : Color :=
  let pixel := texture.image pixel_y.toNat pixel_x.toNat
  ⟨pixel.red, pixel.green, pixel.blue, 0⟩

/-- The body of the second loop of `trace_ray` (lines 264-323) for one target: the new value
of `min_value`, or `none` when the program stops on an assertion or on undefined behaviour. -/
def scan_target (camera delta : Point4) (min_value : Dbl × Color) (target : Target) :
    Option (Dbl × Color) :=
  let t := ray_t camera delta target
  if distance_rejects t min_value.1 then some min_value
  else
    let flat := flat_coords (hit_point camera delta t) target
    if rect_rejects flat target then some min_value
    else
      match pixel_index (tex_fraction flat target) target.texture with
      | some (pixel_x, pixel_y) => some (t, sample_color target.texture pixel_x pixel_y)
      | none => none

/-- The second loop of `trace_ray` (lines 263-324) over the remaining targets. -/
def scan_loop (camera delta : Point4) : Dbl × Color → List Target → Option (Dbl × Color)
  | min_value, [] => some min_value
  | min_value, target :: rest =>
    match scan_target camera delta min_value target with
    | some next => scan_loop camera delta next rest
    | none => none

/-- The initial value of `min_value` (line 252). -/
def initial_min_value : Dbl × Color := (Dbl.pinf, ⟨0, 0, 0, 255⟩)

/-- The function `trace_ray`: `some c` when it returns the colour `c`, `none` when it stops on
an assertion or on undefined behaviour. -/
def trace_ray (camera delta : Point4) (world : World) : Option Color :=
  (scan_loop camera delta initial_min_value (build_targets world)).map Prod.snd

/-! ## Real-valued reading of the loop body -/

/-- The double `x` is finite and stands for the rational number `q`. -/
def Dbl.IsReal (x : Dbl) (q : ℚ) : Prop := x.isFinite = true ∧ x.val = q

/-- The three coordinates of the point are finite doubles (real numbers). -/
def Point4.Finite (p : Point4) : Prop :=
  p.x.isFinite = true ∧ p.y.isFinite = true ∧ p.z.isFinite = true

/-- The direction is not the zero vector. -/
def Point4.NonZero (p : Point4) : Prop :=
  p.x.val ≠ 0 ∨ p.y.val ≠ 0 ∨ p.z.val ≠ 0

namespace Target

/-- The value `a*ox + b*oy + c*oz + d` of the plane's form at the camera. -/
def num (tg : Target) (camera : Point4) : ℚ :=
  tg.a * camera.x.val + tg.b * camera.y.val + tg.c * camera.z.val + tg.d

/-- The denominator `a*dx + b*dy + c*dz`. -/
def den (tg : Target) (delta : Point4) : ℚ :=
  tg.a * delta.x.val + tg.b * delta.y.val + tg.c * delta.z.val

/-- The intersection parameter `t = -(a*ox+b*oy+c*oz+d) / (a*dx+b*dy+c*dz)`. -/
def param (tg : Target) (camera delta : Point4) : ℚ :=
  -(tg.num camera) / tg.den delta

/-- The local coordinates of the point `camera + t*delta` in the plane of the target:
`(y, z)` for an x-fixed plane, `(x, z)` for a y-fixed plane, `(x, y)` otherwise. -/
def local_coords (tg : Target) (camera delta : Point4) (t : ℚ) : ℚ × ℚ :=
  if tg.a ≠ 0 then (camera.y.val + delta.y.val * t, camera.z.val + delta.z.val * t)
  else if tg.b ≠ 0 then (camera.x.val + delta.x.val * t, camera.z.val + delta.z.val * t)
  else (camera.x.val + delta.x.val * t, camera.y.val + delta.y.val * t)

/-- A valid intersection of the target with the ray `(camera, delta)`: the denominator is
non-zero, `t >= 0`, and the hit point lies in the closed rectangle `[x1,x2] x [y1,y2]`. -/
def Valid (tg : Target) (camera delta : Point4) : Prop :=
  tg.den delta ≠ 0 ∧ 0 ≤ tg.param camera delta ∧
    (tg.x1 : ℚ) ≤ (tg.local_coords camera delta (tg.param camera delta)).1 ∧
    (tg.local_coords camera delta (tg.param camera delta)).1 ≤ tg.x2 ∧
    (tg.y1 : ℚ) ≤ (tg.local_coords camera delta (tg.param camera delta)).2 ∧
    (tg.local_coords camera delta (tg.param camera delta)).2 ≤ tg.y2

instance (tg : Target) (camera delta : Point4) : Decidable (tg.Valid camera delta) := by
  unfold Valid; infer_instance

/-- The plane of the target has a non-zero normal vector `(a, b, c)`. -/
def Proper (tg : Target) : Prop := tg.a ≠ 0 ∨ tg.b ≠ 0 ∨ tg.c ≠ 0

end Target

/-- The colour that the loop body samples from the target for the ray (lines 271-323), or
`none` when sampling stops on an assertion or on undefined behaviour. -/
def hit_color (camera delta : Point4) (target : Target) : Option Color :=
  let t := ray_t camera delta target
  let flat := flat_coords (hit_point camera delta t) target
  (pixel_index (tex_fraction flat target) target.texture).map
    (fun p => sample_color target.texture p.1 p.2)

/-- The value of `clamp` on a finite double of value `k`. -/
def clampQ (k : ℚ) : ℚ :=
  let k1 := if k < 0 then 0 else k
  if 1 ≤ k1 then 1 - 1 / 10000000 else k1

/-- The value of `tex_fraction` on finite local coordinates `f`. -/
def Target.fraction (tg : Target) (f : ℚ × ℚ) : ℚ × ℚ :=
  let kx := clampQ (f.1 - tg.x1)
  let ky := clampQ (f.2 - tg.y1)
  if tg.a ≠ 0 then (ky, 1 - 1 / 10000000 - kx)
  else if tg.b ≠ 0 then (kx, ky)
  else (kx, 1 - 1 / 10000000 - ky)

/-- A point with rational coordinates (and `w = 0`). -/
def Point4.ofRat (x y z : ℚ) : Point4 := ⟨Dbl.fin x, Dbl.fin y, Dbl.fin z, Dbl.fin 0⟩

/-- The point lies on the target: it satisfies the plane equation `a*x + b*y + c*z + d = 0`
and its projection passes the rectangle test of line 284. -/
def Target.contains (tg : Target) (p : Point4) : Prop :=
  tg.num p = 0 ∧ rect_rejects (flat_coords p tg) tg = false

/-- The corner of the rectangle of the target at which the texture's top-left pixel is
expected, in the local coordinates of the target: minimal `z` and maximal `y` on an x-fixed
face, minimal `x` and minimal `z` on a y-fixed face, minimal `x` and maximal `y` on a z-fixed
face. -/
def marker_corner (tg : Target) : Dbl × Dbl :=
  if tg.a ≠ 0 then (Dbl.ofInt tg.x2, Dbl.ofInt tg.y1)
  else if tg.b ≠ 0 then (Dbl.ofInt tg.x1, Dbl.ofInt tg.y1)
  else (Dbl.ofInt tg.x1, Dbl.ofInt tg.y2)

/-! ## Textures that can be sampled -/

/-- A texture with at least one pixel. -/
def Texture.NonEmpty (tex : Texture) : Prop := 0 < tex.width ∧ 0 < tex.height

instance (tex : Texture) : Decidable tex.NonEmpty := by
  unfold Texture.NonEmpty; infer_instance

/-- A texture that is not empty and at most `10^7` pixels high. -/
def Texture.Safe (tex : Texture) : Prop :=
  0 < tex.width ∧ 0 < tex.height ∧ tex.height ≤ 10000000

instance (tex : Texture) : Decidable tex.Safe := by
  unfold Texture.Safe; infer_instance

/-- A texture that is not empty and at most `10^7` pixels wide and high. -/
def Texture.Small (tex : Texture) : Prop :=
  0 < tex.width ∧ tex.width ≤ 10000000 ∧ 0 < tex.height ∧ tex.height ≤ 10000000

instance (tex : Texture) : Decidable tex.Small := by
  unfold Texture.Small; infer_instance

/-- A target that the loop body can sample at every accepted hit: its texture is not empty
and, unless the target is y-fixed (`a = 0` and `b ≠ 0`, the orientation whose row is not
flipped), at most `10^7` pixels high. -/
def Target.Samplable (tg : Target) : Prop :=
  0 < tg.texture.width ∧ 0 < tg.texture.height ∧
    ((tg.a ≠ 0 ∨ tg.b = 0) → tg.texture.height ≤ 10000000)

instance (tg : Target) : Decidable tg.Samplable := by
  unfold Target.Samplable; infer_instance

/-- The six textures of the block can be sampled at every accepted hit: none is empty, and
the textures of the four faces whose row is flipped (left, right, front, back) are at most
`10^7` pixels high. -/
def Block.Safe (b : Block) : Prop :=
  b.top.NonEmpty ∧ b.bottom.NonEmpty ∧ b.left.Safe ∧ b.right.Safe ∧ b.front.Safe ∧
    b.back.Safe

instance (b : Block) : Decidable b.Safe := by
  unfold Block.Safe; infer_instance

/-- Every block of the world can be sampled at every accepted hit. -/
def World.Safe (world : World) : Prop := ∀ entry ∈ world.cells, entry.2.Safe

instance (world : World) : Decidable world.Safe := by
  unfold World.Safe; infer_instance

/-! ## Concrete inputs -/

/-- A texture of the given size whose pixel in row `r`, column `c` has red `r % 256`, green
`c % 256` and blue `7`. -/
def grid_texture (width height : Nat) : Texture :=
  ⟨width, height, fun row col => ⟨row % 256, col % 256, 7⟩⟩

/-- A texture of size 2 x 2 whose four pixels all have the three channels equal to `n`. -/
def solid_texture (n : Nat) : Texture := ⟨2, 2, fun _ _ => ⟨n, n, n⟩⟩

/-- A block whose six faces all show the same texture. -/
def uniform_block (tex : Texture) : Block := ⟨tex, tex, tex, tex, tex, tex⟩

/-- A block whose faces are told apart by their colour: top 1, bottom 2, left 3, right 4,
front 5, back 6. -/
def numbered_block : Block :=
  ⟨solid_texture 1, solid_texture 2, solid_texture 3, solid_texture 4, solid_texture 5,
    solid_texture 6⟩

/-- The world holding one block at one cell. -/
def World.single (coords : Coords) (block : Block) : World :=
  ⟨[(coords, block)], List.pairwise_singleton _ _⟩

/-- The world with one block at the cell `(0, 0, 0)`, all of whose faces show `tex`. -/
def unit_world (tex : Texture) : World := World.single ⟨0, 0, 0⟩ (uniform_block tex)

/-- Two occupied cells along the ray from `(1/2, 1/2, 0)` in direction `(0, 0, 1)`: the near
one at `(0, 0, 2)` and the far one at `(0, 0, 5)`. -/
def two_cell_world : World :=
  ⟨[(⟨0, 0, 2⟩, numbered_block), (⟨0, 0, 5⟩, uniform_block (solid_texture 9))], by decide⟩

/-- The front face of the cell `(0, 0, 0)`, as `cell_targets` builds it, with texture `tex`. -/
def unit_front (tex : Texture) : Target := ⟨0, 0, -1, 0, 0, 0, 1, 1, tex⟩

/-- The left face of the cell `(0, 0, 0)`, as `cell_targets` builds it, with texture `tex`. -/
def unit_left (tex : Texture) : Target := ⟨-1, 0, 0, 0, 0, 0, 1, 1, tex⟩

/-- The front face of the cell `(0, 0, z)`, as `cell_targets` builds it, with texture `tex`. -/
def front_at (z : Int) (tex : Texture) : Target := ⟨0, 0, -1, z, 0, 0, 1, 1, tex⟩

/-- A target value whose coefficients `a`, `b`, `c` are all zero (no plane), with offset
`d = -1` and the unit rectangle. -/
def no_plane (tex : Texture) : Target := ⟨0, 0, 0, -1, 0, 0, 1, 1, tex⟩

/-- A ray that meets the cell `(0, 0, 0)` on the edge shared by its left and front faces:
from `(-1, 1/2, -1)` in direction `(1, 0, 1)`. -/
def edge_camera : Point4 := Point4.ofRat (-1) (1/2) (-1)

/-- The direction `(1, 0, 1)`. -/
def edge_delta : Point4 := Point4.ofRat 1 0 1

/-- Two cells adjacent along `x`: `(0, 0, 0)` and `(1, 0, 0)`. -/
def adjacent_world : World :=
  ⟨[(⟨0, 0, 0⟩, numbered_block), (⟨1, 0, 0⟩, numbered_block)], by decide⟩

/-- `const int img_width = 800`. -/
def img_width : Nat := 800

/-- `const int img_height = 600`. -/
def img_height : Nat := 600

/-- `const double screen_distance = 0.2`. -/
def screen_distance : Dbl := Dbl.fin (1 / 5)

/-- `const double screen_width = 0.4`. -/
def screen_width : Dbl := Dbl.fin (2 / 5)

/-- `const double screen_height = 0.3`. -/
def screen_height : Dbl := Dbl.fin (3 / 10)

/-- Line 358: `Point4 camera(0, 0, 0, 0)`. -/
def main_camera : Point4 := ⟨Dbl.ofInt 0, Dbl.ofInt 0, Dbl.ofInt 0, Dbl.ofInt 0⟩

/-- Lines 355-359: `point_on_screen` for the pixel `(x, y)`. -/
def point_on_screen (x y : Nat) : Point4 :=
  let wx := Dbl.sub (Dbl.mul (Dbl.div (Dbl.ofNat x) (Dbl.ofNat img_width)) screen_width)
    (Dbl.div screen_width (Dbl.ofInt 2))
  let wy := Dbl.neg
    (Dbl.sub (Dbl.mul (Dbl.div (Dbl.ofNat y) (Dbl.ofNat img_height)) screen_height)
      (Dbl.div screen_height (Dbl.ofInt 2)))
  let wz := screen_distance
  ⟨wx, wy, wz, Dbl.ofInt 0⟩

/-- Line 360: `delta = point_on_screen - camera`. -/
def pixel_delta (x y : Nat) : Point4 := Point4.sub (point_on_screen x y) main_camera

/-- The output image `img`, read as `img[row][column]`. -/
def Image : Type := Nat → Nat → RgbPixel

/-- The image after `png::image<png::rgb_pixel> img(800, 600)`: every channel is zero. -/
def blank_image : Image := fun _ _ => ⟨0, 0, 0⟩

/-- The assignment `img[y][x] = pixel`. -/
def Image.set (img : Image) (y x : Nat) (pixel : RgbPixel) : Image :=
  fun row col => if row = y ∧ col = x then pixel else img row col

/-- Lines 361-362 for one pixel: the call of `trace_ray` and the pixel written at `(x, y)`;
`none` when `trace_ray` does not return. -/
def render_pixel (world : World) (x y : Nat) : Option RgbPixel :=
  (trace_ray main_camera (pixel_delta x y) world).map (fun color => ⟨color.r, color.g, color.b⟩)

/-- The inner loop of `main` (lines 354-363) over the remaining rows `y` of column `x`. The
state is the image together with the list of the pixels for which `trace_ray` has been called
so far, in call order. -/
def render_rows (world : World) (x : Nat) :
    List Nat → Image × List (Nat × Nat) → Option (Image × List (Nat × Nat))
  | [], state => some state
  | y :: rest, state =>
    match render_pixel world x y with
    | some pixel => render_rows world x rest (state.1.set y x pixel, state.2 ++ [(x, y)])
    | none => none

/-- The outer loop of `main` (lines 353-364) over the remaining columns `x`. -/
def render_columns (world : World) :
    List Nat → Image × List (Nat × Nat) → Option (Image × List (Nat × Nat))
  | [], state => some state
  | x :: rest, state =>
    match render_rows world x (List.range img_height) state with
    | some next => render_columns world rest next
    | none => none

/-- The pixel loop of `main`: the final image and the list of traced pixels, or `none` when a
call of `trace_ray` does not return. -/
def main_render (world : World) : Option (Image × List (Nat × Nat)) :=
  render_columns world (List.range img_width) (blank_image, [])

/-- All pixels in the order in which `main` visits them: column by column, and top to bottom
within a column. -/
def pixel_grid : List (Nat × Nat) :=
  (List.range img_width).flatMap (fun x => (List.range img_height).map (fun y => (x, y)))

/-- The cell `c` translated by the integer vector `v`. -/
def Coords.translate (c v : Coords) : Coords := ⟨c.x + v.x, c.y + v.y, c.z + v.z⟩

/-- The world in which every occupied cell is translated by `v` and keeps its block; the
translation preserves the order of the keys. -/
def World.translate (v : Coords) (world : World) : World :=
  ⟨world.cells.map (fun entry => (entry.1.translate v, entry.2)), by
    refine List.pairwise_map.mpr (world.ordered.imp ?_)
    intro p q h
    simpa [Coords.lt, Coords.translate] using h⟩

/-- The point `p` translated by the integer vector `v`, with the program's `operator+`. -/
def Point4.translate (v : Coords) (p : Point4) : Point4 :=
  Point4.add p ⟨Dbl.ofInt v.x, Dbl.ofInt v.y, Dbl.ofInt v.z, Dbl.ofInt 0⟩

/-- The target translated by `v`: the same plane coefficients and texture, the offset `d`
moved by `-(a*vx + b*vy + c*vz)`, the rectangle moved by the projection of `v` on the local
coordinates of the target. -/
def Target.translate (v : Coords) (tg : Target) : Target :=
  let shift : Int × Int :=
    if tg.a ≠ 0 then (v.y, v.z) else if tg.b ≠ 0 then (v.x, v.z) else (v.x, v.y)
  ⟨tg.a, tg.b, tg.c, tg.d - (tg.a * v.x + tg.b * v.y + tg.c * v.z),
    tg.x1 + shift.1, tg.y1 + shift.2, tg.x2 + shift.1, tg.y2 + shift.2, tg.texture⟩

/-- The distance `a'` is the distance `a` measured along a direction `k` times as long: both
are `+infinity`, or both are real and `a' * k = a`. -/
def Dbl.ScaledBy (k : ℚ) (a a' : Dbl) : Prop :=
  (a = Dbl.pinf ∧ a' = Dbl.pinf) ∨
    (a.isFinite = true ∧ a'.isFinite = true ∧ a'.val * k = a.val)

instance (k : ℚ) (a a' : Dbl) : Decidable (Dbl.ScaledBy k a a') := by
  unfold Dbl.ScaledBy; infer_instance

/-- Coordinate number `i` of a point as a real number: `0` is `x`, `1` is `y`, `2` is `z`. -/
def Point4.coord (p : Point4) : Fin 3 → ℚ
  | 0 => p.x.val
  | 1 => p.y.val
  | 2 => p.z.val

/-- Coordinate number `i` of a cell. -/
def Coords.coord (k : Coords) : Fin 3 → Int
  | 0 => k.x
  | 1 => k.y
  | 2 => k.z

/-- The neighbour of the cell one step further along the given axis. -/
def Coords.step (k : Coords) : Fin 3 → Coords
  | 0 => ⟨k.x + 1, k.y, k.z⟩
  | 1 => ⟨k.x, k.y + 1, k.z⟩
  | 2 => ⟨k.x, k.y, k.z + 1⟩

/-- The point lies in the closed unit cube of the cell. -/
def Coords.inCube (k : Coords) (p : Point4) : Prop :=
  (k.x : ℚ) ≤ p.x.val ∧ p.x.val ≤ k.x + 1 ∧ (k.y : ℚ) ≤ p.y.val ∧ p.y.val ≤ k.y + 1 ∧
    (k.z : ℚ) ≤ p.z.val ∧ p.z.val ≤ k.z + 1

instance (k : Coords) (p : Point4) : Decidable (k.inCube p) := by
  unfold Coords.inCube; infer_instance

/-- The axis that the plane of the target fixes, chosen as the projection of lines 271-282
chooses it: `x` when `a != 0`, else `y` when `b != 0`, else `z`. -/
def Target.axis (tg : Target) : Fin 3 :=
  if tg.a ≠ 0 then 0 else if tg.b ≠ 0 then 1 else 2

/-- The target lies in the plane shared by a cell and its neighbour `q` along `axis`: the
plane fixes `axis` at the lower coordinate of `q`. -/
def Target.OnSharedFace (tg : Target) (q : Coords) (axis : Fin 3) : Prop :=
  tg.axis = axis ∧ tg.d = q.coord axis

instance (tg : Target) (q : Coords) (axis : Fin 3) : Decidable (tg.OnSharedFace q axis) := by
  unfold Target.OnSharedFace; infer_instance

/-- The ray meets the plane of the target strictly inside the rectangle of the target. -/
def Target.StrictHit (tg : Target) (camera delta : Point4) : Prop :=
  (tg.x1 : ℚ) < (tg.local_coords camera delta (tg.param camera delta)).1 ∧
    (tg.local_coords camera delta (tg.param camera delta)).1 < tg.x2 ∧
    (tg.y1 : ℚ) < (tg.local_coords camera delta (tg.param camera delta)).2 ∧
    (tg.local_coords camera delta (tg.param camera delta)).2 < tg.y2

instance (tg : Target) (camera delta : Point4) : Decidable (tg.StrictHit camera delta) := by
  unfold Target.StrictHit; infer_instance

/-- A second block whose faces are told apart by their colour: top 11, bottom 12, left 13,
right 14, front 15, back 16. -/
def second_block : Block :=
  ⟨solid_texture 11, solid_texture 12, solid_texture 13, solid_texture 14, solid_texture 15,
    solid_texture 16⟩

/-- Two cells adjacent along `y`: `(0, 0, 0)` holding `numbered_block` and `(0, 1, 0)` holding
`second_block`; they share the face `y = 1`. -/
def stacked_world : World :=
  ⟨[(⟨0, 0, 0⟩, numbered_block), (⟨0, 1, 0⟩, second_block)], by decide⟩

/-! ## Lemmas on doubles and on the loop body -/

open Dbl

namespace Dbl

theorem isFinite_cases {x : Dbl} (h : x.isFinite = true) : x = nzero ∨ ∃ q, x = fin q := by
  cases x <;> simp [isFinite] at h ⊢

theorem isFinite_ofInt (n : Int) : (ofInt n).isFinite = true := rfl

theorem val_ofInt (n : Int) : (ofInt n).val = n := rfl

theorem isFinite_ofNat (n : Nat) : (ofNat n).isFinite = true := rfl

theorem val_ofNat (n : Nat) : (ofNat n).val = n := rfl

theorem isFinite_neg {x : Dbl} (h : x.isFinite = true) : (neg x).isFinite = true := by
  cases x <;> simp [isFinite, neg] at h ⊢
  split_ifs <;> rfl

theorem val_neg {x : Dbl} (h : x.isFinite = true) : (neg x).val = - x.val := by
  cases x <;> simp [isFinite, neg, val] at h ⊢
  split_ifs <;> simp_all [val]

theorem isFinite_add {x y : Dbl} (hx : x.isFinite = true) (hy : y.isFinite = true) :
    (add x y).isFinite = true := by
  cases x <;> cases y <;> simp [isFinite, add] at hx hy ⊢

theorem val_add {x y : Dbl} (hx : x.isFinite = true) (hy : y.isFinite = true) :
    (add x y).val = x.val + y.val := by
  cases x <;> cases y <;> simp [isFinite, add, val] at hx hy ⊢

theorem isFinite_sub {x y : Dbl} (hx : x.isFinite = true) (hy : y.isFinite = true) :
    (sub x y).isFinite = true := isFinite_add hx (isFinite_neg hy)

theorem val_sub {x y : Dbl} (hx : x.isFinite = true) (hy : y.isFinite = true) :
    (sub x y).val = x.val - y.val := by
  rw [sub, val_add hx (isFinite_neg hy), val_neg hy]; ring

theorem isFinite_mul {x y : Dbl} (hx : x.isFinite = true) (hy : y.isFinite = true) :
    (mul x y).isFinite = true := by
  cases x <;> cases y <;> simp [isFinite, mul, isNaN, isInf, zero] at hx hy ⊢ <;>
    split_ifs <;> rfl

theorem val_mul {x y : Dbl} (hx : x.isFinite = true) (hy : y.isFinite = true) :
    (mul x y).val = x.val * y.val := by
  cases x <;> cases y <;> simp [isFinite, mul, isNaN, isInf, zero, val] at hx hy ⊢ <;>
    split_ifs <;> simp_all [val]

theorem isFinite_div {x y : Dbl} (hx : x.isFinite = true) (hy : y.isFinite = true)
    (h0 : y.val ≠ 0) : (div x y).isFinite = true := by
  cases x <;> cases y <;> simp [isFinite, div, isNaN, isInf, zero, val] at hx hy h0 ⊢ <;>
    split_ifs <;> simp_all [isFinite]

theorem val_div {x y : Dbl} (hx : x.isFinite = true) (hy : y.isFinite = true)
    (h0 : y.val ≠ 0) : (div x y).val = x.val / y.val := by
  cases x <;> cases y <;> simp [isFinite, div, isNaN, isInf, zero, val] at hx hy h0 ⊢ <;>
    split_ifs <;> simp_all [val]

theorem div_zero_cases {x y : Dbl} (hx : x.isFinite = true) (hy : y.isFinite = true)
    (h0 : y.val = 0) : div x y = nan ∨ div x y = pinf ∨ div x y = ninf := by
  cases x <;> cases y <;> simp [isFinite, div, isNaN, isInf, inf, val] at hx hy h0 ⊢ <;>
    split_ifs <;> simp_all

theorem lt_eq_decide {x y : Dbl} (hx : x.isFinite = true) (hy : y.isFinite = true) :
    lt x y = decide (x.val < y.val) := by
  cases x <;> cases y <;> simp [isFinite, lt, val] at hx hy ⊢

theorem le_eq_decide {x y : Dbl} (hx : x.isFinite = true) (hy : y.isFinite = true) :
    le x y = decide (x.val ≤ y.val) := by
  cases x <;> cases y <;> simp [isFinite, le, val] at hx hy ⊢

theorem isNaN_of_isFinite {x : Dbl} (hx : x.isFinite = true) : x.isNaN = false := by
  cases x <;> simp [isFinite, isNaN] at hx ⊢

theorem toInt_of_isFinite {x : Dbl} (hx : x.isFinite = true) :
    toInt x = some (truncQ x.val) := by
  cases x <;> simp [isFinite, toInt, val, truncQ] at hx ⊢

namespace IsReal

theorem of_isFinite {x : Dbl} (hx : x.isFinite = true) : IsReal x x.val := ⟨hx, rfl⟩

theorem ofInt (n : Int) : IsReal (Dbl.ofInt n) n := ⟨rfl, rfl⟩

theorem ofNat (n : Nat) : IsReal (Dbl.ofNat n) n := ⟨rfl, rfl⟩

theorem fin (q : ℚ) : IsReal (Dbl.fin q) q := ⟨rfl, rfl⟩

theorem neg {x : Dbl} {p : ℚ} (hx : IsReal x p) : IsReal (Dbl.neg x) (-p) :=
  ⟨isFinite_neg hx.1, by rw [val_neg hx.1, hx.2]⟩

theorem add {x y : Dbl} {p q : ℚ} (hx : IsReal x p) (hy : IsReal y q) :
    IsReal (Dbl.add x y) (p + q) :=
  ⟨isFinite_add hx.1 hy.1, by rw [val_add hx.1 hy.1, hx.2, hy.2]⟩

theorem sub {x y : Dbl} {p q : ℚ} (hx : IsReal x p) (hy : IsReal y q) :
    IsReal (Dbl.sub x y) (p - q) :=
  ⟨isFinite_sub hx.1 hy.1, by rw [val_sub hx.1 hy.1, hx.2, hy.2]⟩

theorem mul {x y : Dbl} {p q : ℚ} (hx : IsReal x p) (hy : IsReal y q) :
    IsReal (Dbl.mul x y) (p * q) :=
  ⟨isFinite_mul hx.1 hy.1, by rw [val_mul hx.1 hy.1, hx.2, hy.2]⟩

theorem div {x y : Dbl} {p q : ℚ} (hx : IsReal x p) (hy : IsReal y q) (h0 : q ≠ 0) :
    IsReal (Dbl.div x y) (p / q) :=
  ⟨isFinite_div hx.1 hy.1 (by rw [hy.2]; exact h0),
    by rw [val_div hx.1 hy.1 (by rw [hy.2]; exact h0), hx.2, hy.2]⟩

theorem lt {x y : Dbl} {p q : ℚ} (hx : IsReal x p) (hy : IsReal y q) :
    Dbl.lt x y = decide (p < q) := by
  rw [lt_eq_decide hx.1 hy.1, hx.2, hy.2]

theorem le {x y : Dbl} {p q : ℚ} (hx : IsReal x p) (hy : IsReal y q) :
    Dbl.le x y = decide (p ≤ q) := by
  rw [le_eq_decide hx.1 hy.1, hx.2, hy.2]

theorem toInt {x : Dbl} {p : ℚ} (hx : IsReal x p) : Dbl.toInt x = some (truncQ p) := by
  rw [toInt_of_isFinite hx.1, hx.2]

end IsReal

end Dbl

theorem ray_num_isReal {camera : Point4} (hc : camera.Finite) (tg : Target) :
    IsReal (ray_num camera tg) (tg.num camera) :=
  ((((IsReal.ofInt tg.a).mul (IsReal.of_isFinite hc.1)).add
    ((IsReal.ofInt tg.b).mul (IsReal.of_isFinite hc.2.1))).add
    ((IsReal.ofInt tg.c).mul (IsReal.of_isFinite hc.2.2))).add (IsReal.ofInt tg.d)

theorem ray_den_isReal {delta : Point4} (hd : delta.Finite) (tg : Target) :
    IsReal (ray_den delta tg) (tg.den delta) :=
  (((IsReal.ofInt tg.a).mul (IsReal.of_isFinite hd.1)).add
    ((IsReal.ofInt tg.b).mul (IsReal.of_isFinite hd.2.1))).add
    ((IsReal.ofInt tg.c).mul (IsReal.of_isFinite hd.2.2))

theorem ray_t_isReal {camera delta : Point4} (hc : camera.Finite) (hd : delta.Finite)
    (tg : Target) (h0 : tg.den delta ≠ 0) :
    IsReal (ray_t camera delta tg) (tg.param camera delta) :=
  (ray_num_isReal hc tg).neg.div (ray_den_isReal hd tg) h0

theorem ray_t_parallel {camera delta : Point4} (hc : camera.Finite) (hd : delta.Finite)
    (tg : Target) (h0 : tg.den delta = 0) :
    ray_t camera delta tg = nan ∨ ray_t camera delta tg = pinf ∨ ray_t camera delta tg = ninf := by
  unfold ray_t
  exact div_zero_cases (ray_num_isReal hc tg).neg.1 (ray_den_isReal hd tg).1
    (by rw [(ray_den_isReal hd tg).2]; exact h0)

theorem hit_point_isReal {camera delta : Point4} (hc : camera.Finite) (hd : delta.Finite)
    {t : Dbl} {tq : ℚ} (ht : IsReal t tq) :
    IsReal (hit_point camera delta t).x (camera.x.val + delta.x.val * tq) ∧
    IsReal (hit_point camera delta t).y (camera.y.val + delta.y.val * tq) ∧
    IsReal (hit_point camera delta t).z (camera.z.val + delta.z.val * tq) :=
  ⟨(IsReal.of_isFinite hc.1).add ((IsReal.of_isFinite hd.1).mul ht),
    (IsReal.of_isFinite hc.2.1).add ((IsReal.of_isFinite hd.2.1).mul ht),
    (IsReal.of_isFinite hc.2.2).add ((IsReal.of_isFinite hd.2.2).mul ht)⟩

theorem flat_coords_isReal {camera delta : Point4} (hc : camera.Finite) (hd : delta.Finite)
    {t : Dbl} {tq : ℚ} (ht : IsReal t tq) (tg : Target) :
    IsReal (flat_coords (hit_point camera delta t) tg).1 (tg.local_coords camera delta tq).1 ∧
    IsReal (flat_coords (hit_point camera delta t) tg).2 (tg.local_coords camera delta tq).2 := by
  obtain ⟨hx, hy, hz⟩ := hit_point_isReal hc hd ht
  unfold flat_coords Target.local_coords
  split_ifs
  · exact ⟨hy, hz⟩
  · exact ⟨hx, hz⟩
  · exact ⟨hx, hy⟩

theorem rect_rejects_of_isReal {flat : Dbl × Dbl} {fx fy : ℚ} (h1 : IsReal flat.1 fx)
    (h2 : IsReal flat.2 fy) (tg : Target) :
    rect_rejects flat tg = (decide (fx < tg.x1) || decide ((tg.x2 : ℚ) < fx) ||
      decide (fy < tg.y1) || decide ((tg.y2 : ℚ) < fy)) := by
  unfold rect_rejects Dbl.gt
  rw [h1.lt (IsReal.ofInt _), (IsReal.ofInt _).lt h1, h2.lt (IsReal.ofInt _),
    (IsReal.ofInt _).lt h2]

theorem rect_rejects_of_inf_left {flat : Dbl × Dbl} (h : flat.1 = pinf ∨ flat.1 = ninf)
    (tg : Target) : rect_rejects flat tg = true := by
  unfold rect_rejects Dbl.gt
  rcases h with h | h <;> rw [h] <;> simp [Dbl.lt, Dbl.ofInt]

theorem rect_rejects_of_inf_right {flat : Dbl × Dbl} (h : flat.2 = pinf ∨ flat.2 = ninf)
    (tg : Target) : rect_rejects flat tg = true := by
  unfold rect_rejects Dbl.gt
  rcases h with h | h <;> rw [h] <;> cases flat.1 <;> simp [Dbl.lt, Dbl.ofInt]

theorem add_mul_pinf {c d : Dbl} (hc : c.isFinite = true) (hd : d.isFinite = true)
    (h0 : d.val ≠ 0) : Dbl.add c (Dbl.mul d pinf) = pinf ∨ Dbl.add c (Dbl.mul d pinf) = ninf := by
  cases c <;> cases d <;>
    simp [isFinite, Dbl.mul, isNaN, isInf, Dbl.inf, val, signBit] at hc hd h0 ⊢ <;>
    split_ifs <;> simp_all [Dbl.add]

theorem scan_target_skip (camera delta : Point4) (min_value : Dbl × Color) (tg : Target)
    (h : distance_rejects (ray_t camera delta tg) min_value.1 = true ∨
      rect_rejects (flat_coords (hit_point camera delta (ray_t camera delta tg)) tg) tg = true) :
    scan_target camera delta min_value tg = some min_value := by
  unfold scan_target
  by_cases h1 : distance_rejects (ray_t camera delta tg) min_value.1 = true
  · simp [h1]
  · rcases h with h | h
    · exact absurd h h1
    · simp [h1, h]

theorem scan_target_accept (camera delta : Point4) (min_value : Dbl × Color) (tg : Target)
    (h1 : distance_rejects (ray_t camera delta tg) min_value.1 = false)
    (h2 : rect_rejects (flat_coords (hit_point camera delta (ray_t camera delta tg)) tg) tg
      = false) :
    scan_target camera delta min_value tg =
      (hit_color camera delta tg).map (fun c => (ray_t camera delta tg, c)) := by
  unfold scan_target hit_color
  simp only [h1, h2, Bool.false_eq_true, if_false]
  cases pixel_index (tex_fraction (flat_coords (hit_point camera delta (ray_t camera delta tg)) tg) tg) tg.texture with
  | none => rfl
  | some p => rfl

/-- A parallel target is skipped as soon as the direction is not the zero vector. -/
theorem scan_target_of_parallel {camera delta : Point4} (hc : camera.Finite)
    (hd : delta.Finite) (hne : delta.NonZero) {tg : Target} (hp : tg.Proper)
    (h0 : tg.den delta = 0) (min_value : Dbl × Color) :
    scan_target camera delta min_value tg = some min_value := by
  apply scan_target_skip
  rcases ray_t_parallel hc hd tg h0 with ht | ht | ht
  · left; rw [ht]; simp [distance_rejects, isNaN]
  · right
    rw [ht]
    have hx := add_mul_pinf hc.1 hd.1
    have hy := add_mul_pinf hc.2.1 hd.2.1
    have hz := add_mul_pinf hc.2.2 hd.2.2
    unfold Target.den at h0
    by_cases ha : tg.a ≠ 0
    · by_cases hdy : delta.y.val ≠ 0
      · apply rect_rejects_of_inf_left
        simpa [flat_coords, ha, hit_point, Point4.add, Point4.mul] using hy hdy
      · by_cases hdz : delta.z.val ≠ 0
        · apply rect_rejects_of_inf_right
          simpa [flat_coords, ha, hit_point, Point4.add, Point4.mul] using hz hdz
        · exfalso
          push_neg at hdy hdz
          rw [hdy, hdz] at h0
          have hdx : delta.x.val = 0 := by
            have h : tg.a = 0 ∨ delta.x.val = 0 := by simpa using h0
            exact h.resolve_left ha
          rcases hne with h | h | h
          · exact h hdx
          · exact h hdy
          · exact h hdz
    · push_neg at ha
      by_cases hb : tg.b ≠ 0
      · by_cases hdx : delta.x.val ≠ 0
        · apply rect_rejects_of_inf_left
          simpa [flat_coords, ha, hb, hit_point, Point4.add, Point4.mul] using hx hdx
        · by_cases hdz : delta.z.val ≠ 0
          · apply rect_rejects_of_inf_right
            simpa [flat_coords, ha, hb, hit_point, Point4.add, Point4.mul] using hz hdz
          · exfalso
            push_neg at hdx hdz
            rw [hdx, hdz] at h0
            have hdy : delta.y.val = 0 := by
              have h : tg.b = 0 ∨ delta.y.val = 0 := by simpa using h0
              exact h.resolve_left hb
            rcases hne with h | h | h
            · exact h hdx
            · exact h hdy
            · exact h hdz
      · push_neg at hb
        have hcne : tg.c ≠ 0 := by
          rcases hp with h | h | h
          · exact absurd ha h
          · exact absurd hb h
          · exact h
        by_cases hdx : delta.x.val ≠ 0
        · apply rect_rejects_of_inf_left
          simpa [flat_coords, ha, hb, hit_point, Point4.add, Point4.mul] using hx hdx
        · by_cases hdy : delta.y.val ≠ 0
          · apply rect_rejects_of_inf_right
            simpa [flat_coords, ha, hb, hit_point, Point4.add, Point4.mul] using hy hdy
          · exfalso
            push_neg at hdx hdy
            rw [hdx, hdy] at h0
            have hdz : delta.z.val = 0 := by
              have h : tg.c = 0 ∨ delta.z.val = 0 := by simpa using h0
              exact h.resolve_left hcne
            rcases hne with h | h | h
            · exact h hdx
            · exact h hdy
            · exact h hdz
  · left; rw [ht]; simp [distance_rejects, Dbl.lt, Dbl.ofInt]

theorem truncQ_of_nonneg {q : ℚ} (h : 0 ≤ q) : truncQ q = ⌊q⌋ := by
  unfold truncQ
  rw [Int.tdiv_eq_ediv (Rat.num_nonneg.mpr h) (Int.ofNat_nonneg _), Rat.floor_def]

theorem truncQ_neg (q : ℚ) : truncQ (-q) = - truncQ q := by
  unfold truncQ
  rw [Rat.neg_num, Rat.neg_den, Int.neg_tdiv]

theorem truncQ_of_nonpos {q : ℚ} (h : q ≤ 0) : truncQ q = ⌈q⌉ := by
  have h1 : truncQ q = - truncQ (-q) := by rw [truncQ_neg, neg_neg]
  rw [h1, truncQ_of_nonneg (by linarith), Int.floor_neg, neg_neg]

theorem truncQ_bounds {q : ℚ} {n : ℤ} (hn : 0 < n) (h1 : -1 < q) (h2 : q < n) :
    0 ≤ truncQ q ∧ truncQ q < n := by
  by_cases h : 0 ≤ q
  · rw [truncQ_of_nonneg h]
    exact ⟨Int.floor_nonneg.mpr h, Int.floor_lt.mpr h2⟩
  · push_neg at h
    rw [truncQ_of_nonpos h.le]
    have h3 : (-1 : ℤ) < ⌈q⌉ := Int.lt_ceil.mpr (by exact_mod_cast h1)
    have h4 : ⌈q⌉ ≤ 0 := Int.ceil_le.mpr (by exact_mod_cast h.le)
    omega

theorem truncQ_mono {p q : ℚ} (h : p ≤ q) : truncQ p ≤ truncQ q := by
  by_cases hp : 0 ≤ p
  · rw [truncQ_of_nonneg hp, truncQ_of_nonneg (hp.trans h)]
    exact Int.floor_mono h
  · push_neg at hp
    by_cases hq : 0 ≤ q
    · rw [truncQ_of_nonpos hp.le, truncQ_of_nonneg hq]
      have h1 : ⌈p⌉ ≤ 0 := Int.ceil_le.mpr (by exact_mod_cast hp.le)
      have h2 : 0 ≤ ⌊q⌋ := Int.floor_nonneg.mpr hq
      omega
    · push_neg at hq
      rw [truncQ_of_nonpos hp.le, truncQ_of_nonpos hq.le]
      exact Int.ceil_mono h

theorem clampQ_eq (k : ℚ) :
    clampQ k = if k < 0 then 0 else if 1 ≤ k then 1 - 1 / 10000000 else k := by
  unfold clampQ
  by_cases h : k < 0
  · simp [h]
  · simp [h]

theorem clampQ_nonneg (k : ℚ) : 0 ≤ clampQ k := by
  rw [clampQ_eq]
  split_ifs <;> linarith

theorem clampQ_lt_one (k : ℚ) : clampQ k < 1 := by
  rw [clampQ_eq]
  split_ifs <;> linarith

theorem one_minus_eps_isReal : IsReal one_minus_eps (1 - 1 / 10000000) := by
  have h := (IsReal.ofInt 1).sub (IsReal.fin (1 / 10000000))
  simpa [one_minus_eps] using h

theorem clamp_isReal {k : Dbl} {q : ℚ} (h : IsReal k q) : IsReal (clamp k) (clampQ q) := by
  unfold clamp clampQ
  have h0 : IsReal (Dbl.ofInt 0) 0 := by simpa using IsReal.ofInt 0
  have h1 : IsReal (Dbl.ofInt 1) 1 := by simpa using IsReal.ofInt 1
  simp only [h.lt h0]
  by_cases hq : q < 0
  · simp only [hq, decide_True, if_true, Dbl.ge, h1.le h0]
    norm_num
    exact h0
  · simp only [hq, decide_False, if_false, Dbl.ge, h1.le h, Bool.false_eq_true]
    by_cases hq1 : 1 ≤ q
    · simp only [hq1, decide_True, if_true]
      exact one_minus_eps_isReal
    · simp only [hq1, decide_False, if_false, Bool.false_eq_true]
      exact h

theorem tex_fraction_isReal {flat : Dbl × Dbl} {fx fy : ℚ} (h1 : IsReal flat.1 fx)
    (h2 : IsReal flat.2 fy) (tg : Target) :
    IsReal (tex_fraction flat tg).1 (tg.fraction (fx, fy)).1 ∧
    IsReal (tex_fraction flat tg).2 (tg.fraction (fx, fy)).2 := by
  have hx := clamp_isReal (h1.sub (IsReal.ofInt tg.x1))
  have hy := clamp_isReal (h2.sub (IsReal.ofInt tg.y1))
  unfold tex_fraction Target.fraction
  split_ifs
  · exact ⟨hy, one_minus_eps_isReal.sub hx⟩
  · exact ⟨hx, hy⟩
  · exact ⟨hx, one_minus_eps_isReal.sub hy⟩

theorem fraction_bounds (tg : Target) (f : ℚ × ℚ) :
    0 ≤ (tg.fraction f).1 ∧ (tg.fraction f).1 < 1 ∧
    -(1 / 10000000) < (tg.fraction f).2 ∧ (tg.fraction f).2 < 1 := by
  have a1 := clampQ_nonneg (f.1 - tg.x1)
  have a2 := clampQ_lt_one (f.1 - tg.x1)
  have b1 := clampQ_nonneg (f.2 - tg.y1)
  have b2 := clampQ_lt_one (f.2 - tg.y1)
  unfold Target.fraction
  split_ifs <;> simp only <;> refine ⟨?_, ?_, ?_, ?_⟩ <;> linarith

theorem fraction_snd_nonneg (tg : Target) (f : ℚ × ℚ) (ha : tg.a = 0) (hb : tg.b ≠ 0) :
    0 ≤ (tg.fraction f).2 := by
  simp only [Target.fraction, ha, ne_eq, not_true_eq_false, if_false, hb, not_false_eq_true,
    if_true]
  exact clampQ_nonneg _

theorem pixel_index_of_isReal {k : Dbl × Dbl} {p q : ℚ} (h1 : IsReal k.1 p) (h2 : IsReal k.2 q)
    (tex : Texture) :
    pixel_index k tex =
      if 0 ≤ truncQ (p * tex.width) ∧ 0 ≤ truncQ (q * tex.height) ∧
          truncQ (p * tex.width) < (tex.width : Int) ∧
          truncQ (q * tex.height) < (tex.height : Int)
      then some (truncQ (p * tex.width), truncQ (q * tex.height)) else none := by
  unfold pixel_index
  rw [(h1.mul (IsReal.ofNat _)).toInt, (h2.mul (IsReal.ofNat _)).toInt]

theorem pixel_index_safe {k : Dbl × Dbl} {p q : ℚ} (h1 : IsReal k.1 p) (h2 : IsReal k.2 q)
    {tex : Texture} (hw : 0 < tex.width) (hh : 0 < tex.height) (hp0 : 0 ≤ p) (hp1 : p < 1)
    (hq0 : 0 ≤ q ∨ (-(1 / 10000000) < q ∧ tex.height ≤ 10000000)) (hq1 : q < 1) :
    pixel_index k tex = some (truncQ (p * tex.width), truncQ (q * tex.height)) := by
  have hwq : (0 : ℚ) < tex.width := by exact_mod_cast hw
  have hhq : (0 : ℚ) < tex.height := by exact_mod_cast hh
  have bx := @truncQ_bounds (p * tex.width) tex.width (by exact_mod_cast hw)
    (by nlinarith) (by push_cast; nlinarith)
  have hlow : -1 < q * tex.height := by
    rcases hq0 with h | ⟨h, hmax⟩
    · nlinarith
    · have hmq : (tex.height : ℚ) ≤ 10000000 := by exact_mod_cast hmax
      nlinarith
  have byy := @truncQ_bounds (q * tex.height) tex.height (by exact_mod_cast hh)
    hlow (by push_cast; nlinarith)
  rw [pixel_index_of_isReal h1 h2, if_pos ⟨bx.1, byy.1, bx.2, byy.2⟩]

theorem scan_target_of_not_valid {camera delta : Point4} (hc : camera.Finite)
    (hd : delta.Finite) (hne : delta.NonZero) {tg : Target} (hp : tg.Proper)
    (hv : ¬ tg.Valid camera delta) (min_value : Dbl × Color) :
    scan_target camera delta min_value tg = some min_value := by
  by_cases h0 : tg.den delta = 0
  · exact scan_target_of_parallel hc hd hne hp h0 min_value
  · have ht := ray_t_isReal hc hd tg h0
    apply scan_target_skip
    by_cases hneg : tg.param camera delta < 0
    · left
      have h00 : IsReal (Dbl.ofInt 0) 0 := by simpa using IsReal.ofInt 0
      simp [distance_rejects, ht.lt h00, hneg]
    · right
      obtain ⟨f1, f2⟩ := flat_coords_isReal hc hd ht tg
      rw [rect_rejects_of_isReal f1 f2]
      unfold Target.Valid at hv
      push_neg at hneg
      by_contra hcon
      simp only [Bool.or_eq_true, decide_eq_true_eq, not_or, not_lt] at hcon
      exact hv ⟨h0, hneg, hcon.1.1.1, hcon.1.1.2, hcon.1.2, hcon.2⟩

theorem scan_target_of_valid {camera delta : Point4} (hc : camera.Finite)
    (hd : delta.Finite) {tg : Target} (hv : tg.Valid camera delta) (min_value : Dbl × Color) :
    scan_target camera delta min_value tg =
      if Dbl.lt min_value.1 (ray_t camera delta tg) = true then some min_value
      else (hit_color camera delta tg).map (fun c => (ray_t camera delta tg, c)) := by
  obtain ⟨h0, hpos, hx1, hx2, hy1, hy2⟩ := hv
  have ht := ray_t_isReal hc hd tg h0
  have h00 : IsReal (Dbl.ofInt 0) 0 := by simpa using IsReal.ofInt 0
  have hdist : distance_rejects (ray_t camera delta tg) min_value.1 =
      Dbl.lt min_value.1 (ray_t camera delta tg) := by
    simp [distance_rejects, ht.lt h00, not_lt.mpr hpos, isNaN_of_isFinite ht.1, Dbl.gt]
  by_cases hlt : Dbl.lt min_value.1 (ray_t camera delta tg) = true
  · rw [if_pos hlt]
    exact scan_target_skip _ _ _ _ (Or.inl (hdist.trans hlt))
  · rw [if_neg hlt]
    apply scan_target_accept
    · rw [hdist]; simpa using hlt
    · obtain ⟨f1, f2⟩ := flat_coords_isReal hc hd ht tg
      rw [rect_rejects_of_isReal f1 f2]
      simp [not_lt.mpr hx1, not_lt.mpr hx2, not_lt.mpr hy1, not_lt.mpr hy2]

theorem hit_color_of_safe {camera delta : Point4} (hc : camera.Finite) (hd : delta.Finite)
    {tg : Target} (h0 : tg.den delta ≠ 0) (hs : tg.Samplable) :
    hit_color camera delta tg = some (sample_color tg.texture
      (truncQ ((tg.fraction (tg.local_coords camera delta (tg.param camera delta))).1 *
        tg.texture.width))
      (truncQ ((tg.fraction (tg.local_coords camera delta (tg.param camera delta))).2 *
        tg.texture.height))) := by
  have ht := ray_t_isReal hc hd tg h0
  obtain ⟨f1, f2⟩ := flat_coords_isReal hc hd ht tg
  obtain ⟨k1, k2⟩ := tex_fraction_isReal f1 f2 tg
  obtain ⟨b1, b2, b3, b4⟩ :=
    fraction_bounds tg (tg.local_coords camera delta (tg.param camera delta))
  obtain ⟨hw, hh, hmax⟩ := hs
  have hq0 : 0 ≤ (tg.fraction (tg.local_coords camera delta (tg.param camera delta))).2 ∨
      (-(1 / 10000000) < (tg.fraction (tg.local_coords camera delta
        (tg.param camera delta))).2 ∧ tg.texture.height ≤ 10000000) := by
    by_cases hy : tg.a ≠ 0 ∨ tg.b = 0
    · exact Or.inr ⟨b3, hmax hy⟩
    · push_neg at hy
      exact Or.inl (fraction_snd_nonneg tg _ hy.1 hy.2)
  unfold hit_color
  simp only []
  rw [pixel_index_safe k1 k2 hw hh b1 b2 hq0 b4]
  rfl

theorem scan_loop_append (camera delta : Point4) (l1 l2 : List Target)
    (min_value : Dbl × Color) :
    scan_loop camera delta min_value (l1 ++ l2) =
      (scan_loop camera delta min_value l1).bind (fun m => scan_loop camera delta m l2) := by
  induction l1 generalizing min_value with
  | nil => rfl
  | cons tg rest ih =>
    simp only [List.cons_append, scan_loop]
    cases scan_target camera delta min_value tg with
    | none => rfl
    | some next => exact ih next

theorem scan_loop_snoc (camera delta : Point4) (l : List Target) (u : Target)
    (min_value : Dbl × Color) :
    scan_loop camera delta min_value (l ++ [u]) =
      (scan_loop camera delta min_value l).bind (fun m => scan_target camera delta m u) := by
  rw [scan_loop_append]
  congr 1
  funext m
  simp only [scan_loop]
  cases scan_target camera delta m u <;> rfl

/-- What the scan loop has computed after any list of well-formed targets: nothing when no
target is valid, and otherwise the last scanned target among the nearest valid ones. -/
theorem scan_loop_spec {camera delta : Point4} (hc : camera.Finite) (hd : delta.Finite)
    (hne : delta.NonZero) (l : List Target)
    (hl : ∀ tg ∈ l, tg.Proper ∧ tg.Samplable) :
    ((∀ tg ∈ l, ¬ tg.Valid camera delta) ∧
      scan_loop camera delta initial_min_value l = some initial_min_value) ∨
    (∃ l1 tg l2 c, l = l1 ++ tg :: l2 ∧ tg.Valid camera delta ∧
      (∀ u ∈ l1, u.Valid camera delta → tg.param camera delta ≤ u.param camera delta) ∧
      (∀ u ∈ l2, u.Valid camera delta → tg.param camera delta < u.param camera delta) ∧
      hit_color camera delta tg = some c ∧
      scan_loop camera delta initial_min_value l = some (ray_t camera delta tg, c)) := by
  induction l using List.reverseRecOn with
  | nil => exact Or.inl ⟨fun _ h => absurd h (List.not_mem_nil _), rfl⟩
  | append_singleton l u ih =>
    have hl' : ∀ tg ∈ l, tg.Proper ∧ tg.Samplable :=
      fun tg h => hl tg (List.mem_append_left _ h)
    have hu := hl u (List.mem_append_right _ (List.mem_singleton_self u))
    rw [scan_loop_snoc]
    by_cases hv : u.Valid camera delta
    · have hcol := hit_color_of_safe hc hd hv.1 hu.2
      have htu := ray_t_isReal hc hd u hv.1
      rcases ih hl' with ⟨hnone, hscan⟩ | ⟨l1, tg, l2, c, hsplit, htg, hmin1, hmin2, hc1, hscan⟩
      · right
        refine ⟨l, u, [], _, rfl, hv, ?_, ?_, hcol, ?_⟩
        · intro x hx hxv; exact absurd hxv (hnone x hx)
        · intro x hx; exact absurd hx (List.not_mem_nil _)
        · rw [hscan, Option.some_bind, scan_target_of_valid hc hd hv, hcol]
          have : Dbl.lt initial_min_value.1 (ray_t camera delta u) = false := by
            rcases isFinite_cases htu.1 with h | ⟨q, h⟩ <;> rw [h] <;> rfl
          simp [this]
      · have htt := ray_t_isReal hc hd tg htg.1
        rw [hscan, Option.some_bind, scan_target_of_valid hc hd hv]
        simp only [htt.lt htu, decide_eq_true_eq]
        by_cases hlt : tg.param camera delta < u.param camera delta
        · right
          refine ⟨l1, tg, l2 ++ [u], c, by rw [hsplit]; simp, htg, hmin1, ?_, hc1, ?_⟩
          · intro x hx hxv
            rcases List.mem_append.mp hx with h | h
            · exact hmin2 x h hxv
            · rw [List.mem_singleton.mp h]; exact hlt
          · rw [if_pos hlt]
        · right
          push_neg at hlt
          refine ⟨l, u, [], _, rfl, hv, ?_, ?_, hcol, ?_⟩
          · intro x hx hxv
            rw [hsplit] at hx
            rcases List.mem_append.mp hx with h | h
            · exact hlt.trans (hmin1 x h hxv)
            · rcases List.mem_cons.mp h with h | h
              · rw [h]; exact hlt
              · exact hlt.trans (hmin2 x h hxv).le
          · intro x hx; exact absurd hx (List.not_mem_nil _)
          · rw [if_neg (not_lt.mpr hlt), hcol]; rfl
    · have hskip := fun m => scan_target_of_not_valid hc hd hne hu.1 hv m
      rcases ih hl' with ⟨hnone, hscan⟩ | ⟨l1, tg, l2, c, hsplit, htg, hmin1, hmin2, hc1, hscan⟩
      · left
        refine ⟨?_, ?_⟩
        · intro x hx
          rcases List.mem_append.mp hx with h | h
          · exact hnone x h
          · rw [List.mem_singleton.mp h]; exact hv
        · rw [hscan, Option.some_bind, hskip]
      · right
        refine ⟨l1, tg, l2 ++ [u], c, by rw [hsplit]; simp, htg, hmin1, ?_, hc1, ?_⟩
        · intro x hx hxv
          rcases List.mem_append.mp hx with h | h
          · exact hmin2 x h hxv
          · rw [List.mem_singleton.mp h] at hxv; exact absurd hxv hv
        · rw [hscan, Option.some_bind, hskip]

theorem scan_loop_of_no_valid {camera delta : Point4} (hc : camera.Finite)
    (hd : delta.Finite) (hne : delta.NonZero) (l : List Target)
    (hp : ∀ tg ∈ l, tg.Proper) (hnv : ∀ tg ∈ l, ¬ tg.Valid camera delta)
    (min_value : Dbl × Color) : scan_loop camera delta min_value l = some min_value := by
  induction l with
  | nil => rfl
  | cons tg rest ih =>
    simp only [scan_loop]
    rw [scan_target_of_not_valid hc hd hne (hp tg (List.mem_cons_self _ _))
      (hnv tg (List.mem_cons_self _ _))]
    exact ih (fun u hu => hp u (List.mem_cons_of_mem _ hu))
      (fun u hu => hnv u (List.mem_cons_of_mem _ hu))

theorem build_targets_proper (world : World) : ∀ tg ∈ build_targets world, tg.Proper := by
  intro tg htg
  unfold build_targets at htg
  obtain ⟨entry, _, ht⟩ := List.mem_flatMap.mp htg
  simp only [cell_targets, List.mem_cons, List.mem_singleton, List.not_mem_nil, or_false]
    at ht
  rcases ht with h | h | h | h | h | h <;> subst h <;> unfold Target.Proper <;> simp

/-- When the direction is a real vector other than zero and no target has a valid
intersection, `trace_ray` returns the background colour. -/
theorem trace_ray_background {camera delta : Point4} (hc : camera.Finite)
    (hd : delta.Finite) (hne : delta.NonZero) (world : World)
    (hnv : ∀ tg ∈ build_targets world, ¬ tg.Valid camera delta) :
    trace_ray camera delta world = some ⟨0, 0, 0, 255⟩ := by
  unfold trace_ray
  rw [scan_loop_of_no_valid hc hd hne _ (build_targets_proper world) hnv]
  rfl

/-- For the empty world every ray returns the background colour. -/
theorem trace_ray_empty (camera delta : Point4) :
    trace_ray camera delta World.empty = some ⟨0, 0, 0, 255⟩ := rfl

/-! ## The claims -/

theorem contains_x_fixed (x y z : ℚ) (d x1 y1 x2 y2 : Int) (tex : Texture) :
    Target.contains ⟨-1, 0, 0, d, x1, y1, x2, y2, tex⟩ (Point4.ofRat x y z) ↔
      x = d ∧ (x1 : ℚ) ≤ y ∧ y ≤ x2 ∧ (y1 : ℚ) ≤ z ∧ z ≤ y2 := by
  have h : rect_rejects (flat_coords (Point4.ofRat x y z) ⟨-1, 0, 0, d, x1, y1, x2, y2, tex⟩)
      ⟨-1, 0, 0, d, x1, y1, x2, y2, tex⟩ =
      (decide (y < x1) || decide ((x2 : ℚ) < y) || decide (z < y1) || decide ((y2 : ℚ) < z)) :=
    @rect_rejects_of_isReal _ y z (IsReal.fin y) (IsReal.fin z) _
  unfold Target.contains
  rw [h]
  simp only [Target.num, Point4.ofRat, Dbl.val, Bool.or_eq_false_iff, decide_eq_false_iff_not,
    not_lt]
  constructor
  · rintro ⟨h1, ⟨⟨h2, h3⟩, h4⟩, h5⟩
    refine ⟨?_, h2, h3, h4, h5⟩
    push_cast at h1
    linarith
  · rintro ⟨h1, h2, h3, h4, h5⟩
    refine ⟨?_, ⟨⟨h2, h3⟩, h4⟩, h5⟩
    push_cast
    rw [h1]; ring

theorem contains_y_fixed (x y z : ℚ) (d x1 y1 x2 y2 : Int) (tex : Texture) :
    Target.contains ⟨0, -1, 0, d, x1, y1, x2, y2, tex⟩ (Point4.ofRat x y z) ↔
      y = d ∧ (x1 : ℚ) ≤ x ∧ x ≤ x2 ∧ (y1 : ℚ) ≤ z ∧ z ≤ y2 := by
  have h : rect_rejects (flat_coords (Point4.ofRat x y z) ⟨0, -1, 0, d, x1, y1, x2, y2, tex⟩)
      ⟨0, -1, 0, d, x1, y1, x2, y2, tex⟩ =
      (decide (x < x1) || decide ((x2 : ℚ) < x) || decide (z < y1) || decide ((y2 : ℚ) < z)) :=
    @rect_rejects_of_isReal _ x z (IsReal.fin x) (IsReal.fin z) _
  unfold Target.contains
  rw [h]
  simp only [Target.num, Point4.ofRat, Dbl.val, Bool.or_eq_false_iff, decide_eq_false_iff_not,
    not_lt]
  constructor
  · rintro ⟨h1, ⟨⟨h2, h3⟩, h4⟩, h5⟩
    refine ⟨?_, h2, h3, h4, h5⟩
    push_cast at h1
    linarith
  · rintro ⟨h1, h2, h3, h4, h5⟩
    refine ⟨?_, ⟨⟨h2, h3⟩, h4⟩, h5⟩
    push_cast
    rw [h1]; ring

theorem contains_z_fixed (x y z : ℚ) (d x1 y1 x2 y2 : Int) (tex : Texture) :
    Target.contains ⟨0, 0, -1, d, x1, y1, x2, y2, tex⟩ (Point4.ofRat x y z) ↔
      z = d ∧ (x1 : ℚ) ≤ x ∧ x ≤ x2 ∧ (y1 : ℚ) ≤ y ∧ y ≤ y2 := by
  have h : rect_rejects (flat_coords (Point4.ofRat x y z) ⟨0, 0, -1, d, x1, y1, x2, y2, tex⟩)
      ⟨0, 0, -1, d, x1, y1, x2, y2, tex⟩ =
      (decide (x < x1) || decide ((x2 : ℚ) < x) || decide (y < y1) || decide ((y2 : ℚ) < y)) :=
    @rect_rejects_of_isReal _ x y (IsReal.fin x) (IsReal.fin y) _
  unfold Target.contains
  rw [h]
  simp only [Target.num, Point4.ofRat, Dbl.val, Bool.or_eq_false_iff, decide_eq_false_iff_not,
    not_lt]
  constructor
  · rintro ⟨h1, ⟨⟨h2, h3⟩, h4⟩, h5⟩
    refine ⟨?_, h2, h3, h4, h5⟩
    push_cast at h1
    linarith
  · rintro ⟨h1, h2, h3, h4, h5⟩
    refine ⟨?_, ⟨⟨h2, h3⟩, h4⟩, h5⟩
    push_cast
    rw [h1]; ring

/-- C4: the six targets built for an occupied cell `(cx, cy, cz)` with block `B` are, in
order, the planes `x = cx` (texture `B.left`), `x = cx + 1` (`B.right`), `y = cy`
(`B.bottom`), `y = cy + 1` (`B.top`), `z = cz` (`B.front`) and `z = cz + 1` (`B.back`); the
local coordinates are `(y, z)`, `(x, z)` and `(x, y)` and the rectangle of each target is the
unit square of the cell; and a point lies on one of the six targets exactly when it lies on
the boundary of the closed cube `[cx, cx+1] x [cy, cy+1] x [cz, cz+1]`. -/
theorem C4_face_list_geometry (coords : Coords) (block : Block) (x y z : ℚ) :
    (∃ left right bottom top front back : Target,
      cell_targets coords block = [left, right, bottom, top, front, back] ∧
      left.texture = block.left ∧ right.texture = block.right ∧
      bottom.texture = block.bottom ∧ top.texture = block.top ∧
      front.texture = block.front ∧ back.texture = block.back ∧
      flat_coords (Point4.ofRat x y z) left = (Dbl.fin y, Dbl.fin z) ∧
      flat_coords (Point4.ofRat x y z) right = (Dbl.fin y, Dbl.fin z) ∧
      flat_coords (Point4.ofRat x y z) bottom = (Dbl.fin x, Dbl.fin z) ∧
      flat_coords (Point4.ofRat x y z) top = (Dbl.fin x, Dbl.fin z) ∧
      flat_coords (Point4.ofRat x y z) front = (Dbl.fin x, Dbl.fin y) ∧
      flat_coords (Point4.ofRat x y z) back = (Dbl.fin x, Dbl.fin y) ∧
      (left.contains (Point4.ofRat x y z) ↔
        x = coords.x ∧ (coords.y : ℚ) ≤ y ∧ y ≤ coords.y + 1 ∧ (coords.z : ℚ) ≤ z ∧
          z ≤ coords.z + 1) ∧
      (right.contains (Point4.ofRat x y z) ↔
        x = coords.x + 1 ∧ (coords.y : ℚ) ≤ y ∧ y ≤ coords.y + 1 ∧ (coords.z : ℚ) ≤ z ∧
          z ≤ coords.z + 1) ∧
      (bottom.contains (Point4.ofRat x y z) ↔
        y = coords.y ∧ (coords.x : ℚ) ≤ x ∧ x ≤ coords.x + 1 ∧ (coords.z : ℚ) ≤ z ∧
          z ≤ coords.z + 1) ∧
      (top.contains (Point4.ofRat x y z) ↔
        y = coords.y + 1 ∧ (coords.x : ℚ) ≤ x ∧ x ≤ coords.x + 1 ∧ (coords.z : ℚ) ≤ z ∧
          z ≤ coords.z + 1) ∧
      (front.contains (Point4.ofRat x y z) ↔
        z = coords.z ∧ (coords.x : ℚ) ≤ x ∧ x ≤ coords.x + 1 ∧ (coords.y : ℚ) ≤ y ∧
          y ≤ coords.y + 1) ∧
      (back.contains (Point4.ofRat x y z) ↔
        z = coords.z + 1 ∧ (coords.x : ℚ) ≤ x ∧ x ≤ coords.x + 1 ∧ (coords.y : ℚ) ≤ y ∧
          y ≤ coords.y + 1)) ∧
    ((∃ tg ∈ cell_targets coords block, tg.contains (Point4.ofRat x y z)) ↔
      (((coords.x : ℚ) ≤ x ∧ x ≤ coords.x + 1) ∧ ((coords.y : ℚ) ≤ y ∧ y ≤ coords.y + 1) ∧
        ((coords.z : ℚ) ≤ z ∧ z ≤ coords.z + 1)) ∧
      (x = coords.x ∨ x = coords.x + 1 ∨ y = coords.y ∨ y = coords.y + 1 ∨ z = coords.z ∨
        z = coords.z + 1)) := by
  have hl := contains_x_fixed x y z coords.x coords.y coords.z (coords.y + 1) (coords.z + 1)
    block.left
  have hr := contains_x_fixed x y z (coords.x + 1) coords.y coords.z (coords.y + 1)
    (coords.z + 1) block.right
  have hb := contains_y_fixed x y z coords.y coords.x coords.z (coords.x + 1) (coords.z + 1)
    block.bottom
  have ht := contains_y_fixed x y z (coords.y + 1) coords.x coords.z (coords.x + 1)
    (coords.z + 1) block.top
  have hf := contains_z_fixed x y z coords.z coords.x coords.y (coords.x + 1) (coords.y + 1)
    block.front
  have hk := contains_z_fixed x y z (coords.z + 1) coords.x coords.y (coords.x + 1)
    (coords.y + 1) block.back
  push_cast at hl hr hb ht hf hk
  refine ⟨⟨_, _, _, _, _, _, rfl, rfl, rfl, rfl, rfl, rfl, rfl, rfl, rfl, rfl, rfl, rfl, rfl,
    hl, hr, hb, ht, hf, hk⟩, ?_⟩
  simp only [cell_targets, List.mem_cons, List.mem_singleton, List.not_mem_nil, or_false,
    exists_eq_or_imp, exists_eq_left, hl, hr, hb, ht, hf, hk]
  constructor
  · rintro (h | h | h | h | h | h) <;> obtain ⟨h1, h2, h3, h4, h5⟩ := h <;>
      refine ⟨⟨⟨?_, ?_⟩, ⟨?_, ?_⟩, ⟨?_, ?_⟩⟩, ?_⟩ <;> first | linarith | simp [h1]
  · rintro ⟨⟨⟨a1, a2⟩, ⟨b1, b2⟩, ⟨c1, c2⟩⟩, h | h | h | h | h | h⟩
    · exact Or.inl ⟨h, b1, b2, c1, c2⟩
    · exact Or.inr (Or.inl ⟨h, b1, b2, c1, c2⟩)
    · exact Or.inr (Or.inr (Or.inl ⟨h, a1, a2, c1, c2⟩))
    · exact Or.inr (Or.inr (Or.inr (Or.inl ⟨h, a1, a2, c1, c2⟩)))
    · exact Or.inr (Or.inr (Or.inr (Or.inr (Or.inl ⟨h, a1, a2, b1, b2⟩))))
    · exact Or.inr (Or.inr (Or.inr (Or.inr (Or.inr ⟨h, a1, a2, b1, b2⟩))))

/-- C2 (failing input): for the one-cell world, the camera `(1, 1/2, 1/2)` and the zero
direction, no target has a valid intersection (every denominator is zero), yet `trace_ray`
does not return the background colour: it stops on an assertion or undefined behaviour. -/
theorem C2_zero_direction_not_background :
    (∀ tg ∈ build_targets (unit_world (grid_texture 3 5)),
      ¬ tg.Valid (Point4.ofRat 1 (1/2) (1/2)) (Point4.ofRat 0 0 0)) ∧
    trace_ray (Point4.ofRat 1 (1/2) (1/2)) (Point4.ofRat 0 0 0)
      (unit_world (grid_texture 3 5)) = none ∧
    trace_ray (Point4.ofRat 1 (1/2) (1/2)) (Point4.ofRat 0 0 0)
      (unit_world (grid_texture 3 5)) ≠ some ⟨0, 0, 0, 255⟩ := by
  decide!

/-- C3 (failing input): the front face of the cell `(0, 0, 0)` with a texture of width 1 and
height 20000000, hit at local coordinates `(1/2, 1 - 10^-8)`: the hit passes the rectangle
test, the computed `pixel_y` is `-1`, so the assertion `pixel_y >= 0` fails and `trace_ray`
stops. -/
theorem C3_pixel_y_negative :
    0 < (grid_texture 1 20000000).width ∧ 0 < (grid_texture 1 20000000).height ∧
    rect_rejects (Dbl.fin (1/2), Dbl.fin (1 - 1/100000000))
      (unit_front (grid_texture 1 20000000)) = false ∧
    Dbl.toInt (Dbl.mul
      (tex_fraction (Dbl.fin (1/2), Dbl.fin (1 - 1/100000000))
        (unit_front (grid_texture 1 20000000))).2
      (Dbl.ofNat (grid_texture 1 20000000).height)) = some (-1) ∧
    pixel_index
      (tex_fraction (Dbl.fin (1/2), Dbl.fin (1 - 1/100000000))
        (unit_front (grid_texture 1 20000000)))
      (grid_texture 1 20000000) = none ∧
    trace_ray (Point4.ofRat (1/2) (1 - 1/100000000) (-3)) (Point4.ofRat 0 0 1)
      (unit_world (grid_texture 1 20000000)) = none := by
  decide!

/-- C5 (failing input): a ray that hits the centre of the front face of the one-cell world
returns the red, green and blue of the sampled pixel with alpha `0`, not `255`. -/
theorem C5_sampled_alpha_is_zero :
    (∃ tg ∈ build_targets (unit_world (grid_texture 3 5)),
      tg.Valid (Point4.ofRat (1/2) (1/2) (-3)) (Point4.ofRat 0 0 1)) ∧
    (grid_texture 3 5).image 2 1 = ⟨2, 1, 7⟩ ∧
    trace_ray (Point4.ofRat (1/2) (1/2) (-3)) (Point4.ofRat 0 0 1)
      (unit_world (grid_texture 3 5)) = some ⟨2, 1, 7, 0⟩ := by
  decide!

/-- C6 (failing input): for the one-cell world, the camera `(1, 1/2, 1/2)` and the zero
direction every target is parallel to the ray; the left face gets `t = +infinity`, which
passes the distance test against the initial best distance `+infinity`, its hit point has
NaN coordinates, which pass the rectangle test, and the pixel index is undefined: the target
is not skipped and `trace_ray` does not return the background colour. -/
theorem C6_parallel_target_not_skipped :
    (∀ tg ∈ build_targets (unit_world (grid_texture 3 5)),
      tg.den (Point4.ofRat 0 0 0) = 0) ∧
    ray_t (Point4.ofRat 1 (1/2) (1/2)) (Point4.ofRat 0 0 0) (unit_left (grid_texture 3 5))
      = Dbl.pinf ∧
    distance_rejects Dbl.pinf initial_min_value.1 = false ∧
    flat_coords (hit_point (Point4.ofRat 1 (1/2) (1/2)) (Point4.ofRat 0 0 0) Dbl.pinf)
      (unit_left (grid_texture 3 5)) = (Dbl.nan, Dbl.nan) ∧
    rect_rejects (Dbl.nan, Dbl.nan) (unit_left (grid_texture 3 5)) = false ∧
    scan_target (Point4.ofRat 1 (1/2) (1/2)) (Point4.ofRat 0 0 0) initial_min_value
      (unit_left (grid_texture 3 5)) = none ∧
    trace_ray (Point4.ofRat 1 (1/2) (1/2)) (Point4.ofRat 0 0 0)
      (unit_world (grid_texture 3 5)) = none := by
  decide!

theorem nonZero_of_den_ne_zero {tg : Target} {delta : Point4} (h : tg.den delta ≠ 0) :
    delta.NonZero := by
  unfold Point4.NonZero
  by_contra hcon
  push_neg at hcon
  apply h
  unfold Target.den
  rw [hcon.1, hcon.2.1, hcon.2.2]
  ring

theorem cell_targets_wf {coords : Coords} {block : Block} (hs : block.Safe) :
    ∀ tg ∈ cell_targets coords block, tg.Proper ∧ tg.Samplable := by
  obtain ⟨h1, h2, h3, h4, h5, h6⟩ := hs
  intro tg htg
  simp only [cell_targets, List.mem_cons, List.mem_singleton, List.not_mem_nil, or_false]
    at htg
  rcases htg with h | h | h | h | h | h <;> subst h
  · exact ⟨Or.inl (by simp), h3.1, h3.2.1, fun _ => h3.2.2⟩
  · exact ⟨Or.inl (by simp), h4.1, h4.2.1, fun _ => h4.2.2⟩
  · exact ⟨Or.inr (Or.inl (by simp)), h2.1, h2.2, fun h => by simp at h⟩
  · exact ⟨Or.inr (Or.inl (by simp)), h1.1, h1.2, fun h => by simp at h⟩
  · exact ⟨Or.inr (Or.inr (by simp)), h5.1, h5.2.1, fun _ => h5.2.2⟩
  · exact ⟨Or.inr (Or.inr (by simp)), h6.1, h6.2.1, fun _ => h6.2.2⟩

theorem build_targets_wf {world : World} (hs : world.Safe) :
    ∀ tg ∈ build_targets world, tg.Proper ∧ tg.Samplable := by
  intro tg htg
  unfold build_targets at htg
  obtain ⟨entry, he, ht⟩ := List.mem_flatMap.mp htg
  exact cell_targets_wf (hs entry he) tg ht

theorem coords_lt_iff (a b : Coords) :
    Coords.lt a b = true ↔
      a.x < b.x ∨ (a.x = b.x ∧ (a.y < b.y ∨ (a.y = b.y ∧ a.z < b.z))) := by
  unfold Coords.lt
  simp only [Bool.or_eq_true, Bool.and_eq_true, Bool.not_eq_true', decide_eq_true_eq,
    decide_eq_false_iff_not]
  constructor
  · rintro (h | ⟨h1, h | ⟨h2, h3⟩⟩)
    · exact Or.inl h
    · by_cases hx : a.x < b.x
      · exact Or.inl hx
      · exact Or.inr ⟨by omega, Or.inl h⟩
    · by_cases hx : a.x < b.x
      · exact Or.inl hx
      · by_cases hy : a.y < b.y
        · exact Or.inr ⟨by omega, Or.inl hy⟩
        · exact Or.inr ⟨by omega, Or.inr ⟨by omega, h3⟩⟩
  · rintro (h | ⟨h1, h | ⟨h2, h3⟩⟩)
    · exact Or.inl h
    · exact Or.inr ⟨by omega, Or.inl h⟩
    · exact Or.inr ⟨by omega, Or.inr ⟨by omega, h3⟩⟩

/-- C1 (counterexample): a valid intersection exists and `trace_ray` returns no colour at
all, first for a one-cell world whose texture is empty (the assertion `pixel_x < width`
fails), then for a one-cell world whose texture is 20000000 pixels high, hit just below the
upper edge of the front face (the assertion `pixel_y >= 0` fails). -/
theorem C1_counterexample :
    ((∃ tg ∈ build_targets (unit_world (grid_texture 0 0)),
        tg.Valid (Point4.ofRat (1/2) (1/2) (-3)) (Point4.ofRat 0 0 1)) ∧
      trace_ray (Point4.ofRat (1/2) (1/2) (-3)) (Point4.ofRat 0 0 1)
        (unit_world (grid_texture 0 0)) = none) ∧
    ((∃ tg ∈ build_targets (unit_world (grid_texture 1 20000000)),
        tg.Valid (Point4.ofRat (1/2) (1 - 1/100000000) (-3)) (Point4.ofRat 0 0 1)) ∧
      trace_ray (Point4.ofRat (1/2) (1 - 1/100000000) (-3)) (Point4.ofRat 0 0 1)
        (unit_world (grid_texture 1 20000000)) = none) := by
  decide!

/-- C1 (amended): for every world whose textures are non-empty and whose left, right, front
and back textures are at most `10^7` pixels high, and every real camera and direction for
which a valid intersection exists, `trace_ray` returns the colour sampled from a target that
has a valid intersection whose `t` is the minimum of `t` over all valid intersections. -/
theorem C1_nearest_hit (world : World) (camera delta : Point4) (hc : camera.Finite)
    (hd : delta.Finite) (hs : world.Safe)
    (hex : ∃ tg ∈ build_targets world, tg.Valid camera delta) :
    ∃ tg ∈ build_targets world, tg.Valid camera delta ∧
      (∀ u ∈ build_targets world, u.Valid camera delta →
        tg.param camera delta ≤ u.param camera delta) ∧
      ∃ c, hit_color camera delta tg = some c ∧ trace_ray camera delta world = some c := by
  obtain ⟨v, hv, hvalid⟩ := hex
  have hne := nonZero_of_den_ne_zero hvalid.1
  rcases scan_loop_spec hc hd hne (build_targets world) (build_targets_wf hs) with
    ⟨hnone, _⟩ | ⟨l1, tg, l2, c, hsplit, htg, hmin1, hmin2, hcol, hscan⟩
  · exact absurd hvalid (hnone v hv)
  · refine ⟨tg, by rw [hsplit]; simp, htg, ?_, c, hcol, ?_⟩
    · intro u hu huv
      rw [hsplit] at hu
      rcases List.mem_append.mp hu with h | h
      · exact hmin1 u h huv
      · rcases List.mem_cons.mp h with h | h
        · rw [h]
        · exact (hmin2 u h huv).le
    · unfold trace_ray
      rw [hscan]
      rfl

/-- C1 (witness): the amended claim at a world with two occupied cells along the same ray;
the colour returned is the one of the front face of the nearer cell. -/
theorem C1_nearest_hit_witness :
    (Point4.ofRat (1/2) (1/2) 0).Finite ∧ (Point4.ofRat 0 0 1).Finite ∧ two_cell_world.Safe ∧
    (∃ tg ∈ build_targets two_cell_world,
      tg.Valid (Point4.ofRat (1/2) (1/2) 0) (Point4.ofRat 0 0 1)) ∧
    (∃ tg ∈ build_targets two_cell_world,
      tg.Valid (Point4.ofRat (1/2) (1/2) 0) (Point4.ofRat 0 0 1) ∧
      (∀ u ∈ build_targets two_cell_world,
        u.Valid (Point4.ofRat (1/2) (1/2) 0) (Point4.ofRat 0 0 1) →
        tg.param (Point4.ofRat (1/2) (1/2) 0) (Point4.ofRat 0 0 1) ≤
          u.param (Point4.ofRat (1/2) (1/2) 0) (Point4.ofRat 0 0 1)) ∧
      ∃ c, hit_color (Point4.ofRat (1/2) (1/2) 0) (Point4.ofRat 0 0 1) tg = some c ∧
        trace_ray (Point4.ofRat (1/2) (1/2) 0) (Point4.ofRat 0 0 1) two_cell_world = some c) ∧
    trace_ray (Point4.ofRat (1/2) (1/2) 0) (Point4.ofRat 0 0 1) two_cell_world
      = some ⟨5, 5, 5, 0⟩ :=
  ⟨⟨rfl, rfl, rfl⟩, ⟨rfl, rfl, rfl⟩, by decide, by decide!,
    C1_nearest_hit two_cell_world (Point4.ofRat (1/2) (1/2) 0) (Point4.ofRat 0 0 1)
      ⟨rfl, rfl, rfl⟩ ⟨rfl, rfl, rfl⟩ (by decide) (by decide!),
    by decide!⟩

/-- C8 (counterexample): several valid intersections share the minimal `t` (the left and the
front face of the cell, both at `t = 1`), and `trace_ray` returns no colour at all, first
when the textures of the cell are empty, then when they are 20000000 pixels high and the
ray meets the two faces just below their upper edge. -/
theorem C8_counterexample :
    ((unit_left (grid_texture 0 0)).Valid edge_camera edge_delta ∧
      (unit_front (grid_texture 0 0)).Valid edge_camera edge_delta ∧
      (unit_left (grid_texture 0 0)).param edge_camera edge_delta = 1 ∧
      (unit_front (grid_texture 0 0)).param edge_camera edge_delta = 1 ∧
      (∀ u ∈ build_targets (unit_world (grid_texture 0 0)), u.Valid edge_camera edge_delta →
        1 ≤ u.param edge_camera edge_delta) ∧
      trace_ray edge_camera edge_delta (unit_world (grid_texture 0 0)) = none) ∧
    ((unit_left (grid_texture 1 20000000)).Valid
        (Point4.ofRat (-1) (1 - 1/100000000) (-1)) edge_delta ∧
      (unit_front (grid_texture 1 20000000)).Valid
        (Point4.ofRat (-1) (1 - 1/100000000) (-1)) edge_delta ∧
      (unit_left (grid_texture 1 20000000)).param
        (Point4.ofRat (-1) (1 - 1/100000000) (-1)) edge_delta = 1 ∧
      (unit_front (grid_texture 1 20000000)).param
        (Point4.ofRat (-1) (1 - 1/100000000) (-1)) edge_delta = 1 ∧
      (∀ u ∈ build_targets (unit_world (grid_texture 1 20000000)),
        u.Valid (Point4.ofRat (-1) (1 - 1/100000000) (-1)) edge_delta →
        1 ≤ u.param (Point4.ofRat (-1) (1 - 1/100000000) (-1)) edge_delta) ∧
      trace_ray (Point4.ofRat (-1) (1 - 1/100000000) (-1)) edge_delta
        (unit_world (grid_texture 1 20000000)) = none) := by
  decide!

/-- C8 (amended): for every world whose textures are non-empty and whose left, right, front
and back textures are at most `10^7` pixels high, and every real ray with a valid
intersection, `trace_ray` returns the colour sampled from the valid intersection of minimal
`t` that comes last in the scan: every valid target
scanned before it has `t` at least as large, every valid target scanned after it has a
strictly larger `t`. The scan visits the cells in increasing lexicographic order of
`(x, y, z)` and, within a cell, the faces left, right, bottom, top, front, back. -/
theorem C8_last_scanned_wins (world : World) (camera delta : Point4) (hc : camera.Finite)
    (hd : delta.Finite) (hs : world.Safe)
    (hex : ∃ tg ∈ build_targets world, tg.Valid camera delta) :
    (∃ before tg after c, build_targets world = before ++ tg :: after ∧
      tg.Valid camera delta ∧
      (∀ u ∈ before, u.Valid camera delta → tg.param camera delta ≤ u.param camera delta) ∧
      (∀ u ∈ after, u.Valid camera delta → tg.param camera delta < u.param camera delta) ∧
      hit_color camera delta tg = some c ∧ trace_ray camera delta world = some c) ∧
    build_targets world = world.cells.flatMap (fun entry => cell_targets entry.1 entry.2) ∧
    world.cells.Pairwise (fun p q => p.1.x < q.1.x ∨
      (p.1.x = q.1.x ∧ (p.1.y < q.1.y ∨ (p.1.y = q.1.y ∧ p.1.z < q.1.z)))) ∧
    (∀ coords block, (cell_targets coords block).map Target.texture =
      [block.left, block.right, block.bottom, block.top, block.front, block.back]) := by
  obtain ⟨v, hv, hvalid⟩ := hex
  have hne := nonZero_of_den_ne_zero hvalid.1
  refine ⟨?_, rfl, ?_, fun _ _ => rfl⟩
  · rcases scan_loop_spec hc hd hne (build_targets world) (build_targets_wf hs) with
      ⟨hnone, _⟩ | ⟨l1, tg, l2, c, hsplit, htg, hmin1, hmin2, hcol, hscan⟩
    · exact absurd hvalid (hnone v hv)
    · refine ⟨l1, tg, l2, c, hsplit, htg, hmin1, hmin2, hcol, ?_⟩
      unfold trace_ray
      rw [hscan]
      rfl
  · exact world.ordered.imp (fun h => (coords_lt_iff _ _).mp h)

/-- C8 (witness): the amended claim at a ray that meets the cell `(0, 0, 0)` on the edge
shared by its left face (scanned first) and its front face (scanned fifth), both at `t = 1`;
the colour returned is the one of the front face. -/
theorem C8_last_scanned_wins_witness :
    edge_camera.Finite ∧ edge_delta.Finite ∧ (World.single ⟨0, 0, 0⟩ numbered_block).Safe ∧
    (∃ tg ∈ build_targets (World.single ⟨0, 0, 0⟩ numbered_block),
      tg.Valid edge_camera edge_delta) ∧
    ((∃ before tg after c,
      build_targets (World.single ⟨0, 0, 0⟩ numbered_block) = before ++ tg :: after ∧
      tg.Valid edge_camera edge_delta ∧
      (∀ u ∈ before, u.Valid edge_camera edge_delta →
        tg.param edge_camera edge_delta ≤ u.param edge_camera edge_delta) ∧
      (∀ u ∈ after, u.Valid edge_camera edge_delta →
        tg.param edge_camera edge_delta < u.param edge_camera edge_delta) ∧
      hit_color edge_camera edge_delta tg = some c ∧
      trace_ray edge_camera edge_delta (World.single ⟨0, 0, 0⟩ numbered_block) = some c) ∧
    build_targets (World.single ⟨0, 0, 0⟩ numbered_block) =
      (World.single ⟨0, 0, 0⟩ numbered_block).cells.flatMap
        (fun entry => cell_targets entry.1 entry.2) ∧
    (World.single ⟨0, 0, 0⟩ numbered_block).cells.Pairwise (fun p q => p.1.x < q.1.x ∨
      (p.1.x = q.1.x ∧ (p.1.y < q.1.y ∨ (p.1.y = q.1.y ∧ p.1.z < q.1.z)))) ∧
    (∀ coords block, (cell_targets coords block).map Target.texture =
      [block.left, block.right, block.bottom, block.top, block.front, block.back])) ∧
    (unit_left numbered_block.left).param edge_camera edge_delta = 1 ∧
    (unit_front numbered_block.front).param edge_camera edge_delta = 1 ∧
    trace_ray edge_camera edge_delta (World.single ⟨0, 0, 0⟩ numbered_block)
      = some ⟨5, 5, 5, 0⟩ :=
  ⟨⟨rfl, rfl, rfl⟩, ⟨rfl, rfl, rfl⟩, by decide, by decide!,
    C8_last_scanned_wins (World.single ⟨0, 0, 0⟩ numbered_block) edge_camera edge_delta
      ⟨rfl, rfl, rfl⟩ ⟨rfl, rfl, rfl⟩ (by decide) (by decide!),
    by decide!, by decide!, by decide!⟩

/-- C7 (counterexample): two targets on the ray from `(1/2, y, 0)` in direction `(0, 0, 1)`,
the near one at `t = 2` and the far one at `t = 5`, so that the minimal `t` is attained by
the near one only. Scanned far-then-near the loop stops on an assertion when it samples the
far target, scanned near-then-far it returns the colour of the near target: first with an
empty far texture, then with a far texture 20000000 pixels high. Third, a target whose
coefficients `a`, `b`, `c` are all zero has no valid intersection, gets `t = +infinity` and a
NaN hit point, and stops the loop when it is scanned first, while it is skipped when it is
scanned after the near target. -/
theorem C7_counterexample :
    (List.Perm [front_at 5 (grid_texture 0 0), front_at 2 (solid_texture 5)]
        [front_at 2 (solid_texture 5), front_at 5 (grid_texture 0 0)] ∧
      (front_at 2 (solid_texture 5)).Valid (Point4.ofRat (1/2) (1/2) 0) (Point4.ofRat 0 0 1) ∧
      (front_at 5 (grid_texture 0 0)).Valid (Point4.ofRat (1/2) (1/2) 0) (Point4.ofRat 0 0 1) ∧
      (front_at 2 (solid_texture 5)).param (Point4.ofRat (1/2) (1/2) 0) (Point4.ofRat 0 0 1)
        = 2 ∧
      (front_at 5 (grid_texture 0 0)).param (Point4.ofRat (1/2) (1/2) 0) (Point4.ofRat 0 0 1)
        = 5 ∧
      (scan_loop (Point4.ofRat (1/2) (1/2) 0) (Point4.ofRat 0 0 1) initial_min_value
        [front_at 5 (grid_texture 0 0), front_at 2 (solid_texture 5)]).map Prod.snd = none ∧
      (scan_loop (Point4.ofRat (1/2) (1/2) 0) (Point4.ofRat 0 0 1) initial_min_value
        [front_at 2 (solid_texture 5), front_at 5 (grid_texture 0 0)]).map Prod.snd
        = some ⟨5, 5, 5, 0⟩) ∧
    (List.Perm [front_at 5 (grid_texture 1 20000000), front_at 2 (solid_texture 5)]
        [front_at 2 (solid_texture 5), front_at 5 (grid_texture 1 20000000)] ∧
      (front_at 2 (solid_texture 5)).Valid (Point4.ofRat (1/2) (1 - 1/100000000) 0)
        (Point4.ofRat 0 0 1) ∧
      (front_at 5 (grid_texture 1 20000000)).Valid (Point4.ofRat (1/2) (1 - 1/100000000) 0)
        (Point4.ofRat 0 0 1) ∧
      (front_at 2 (solid_texture 5)).param (Point4.ofRat (1/2) (1 - 1/100000000) 0)
        (Point4.ofRat 0 0 1) = 2 ∧
      (front_at 5 (grid_texture 1 20000000)).param (Point4.ofRat (1/2) (1 - 1/100000000) 0)
        (Point4.ofRat 0 0 1) = 5 ∧
      (scan_loop (Point4.ofRat (1/2) (1 - 1/100000000) 0) (Point4.ofRat 0 0 1)
        initial_min_value
        [front_at 5 (grid_texture 1 20000000), front_at 2 (solid_texture 5)]).map Prod.snd
        = none ∧
      (scan_loop (Point4.ofRat (1/2) (1 - 1/100000000) 0) (Point4.ofRat 0 0 1)
        initial_min_value
        [front_at 2 (solid_texture 5), front_at 5 (grid_texture 1 20000000)]).map Prod.snd
        = some ⟨5, 5, 5, 0⟩) ∧
    (List.Perm [no_plane (solid_texture 9), front_at 2 (solid_texture 5)]
        [front_at 2 (solid_texture 5), no_plane (solid_texture 9)] ∧
      (front_at 2 (solid_texture 5)).Valid (Point4.ofRat (1/2) (1/2) 0) (Point4.ofRat 0 0 1) ∧
      ¬ (no_plane (solid_texture 9)).Valid (Point4.ofRat (1/2) (1/2) 0)
        (Point4.ofRat 0 0 1) ∧
      (scan_loop (Point4.ofRat (1/2) (1/2) 0) (Point4.ofRat 0 0 1) initial_min_value
        [no_plane (solid_texture 9), front_at 2 (solid_texture 5)]).map Prod.snd = none ∧
      (scan_loop (Point4.ofRat (1/2) (1/2) 0) (Point4.ofRat 0 0 1) initial_min_value
        [front_at 2 (solid_texture 5), no_plane (solid_texture 9)]).map Prod.snd
        = some ⟨5, 5, 5, 0⟩) :=
  ⟨⟨List.Perm.swap _ _ _, by decide!, by decide!, by decide!, by decide!, by decide!,
      by decide!⟩,
    ⟨List.Perm.swap _ _ _, by decide!, by decide!, by decide!, by decide!, by decide!,
      by decide!⟩,
    ⟨List.Perm.swap _ _ _, by decide!, by decide!, by decide!, by decide!⟩⟩

/-- C7 (amended): for every list of targets with a non-zero plane normal and a non-empty
texture that is at most `10^7` pixels high unless the target is y-fixed, and every real ray
such that the minimal `t` among the valid intersections is attained by exactly one target,
the scan loop produces the same colour, the one sampled from that target, for every
permutation of the list. -/
theorem C7_order_independent (l l' : List Target) (camera delta : Point4)
    (hc : camera.Finite) (hd : delta.Finite)
    (hwf : ∀ tg ∈ l, tg.Proper ∧ tg.Samplable) (hperm : List.Perm l l')
    (nearest : Target) (hmem : nearest ∈ l) (hv : nearest.Valid camera delta)
    (huniq : ∀ u ∈ l, u.Valid camera delta →
      u.param camera delta ≤ nearest.param camera delta → u = nearest) :
    ∃ c, hit_color camera delta nearest = some c ∧
      (scan_loop camera delta initial_min_value l).map Prod.snd = some c ∧
      (scan_loop camera delta initial_min_value l').map Prod.snd = some c := by
  have hne := nonZero_of_den_ne_zero hv.1
  have key : ∀ m : List Target, (∀ u, u ∈ m ↔ u ∈ l) →
      ∃ c, hit_color camera delta nearest = some c ∧
        (scan_loop camera delta initial_min_value m).map Prod.snd = some c := by
    intro m hm
    have hwf' : ∀ tg ∈ m, tg.Proper ∧ tg.Samplable := fun tg h => hwf tg ((hm tg).mp h)
    rcases scan_loop_spec hc hd hne m hwf' with
      ⟨hnone, _⟩ | ⟨l1, tg, l2, c, hsplit, htg, hmin1, hmin2, hcol, hscan⟩
    · exact absurd hv (hnone nearest ((hm nearest).mpr hmem))
    · have htm : tg ∈ m := by rw [hsplit]; simp
      have hle : tg.param camera delta ≤ nearest.param camera delta := by
        have hn : nearest ∈ m := (hm nearest).mpr hmem
        rw [hsplit] at hn
        rcases List.mem_append.mp hn with h | h
        · exact hmin1 nearest h hv
        · rcases List.mem_cons.mp h with h | h
          · rw [h]
          · exact (hmin2 nearest h hv).le
      have heq : tg = nearest := huniq tg ((hm tg).mp htm) htg hle
      refine ⟨c, by rw [← heq]; exact hcol, ?_⟩
      rw [hscan]
      rfl
  obtain ⟨c, hc1, hc2⟩ := key l (fun _ => Iff.rfl)
  obtain ⟨c', hc1', hc2'⟩ := key l' (fun u => (hperm.mem_iff).symm)
  have : c' = c := by
    rw [hc1] at hc1'
    exact (Option.some.inj hc1').symm
  exact ⟨c, hc1, hc2, by rw [hc2', this]⟩

/-- C7 (witness): the amended claim at the near and the far front face, in both orders. -/
theorem C7_order_independent_witness :
    (Point4.ofRat (1/2) (1/2) 0).Finite ∧ (Point4.ofRat 0 0 1).Finite ∧
    (∀ tg ∈ [front_at 5 (solid_texture 9), front_at 2 (solid_texture 5)],
      tg.Proper ∧ tg.Samplable) ∧
    List.Perm [front_at 5 (solid_texture 9), front_at 2 (solid_texture 5)]
      [front_at 2 (solid_texture 5), front_at 5 (solid_texture 9)] ∧
    (front_at 2 (solid_texture 5)).Valid (Point4.ofRat (1/2) (1/2) 0) (Point4.ofRat 0 0 1) ∧
    (∀ u ∈ [front_at 5 (solid_texture 9), front_at 2 (solid_texture 5)],
      u.Valid (Point4.ofRat (1/2) (1/2) 0) (Point4.ofRat 0 0 1) →
      u.param (Point4.ofRat (1/2) (1/2) 0) (Point4.ofRat 0 0 1) ≤
        (front_at 2 (solid_texture 5)).param (Point4.ofRat (1/2) (1/2) 0)
          (Point4.ofRat 0 0 1) →
      u = front_at 2 (solid_texture 5)) ∧
    (∃ c, hit_color (Point4.ofRat (1/2) (1/2) 0) (Point4.ofRat 0 0 1)
        (front_at 2 (solid_texture 5)) = some c ∧
      (scan_loop (Point4.ofRat (1/2) (1/2) 0) (Point4.ofRat 0 0 1) initial_min_value
        [front_at 5 (solid_texture 9), front_at 2 (solid_texture 5)]).map Prod.snd = some c ∧
      (scan_loop (Point4.ofRat (1/2) (1/2) 0) (Point4.ofRat 0 0 1) initial_min_value
        [front_at 2 (solid_texture 5), front_at 5 (solid_texture 9)]).map Prod.snd
        = some c) :=
  have hwf : ∀ tg ∈ [front_at 5 (solid_texture 9), front_at 2 (solid_texture 5)],
      tg.Proper ∧ tg.Samplable := by
    intro tg htg
    simp only [List.mem_cons, List.mem_singleton, List.not_mem_nil, or_false] at htg
    rcases htg with h | h <;> subst h <;> exact ⟨Or.inr (Or.inr (by decide)), by decide⟩
  have hv : (front_at 2 (solid_texture 5)).Valid (Point4.ofRat (1/2) (1/2) 0)
      (Point4.ofRat 0 0 1) := by decide!
  have huniq : ∀ u ∈ [front_at 5 (solid_texture 9), front_at 2 (solid_texture 5)],
      u.Valid (Point4.ofRat (1/2) (1/2) 0) (Point4.ofRat 0 0 1) →
      u.param (Point4.ofRat (1/2) (1/2) 0) (Point4.ofRat 0 0 1) ≤
        (front_at 2 (solid_texture 5)).param (Point4.ofRat (1/2) (1/2) 0)
          (Point4.ofRat 0 0 1) →
      u = front_at 2 (solid_texture 5) := by
    intro u hu huv hle
    simp only [List.mem_cons, List.mem_singleton, List.not_mem_nil, or_false] at hu
    rcases hu with h | h
    · subst h
      exfalso
      revert hle
      decide!
    · exact h
  ⟨⟨rfl, rfl, rfl⟩, ⟨rfl, rfl, rfl⟩, hwf, List.Perm.swap _ _ _, hv, huniq,
    C7_order_independent _ _ (Point4.ofRat (1/2) (1/2) 0) (Point4.ofRat 0 0 1)
      ⟨rfl, rfl, rfl⟩ ⟨rfl, rfl, rfl⟩ hwf (List.Perm.swap _ _ _)
      (front_at 2 (solid_texture 5)) (by simp) hv huniq⟩

theorem eq_fin_of_isReal {x : Dbl} {q : ℚ} (h : IsReal x q) (hq : q ≠ 0) : x = Dbl.fin q := by
  obtain ⟨h1, h2⟩ := h
  cases x <;> simp [isFinite, val] at h1 h2 ⊢
  · exact h2
  · exact hq h2.symm

theorem truncQ_eq_of_mem_Ico {q : ℚ} {n : ℤ} (h0 : 0 ≤ n) (h1 : (n : ℚ) ≤ q)
    (h2 : q < n + 1) : truncQ q = n := by
  have hq : 0 ≤ q := le_trans (by exact_mod_cast h0) h1
  rw [truncQ_of_nonneg hq]
  exact Int.floor_eq_iff.mpr ⟨h1, h2⟩

theorem clampQ_of_mem_Ico {k : ℚ} (h0 : 0 ≤ k) (h1 : k < 1) : clampQ k = k := by
  rw [clampQ_eq, if_neg (not_lt.mpr h0), if_neg (not_le.mpr h1)]

theorem build_targets_single (coords : Coords) (block : Block) :
    build_targets (World.single coords block) = cell_targets coords block := by
  simp [build_targets, World.single]

/-- C9 (amended): for every world consisting of a single occupied cell `(cx, cy, cz)`, every
distance `d > 0`, the camera `(cx + 1/2, cy + 1/2, cz - d)` and the direction `(0, 0, 1)`,
when the front texture has odd width `W` and odd height `H` with `H <= 5000000`, the scan
ends with the best distance `t = d` and the colour of the pixel of the front texture in
column `(W - 1) / 2` and row `(H - 1) / 2`, and `trace_ray` returns that colour. -/
theorem C9_front_face_centre (cx cy cz : Int) (block : Block) (d : ℚ) (cw dw : Dbl)
    (hd : 0 < d) (hW : block.front.width % 2 = 1) (hH : block.front.height % 2 = 1)
    (hmax : block.front.height ≤ 5000000) :
    scan_loop ⟨Dbl.fin (cx + 1/2), Dbl.fin (cy + 1/2), Dbl.fin (cz - d), cw⟩
        ⟨Dbl.fin 0, Dbl.fin 0, Dbl.fin 1, dw⟩ initial_min_value
        (build_targets (World.single ⟨cx, cy, cz⟩ block)) =
      some (Dbl.fin d, sample_color block.front (((block.front.width : Int) - 1) / 2)
        (((block.front.height : Int) - 1) / 2)) ∧
    trace_ray ⟨Dbl.fin (cx + 1/2), Dbl.fin (cy + 1/2), Dbl.fin (cz - d), cw⟩
        ⟨Dbl.fin 0, Dbl.fin 0, Dbl.fin 1, dw⟩ (World.single ⟨cx, cy, cz⟩ block) =
      some (sample_color block.front (((block.front.width : Int) - 1) / 2)
        (((block.front.height : Int) - 1) / 2)) := by
  set camera : Point4 := ⟨Dbl.fin (cx + 1/2), Dbl.fin (cy + 1/2), Dbl.fin (cz - d), cw⟩
    with hcam
  set delta : Point4 := ⟨Dbl.fin 0, Dbl.fin 0, Dbl.fin 1, dw⟩ with hdel
  have hc : camera.Finite := ⟨rfl, rfl, rfl⟩
  have hdf : delta.Finite := ⟨rfl, rfl, rfl⟩
  have hne : delta.NonZero := Or.inr (Or.inr (by simp [hdel, Dbl.val]))
  -- the four faces parallel to the ray are skipped
  have hpar : ∀ (tg : Target) (m : Dbl × Color), tg.Proper → tg.c = 0 →
      scan_target camera delta m tg = some m := by
    intro tg m hp hc0
    apply scan_target_of_parallel hc hdf hne hp
    simp [Target.den, hdel, Dbl.val, hc0]
  -- the front face
  set front : Target :=
    ⟨0, 0, -1, cz, cx, cy, cx + 1, cy + 1, block.front⟩ with hfront
  have hden : front.den delta = -1 := by
    simp [Target.den, hfront, hdel, Dbl.val]
  have hparam : front.param camera delta = d := by
    simp [Target.param, hden, Target.num, hfront, hcam, Dbl.val]
  have hloc : front.local_coords camera delta d = ((cx : ℚ) + 1/2, (cy : ℚ) + 1/2) := by
    simp [Target.local_coords, hfront, hcam, hdel, Dbl.val]
  have hvalid : front.Valid camera delta := by
    unfold Target.Valid
    rw [hparam, hloc, hden]
    refine ⟨by norm_num, hd.le, ?_, ?_, ?_, ?_⟩ <;> simp [hfront] <;> norm_num
  have hsafe : front.Samplable := by
    refine ⟨?_, ?_, fun _ => ?_⟩ <;> simp only [hfront] <;> omega
  have hfrac : front.fraction ((cx : ℚ) + 1/2, (cy : ℚ) + 1/2) =
      (1/2, 1 - 1/10000000 - 1/2) := by
    have h12 : clampQ (2⁻¹) = 2⁻¹ := clampQ_of_mem_Ico (by norm_num) (by norm_num)
    simp [Target.fraction, hfront, h12]
  have hpx : truncQ (1/2 * (block.front.width : ℚ)) = ((block.front.width : Int) - 1) / 2 := by
    apply truncQ_eq_of_mem_Ico (by omega)
    · have h : ((((block.front.width : Int) - 1) / 2 : Int) : ℚ) * 2
          = (block.front.width : ℚ) - 1 := by
        have : (((block.front.width : Int) - 1) / 2) * 2 = (block.front.width : Int) - 1 := by
          omega
        exact_mod_cast this
      linarith
    · have h : ((((block.front.width : Int) - 1) / 2 : Int) : ℚ) * 2
          = (block.front.width : ℚ) - 1 := by
        have : (((block.front.width : Int) - 1) / 2) * 2 = (block.front.width : Int) - 1 := by
          omega
        exact_mod_cast this
      linarith
  have hpy : truncQ ((1 - 1/10000000 - 1/2) * (block.front.height : ℚ)) =
      ((block.front.height : Int) - 1) / 2 := by
    have hm : (block.front.height : ℚ) ≤ 5000000 := by exact_mod_cast hmax
    have h0 : (0 : ℚ) ≤ block.front.height := by positivity
    have h : ((((block.front.height : Int) - 1) / 2 : Int) : ℚ) * 2
        = (block.front.height : ℚ) - 1 := by
      have : (((block.front.height : Int) - 1) / 2) * 2 = (block.front.height : Int) - 1 := by
        omega
      exact_mod_cast this
    apply truncQ_eq_of_mem_Ico (by omega)
    · linarith
    · linarith
  have hcol : hit_color camera delta front =
      some (sample_color block.front (((block.front.width : Int) - 1) / 2)
        (((block.front.height : Int) - 1) / 2)) := by
    rw [hit_color_of_safe hc hdf (by rw [hden]; norm_num) hsafe, hparam, hloc, hfrac]
    simp only [hpx, hpy]
  have htf : ray_t camera delta front = Dbl.fin d :=
    eq_fin_of_isReal (by
      have := ray_t_isReal hc hdf front (by rw [hden]; norm_num)
      rwa [hparam] at this) hd.ne'
  have hfront_step : scan_target camera delta initial_min_value front =
      some (Dbl.fin d, sample_color block.front (((block.front.width : Int) - 1) / 2)
        (((block.front.height : Int) - 1) / 2)) := by
    rw [scan_target_of_valid hc hdf hvalid, htf, hcol]
    rfl
  -- the back face is farther
  set back : Target :=
    ⟨0, 0, -1, cz + 1, cx, cy, cx + 1, cy + 1, block.back⟩ with hback
  have hdenb : back.den delta = -1 := by
    simp [Target.den, hback, hdel, Dbl.val]
  have hparamb : back.param camera delta = d + 1 := by
    simp [Target.param, hdenb, Target.num, hback, hcam, Dbl.val]
    ring
  have hlocb : back.local_coords camera delta (d + 1) = ((cx : ℚ) + 1/2, (cy : ℚ) + 1/2) := by
    simp [Target.local_coords, hback, hcam, hdel, Dbl.val]
  have hvalidb : back.Valid camera delta := by
    unfold Target.Valid
    rw [hparamb, hlocb, hdenb]
    refine ⟨by norm_num, by linarith, ?_, ?_, ?_, ?_⟩ <;> simp [hback] <;> norm_num
  have hback_step : ∀ c : Color, scan_target camera delta (Dbl.fin d, c) back =
      some (Dbl.fin d, c) := by
    intro c
    rw [scan_target_of_valid hc hdf hvalidb]
    have htb := ray_t_isReal hc hdf back (by rw [hdenb]; norm_num)
    rw [hparamb] at htb
    have : Dbl.lt (Dbl.fin d) (ray_t camera delta back) = true := by
      rw [(IsReal.fin d).lt htb]
      simp
    rw [if_pos this]
  have hloop : scan_loop camera delta initial_min_value
      (build_targets (World.single ⟨cx, cy, cz⟩ block)) =
      some (Dbl.fin d, sample_color block.front (((block.front.width : Int) - 1) / 2)
        (((block.front.height : Int) - 1) / 2)) := by
    rw [build_targets_single]
    simp only [cell_targets, scan_loop]
    rw [hpar _ _ (Or.inl (by simp)) rfl]
    simp only []
    rw [hpar _ _ (Or.inl (by simp)) rfl]
    simp only []
    rw [hpar _ _ (Or.inr (Or.inl (by simp))) rfl]
    simp only []
    rw [hpar _ _ (Or.inr (Or.inl (by simp))) rfl]
    simp only []
    rw [hfront_step]
    simp only []
    rw [hback_step]
  refine ⟨hloop, ?_⟩
  unfold trace_ray
  rw [hloop]
  rfl

/-- C9 (counterexample): with a front texture of width 1 and odd height 5000001, the ray
aimed at the centre of the front face returns the pixel of row 2499999, not the centre pixel
of row 2500000. -/
theorem C9_counterexample :
    (grid_texture 1 5000001).width % 2 = 1 ∧ (grid_texture 1 5000001).height % 2 = 1 ∧
    trace_ray (Point4.ofRat (0 + 1/2) (0 + 1/2) (0 - 3)) (Point4.ofRat 0 0 1)
      (World.single ⟨0, 0, 0⟩ (uniform_block (grid_texture 1 5000001))) =
      some (sample_color (grid_texture 1 5000001) 0 2499999) ∧
    sample_color (grid_texture 1 5000001) 0 2499999 ≠
      sample_color (grid_texture 1 5000001) ((1 - 1) / 2) ((5000001 - 1) / 2) := by
  decide!

/-- C9 (witness): the amended claim at the cell `(0, 0, 0)`, distance 3 and a texture of
width 3 and height 5: the centre pixel is in column 1 and row 2. -/
theorem C9_front_face_centre_witness :
    (0 : ℚ) < 3 ∧ (uniform_block (grid_texture 3 5)).front.width % 2 = 1 ∧
    (uniform_block (grid_texture 3 5)).front.height % 2 = 1 ∧
    (uniform_block (grid_texture 3 5)).front.height ≤ 5000000 ∧
    (scan_loop ⟨Dbl.fin (((0 : Int) : ℚ) + 1/2), Dbl.fin (((0 : Int) : ℚ) + 1/2),
          Dbl.fin (((0 : Int) : ℚ) - 3), Dbl.fin 0⟩
        ⟨Dbl.fin 0, Dbl.fin 0, Dbl.fin 1, Dbl.fin 0⟩ initial_min_value
        (build_targets (World.single ⟨0, 0, 0⟩ (uniform_block (grid_texture 3 5)))) =
      some (Dbl.fin 3, sample_color (uniform_block (grid_texture 3 5)).front
        ((((uniform_block (grid_texture 3 5)).front.width : Int) - 1) / 2)
        ((((uniform_block (grid_texture 3 5)).front.height : Int) - 1) / 2)) ∧
    trace_ray ⟨Dbl.fin (((0 : Int) : ℚ) + 1/2), Dbl.fin (((0 : Int) : ℚ) + 1/2),
          Dbl.fin (((0 : Int) : ℚ) - 3), Dbl.fin 0⟩
        ⟨Dbl.fin 0, Dbl.fin 0, Dbl.fin 1, Dbl.fin 0⟩
        (World.single ⟨0, 0, 0⟩ (uniform_block (grid_texture 3 5))) =
      some (sample_color (uniform_block (grid_texture 3 5)).front
        ((((uniform_block (grid_texture 3 5)).front.width : Int) - 1) / 2)
        ((((uniform_block (grid_texture 3 5)).front.height : Int) - 1) / 2))) ∧
    sample_color (uniform_block (grid_texture 3 5)).front
        ((((uniform_block (grid_texture 3 5)).front.width : Int) - 1) / 2)
        ((((uniform_block (grid_texture 3 5)).front.height : Int) - 1) / 2) = ⟨2, 1, 7, 0⟩ :=
  ⟨by norm_num, by decide, by decide, by decide,
    C9_front_face_centre 0 0 0 (uniform_block (grid_texture 3 5)) 3 (Dbl.fin 0) (Dbl.fin 0)
      (by norm_num) (by decide) (by decide) (by decide),
    by decide⟩

theorem clampQ_le_or {k l : ℚ} (h : k ≤ l) :
    clampQ k ≤ clampQ l ∨ clampQ l = 1 - 1 / 10000000 := by
  rw [clampQ_eq, clampQ_eq]
  split_ifs <;> first
    | (left; linarith)
    | (right; rfl)

theorem column_mono {w : ℕ} (h0 : 0 < w) (h1 : w ≤ 10000000) {k l : ℚ} (h : k ≤ l) :
    truncQ (clampQ k * w) ≤ truncQ (clampQ l * w) := by
  have hw : (0 : ℚ) < w := by exact_mod_cast h0
  have hw1 : (w : ℚ) ≤ 10000000 := by exact_mod_cast h1
  rcases clampQ_le_or h with hle | heq
  · exact truncQ_mono (by nlinarith)
  · have hk := truncQ_bounds (q := clampQ k * w) (n := w) (by exact_mod_cast h0)
      (by nlinarith [clampQ_nonneg k]) (by push_cast; nlinarith [clampQ_lt_one k])
    have hl : truncQ (clampQ l * w) = (w : ℤ) - 1 := by
      rw [heq]
      apply truncQ_eq_of_mem_Ico (by omega)
      · push_cast; nlinarith
      · push_cast; nlinarith
    rw [hl]
    omega

theorem row_mono {h : ℕ} (h0 : 0 < h) (h1 : h ≤ 10000000) {k l : ℚ} (hkl : k ≤ l) :
    truncQ ((1 - 1 / 10000000 - clampQ l) * h) ≤ truncQ ((1 - 1 / 10000000 - clampQ k) * h) := by
  have hh : (0 : ℚ) < h := by exact_mod_cast h0
  have hh1 : (h : ℚ) ≤ 10000000 := by exact_mod_cast h1
  rcases clampQ_le_or hkl with hle | heq
  · exact truncQ_mono (by nlinarith)
  · have hk := truncQ_bounds (q := (1 - 1 / 10000000 - clampQ k) * h) (n := h)
      (by exact_mod_cast h0) (by nlinarith [clampQ_lt_one k])
      (by push_cast; nlinarith [clampQ_nonneg k])
    have hl : truncQ ((1 - 1 / 10000000 - clampQ l) * h) = 0 := by
      rw [heq]
      apply truncQ_eq_of_mem_Ico (le_refl 0) <;> norm_num
    rw [hl]
    exact hk.1

theorem marker_pixel_index {k : Dbl × Dbl} (h1 : IsReal k.1 0) (h2 : IsReal k.2 0)
    {tex : Texture} (hw : 0 < tex.width) (hh : 0 < tex.height) :
    pixel_index k tex = some (0, 0) := by
  rw [pixel_index_of_isReal h1 h2]
  have hz : truncQ 0 = 0 := by decide!
  simp only [zero_mul, hz]
  rw [if_pos ⟨le_refl 0, le_refl 0, by exact_mod_cast hw, by exact_mod_cast hh⟩]

theorem clampQ_of_one_le {k : ℚ} (h : 1 ≤ k) : clampQ k = 1 - 1 / 10000000 := by
  rw [clampQ_eq, if_neg (not_lt.mpr (by linarith)), if_pos h]

/-- C10 (counterexample): on the front face of the cell `(0, 0, 0)` with a texture of width
20000000 and height 1, the hit at local `x = 1 - 10^-8` is sampled in column 19999999 and the
hit at the larger local `x = 1` in the smaller column 19999998. -/
theorem C10_counterexample :
    0 < (grid_texture 20000000 1).width ∧ 0 < (grid_texture 20000000 1).height ∧
    rect_rejects (Dbl.fin (1 - 1/100000000), Dbl.fin (1/2))
      (unit_front (grid_texture 20000000 1)) = false ∧
    rect_rejects (Dbl.fin 1, Dbl.fin (1/2)) (unit_front (grid_texture 20000000 1)) = false ∧
    pixel_index (tex_fraction (Dbl.fin (1 - 1/100000000), Dbl.fin (1/2))
      (unit_front (grid_texture 20000000 1))) (grid_texture 20000000 1)
      = some (19999999, 0) ∧
    pixel_index (tex_fraction (Dbl.fin 1, Dbl.fin (1/2))
      (unit_front (grid_texture 20000000 1))) (grid_texture 20000000 1)
      = some (19999998, 0) := by
  decide!

/-- C10 (amended): for every target with a non-empty rectangle and a non-empty texture, the
hit at the marker corner (minimal `z` and maximal `y` on an x-fixed face, minimal `x` and
maximal `y` on a z-fixed face, minimal `x` and minimal `z` on a y-fixed face) is accepted by
the rectangle test and sampled at column 0, row 0. Moreover, when the texture is at most
`10^7` pixels wide and high, on the x-fixed and z-fixed faces the sampled row never
increases when the world `y` of the hit increases and the sampled column never decreases when
the horizontal local coordinate (`z` on an x-fixed face, `x` on a z-fixed face) increases. -/
theorem C10_orientation (tg : Target) :
    (0 < tg.texture.width → 0 < tg.texture.height → tg.x1 < tg.x2 → tg.y1 < tg.y2 →
      rect_rejects (marker_corner tg) tg = false ∧
      pixel_index (tex_fraction (marker_corner tg) tg) tg.texture = some (0, 0) ∧
      sample_color tg.texture 0 0 =
        ⟨(tg.texture.image 0 0).red, (tg.texture.image 0 0).green,
          (tg.texture.image 0 0).blue, 0⟩) ∧
    (tg.texture.Small → ∀ f g : Dbl × Dbl, f.1.isFinite = true → f.2.isFinite = true →
      g.1.isFinite = true → g.2.isFinite = true →
      ∃ px py qx qy,
        pixel_index (tex_fraction f tg) tg.texture = some (px, py) ∧
        pixel_index (tex_fraction g tg) tg.texture = some (qx, qy) ∧
        (tg.a ≠ 0 → (f.1.val ≤ g.1.val → qy ≤ py) ∧ (f.2.val ≤ g.2.val → px ≤ qx)) ∧
        (tg.a = 0 → tg.b = 0 →
          (f.2.val ≤ g.2.val → qy ≤ py) ∧ (f.1.val ≤ g.1.val → px ≤ qx))) := by
  constructor
  · intro hw hh hx hy
    have hxq : (tg.x1 : ℚ) < tg.x2 := by exact_mod_cast hx
    have hyq : (tg.y1 : ℚ) < tg.y2 := by exact_mod_cast hy
    have hx1 : (1 : ℚ) ≤ tg.x2 - tg.x1 := by
      have : (1 : ℤ) ≤ tg.x2 - tg.x1 := by omega
      exact_mod_cast this
    have hy1 : (1 : ℚ) ≤ tg.y2 - tg.y1 := by
      have : (1 : ℤ) ≤ tg.y2 - tg.y1 := by omega
      exact_mod_cast this
    have c0 : clampQ 0 = 0 := clampQ_of_mem_Ico (le_refl 0) (by norm_num)
    refine ⟨?_, ?_, rfl⟩
    · unfold marker_corner
      split_ifs
      · rw [rect_rejects_of_isReal (IsReal.ofInt tg.x2) (IsReal.ofInt tg.y1)]
        simp
        exact ⟨hx.le, hy.le⟩
      · rw [rect_rejects_of_isReal (IsReal.ofInt tg.x1) (IsReal.ofInt tg.y1)]
        simp
        exact ⟨hx.le, hy.le⟩
      · rw [rect_rejects_of_isReal (IsReal.ofInt tg.x1) (IsReal.ofInt tg.y2)]
        simp
        exact ⟨hx.le, hy.le⟩
    · by_cases ha : tg.a ≠ 0
      · have hk := @tex_fraction_isReal (marker_corner tg) tg.x2 tg.y1
          (by simp only [marker_corner, if_pos ha]; exact IsReal.ofInt _)
          (by simp only [marker_corner, if_pos ha]; exact IsReal.ofInt _) tg
        have hv : tg.fraction ((tg.x2 : ℚ), (tg.y1 : ℚ)) = (0, 0) := by
          simp only [Target.fraction, if_pos ha, sub_self, c0, clampQ_of_one_le hx1]
        rw [hv] at hk
        exact marker_pixel_index hk.1 hk.2 hw hh
      · by_cases hb : tg.b ≠ 0
        · have hk := @tex_fraction_isReal (marker_corner tg) tg.x1 tg.y1
            (by simp only [marker_corner, if_neg ha, if_pos hb]; exact IsReal.ofInt _)
            (by simp only [marker_corner, if_neg ha, if_pos hb]; exact IsReal.ofInt _) tg
          have hv : tg.fraction ((tg.x1 : ℚ), (tg.y1 : ℚ)) = (0, 0) := by
            simp only [Target.fraction, if_neg ha, if_pos hb, sub_self, c0]
          rw [hv] at hk
          exact marker_pixel_index hk.1 hk.2 hw hh
        · have hk := @tex_fraction_isReal (marker_corner tg) tg.x1 tg.y2
            (by simp only [marker_corner, if_neg ha, if_neg hb]; exact IsReal.ofInt _)
            (by simp only [marker_corner, if_neg ha, if_neg hb]; exact IsReal.ofInt _) tg
          have hv : tg.fraction ((tg.x1 : ℚ), (tg.y2 : ℚ)) = (0, 0) := by
            simp only [Target.fraction, if_neg ha, if_neg hb, sub_self, c0,
              clampQ_of_one_le hy1]
          rw [hv] at hk
          exact marker_pixel_index hk.1 hk.2 hw hh
  · intro hsmall f g hf1 hf2 hg1 hg2
    obtain ⟨hw0, hw1, hh0, hh1⟩ := hsmall
    have kf := tex_fraction_isReal (IsReal.of_isFinite hf1) (IsReal.of_isFinite hf2) tg
    have kg := tex_fraction_isReal (IsReal.of_isFinite hg1) (IsReal.of_isFinite hg2) tg
    obtain ⟨a1, a2, a3, a4⟩ := fraction_bounds tg (f.1.val, f.2.val)
    obtain ⟨b1, b2, b3, b4⟩ := fraction_bounds tg (g.1.val, g.2.val)
    refine ⟨_, _, _, _, pixel_index_safe kf.1 kf.2 hw0 hh0 a1 a2 (Or.inr ⟨a3, hh1⟩) a4,
      pixel_index_safe kg.1 kg.2 hw0 hh0 b1 b2 (Or.inr ⟨b3, hh1⟩) b4, ?_, ?_⟩
    · intro ha
      simp only [Target.fraction, if_pos ha]
      exact ⟨fun h => row_mono hh0 hh1 (by linarith), fun h => column_mono hw0 hw1 (by linarith)⟩
    · intro ha hb
      have ha' : ¬ tg.a ≠ 0 := not_not.mpr ha
      have hb' : ¬ tg.b ≠ 0 := not_not.mpr hb
      simp only [Target.fraction, if_neg ha', if_neg hb']
      exact ⟨fun h => row_mono hh0 hh1 (by linarith), fun h => column_mono hw0 hw1 (by linarith)⟩

/-- C10 (witness): the amended claim at the left face of the cell `(0, 0, 0)` with a texture
of 4 x 4 pixels, for the hits at local `(y, z) = (1/4, 1/4)` and `(3/4, 3/4)`. -/
theorem C10_orientation_witness :
    0 < (unit_left (grid_texture 4 4)).texture.width ∧
    0 < (unit_left (grid_texture 4 4)).texture.height ∧
    (unit_left (grid_texture 4 4)).x1 < (unit_left (grid_texture 4 4)).x2 ∧
    (unit_left (grid_texture 4 4)).y1 < (unit_left (grid_texture 4 4)).y2 ∧
    (unit_left (grid_texture 4 4)).texture.Small ∧
    (rect_rejects (marker_corner (unit_left (grid_texture 4 4)))
        (unit_left (grid_texture 4 4)) = false ∧
      pixel_index (tex_fraction (marker_corner (unit_left (grid_texture 4 4)))
        (unit_left (grid_texture 4 4))) (unit_left (grid_texture 4 4)).texture
        = some (0, 0) ∧
      sample_color (unit_left (grid_texture 4 4)).texture 0 0 =
        ⟨((unit_left (grid_texture 4 4)).texture.image 0 0).red,
          ((unit_left (grid_texture 4 4)).texture.image 0 0).green,
          ((unit_left (grid_texture 4 4)).texture.image 0 0).blue, 0⟩) ∧
    (∃ px py qx qy,
      pixel_index (tex_fraction (Dbl.fin (1/4), Dbl.fin (1/4))
        (unit_left (grid_texture 4 4))) (unit_left (grid_texture 4 4)).texture
        = some (px, py) ∧
      pixel_index (tex_fraction (Dbl.fin (3/4), Dbl.fin (3/4))
        (unit_left (grid_texture 4 4))) (unit_left (grid_texture 4 4)).texture
        = some (qx, qy) ∧
      ((unit_left (grid_texture 4 4)).a ≠ 0 →
        ((Dbl.fin (1/4)).val ≤ (Dbl.fin (3/4)).val → qy ≤ py) ∧
        ((Dbl.fin (1/4)).val ≤ (Dbl.fin (3/4)).val → px ≤ qx)) ∧
      ((unit_left (grid_texture 4 4)).a = 0 → (unit_left (grid_texture 4 4)).b = 0 →
        ((Dbl.fin (1/4)).val ≤ (Dbl.fin (3/4)).val → qy ≤ py) ∧
        ((Dbl.fin (1/4)).val ≤ (Dbl.fin (3/4)).val → px ≤ qx))) ∧
    pixel_index (tex_fraction (Dbl.fin (1/4), Dbl.fin (1/4))
      (unit_left (grid_texture 4 4))) (unit_left (grid_texture 4 4)).texture
      = some (1, 2) ∧
    pixel_index (tex_fraction (Dbl.fin (3/4), Dbl.fin (3/4))
      (unit_left (grid_texture 4 4))) (unit_left (grid_texture 4 4)).texture
      = some (3, 0) :=
  ⟨by decide, by decide, by decide, by decide, by decide,
    (C10_orientation (unit_left (grid_texture 4 4))).1 (by decide) (by decide) (by decide)
      (by decide),
    (C10_orientation (unit_left (grid_texture 4 4))).2 (by decide)
      (Dbl.fin (1/4), Dbl.fin (1/4)) (Dbl.fin (3/4), Dbl.fin (3/4)) rfl rfl rfl rfl,
    by decide!, by decide!⟩

/-- C18: `Coords::operator<` is the lexicographic order on `(x, y, z)`; it is irreflexive and
transitive, and for two cells exactly one of `a < b`, `b < a`, or equality of the three
coordinates holds, so that two keys neither of which is below the other are the same cell. -/
theorem C18_coords_lt_strict_total (a b c : Coords) :
    (Coords.lt a b = true ↔
      a.x < b.x ∨ (a.x = b.x ∧ (a.y < b.y ∨ (a.y = b.y ∧ a.z < b.z)))) ∧
    Coords.lt a a = false ∧
    (Coords.lt a b = true → Coords.lt b c = true → Coords.lt a c = true) ∧
    ((Coords.lt a b = true ∧ Coords.lt b a = false ∧
        ¬ (a.x = b.x ∧ a.y = b.y ∧ a.z = b.z)) ∨
      (Coords.lt a b = false ∧ Coords.lt b a = true ∧
        ¬ (a.x = b.x ∧ a.y = b.y ∧ a.z = b.z)) ∨
      (Coords.lt a b = false ∧ Coords.lt b a = false ∧
        (a.x = b.x ∧ a.y = b.y ∧ a.z = b.z))) ∧
    (Coords.lt a b = false → Coords.lt b a = false → a = b) := by
  have hab := coords_lt_iff a b
  have hba := coords_lt_iff b a
  have hbc := coords_lt_iff b c
  have hac := coords_lt_iff a c
  have haa := coords_lt_iff a a
  have fab : Coords.lt a b = false ↔
      ¬ (a.x < b.x ∨ (a.x = b.x ∧ (a.y < b.y ∨ (a.y = b.y ∧ a.z < b.z)))) := by
    rw [← hab]; simp
  have fba : Coords.lt b a = false ↔
      ¬ (b.x < a.x ∨ (b.x = a.x ∧ (b.y < a.y ∨ (b.y = a.y ∧ b.z < a.z)))) := by
    rw [← hba]; simp
  refine ⟨hab, ?_, ?_, ?_, ?_⟩
  · have : ¬ (Coords.lt a a = true) := by rw [haa]; omega
    simpa using this
  · rw [hab, hbc, hac]; omega
  · rw [hab, hba, fab, fba]; omega
  · rw [fab, fba]
    intro h1 h2
    cases a; cases b
    simp only [Coords.mk.injEq] at *
    omega

/-- C18 (witness): the order at the cells `(0, 1, 5)`, `(0, 2, 0)` and `(1, 0, 0)`. -/
theorem C18_coords_lt_strict_total_witness :
    Coords.lt ⟨0, 1, 5⟩ ⟨0, 2, 0⟩ = true ∧ Coords.lt ⟨0, 2, 0⟩ ⟨1, 0, 0⟩ = true ∧
    Coords.lt ⟨0, 1, 5⟩ ⟨1, 0, 0⟩ = true :=
  ⟨by decide, by decide,
    (C18_coords_lt_strict_total ⟨0, 1, 5⟩ ⟨0, 2, 0⟩ ⟨1, 0, 0⟩).2.2.1 (by decide) (by decide)⟩

/-- C15: for a world with `n` occupied cells the target list has exactly `6 * n` entries (the
faces shared by adjacent cells are not merged), and every target has exactly one non-zero
coefficient among `a`, `b`, `c`, each coefficient being `0`, `1` or `-1`, and a unit-square
rectangle `x2 = x1 + 1`, `y2 = y1 + 1`. -/
theorem C15_face_list_structure (world : World) :
    (build_targets world).length = 6 * world.cells.length ∧
    ∀ tg ∈ build_targets world,
      ((tg.a ≠ 0 ∧ tg.b = 0 ∧ tg.c = 0) ∨ (tg.a = 0 ∧ tg.b ≠ 0 ∧ tg.c = 0) ∨
        (tg.a = 0 ∧ tg.b = 0 ∧ tg.c ≠ 0)) ∧
      (tg.a = 0 ∨ tg.a = 1 ∨ tg.a = -1) ∧ (tg.b = 0 ∨ tg.b = 1 ∨ tg.b = -1) ∧
      (tg.c = 0 ∨ tg.c = 1 ∨ tg.c = -1) ∧
      tg.x2 = tg.x1 + 1 ∧ tg.y2 = tg.y1 + 1 := by
  constructor
  · unfold build_targets
    induction world.cells with
    | nil => rfl
    | cons entry rest ih =>
      have h6 : (cell_targets entry.1 entry.2).length = 6 := rfl
      rw [List.flatMap_cons, List.length_append, ih, h6, List.length_cons]
      omega
  · intro tg htg
    unfold build_targets at htg
    obtain ⟨entry, _, ht⟩ := List.mem_flatMap.mp htg
    simp only [cell_targets, List.mem_cons, List.mem_singleton, List.not_mem_nil, or_false]
      at ht
    rcases ht with h | h | h | h | h | h <;> subst h <;> simp

/-- C15 (witness): two adjacent cells give twelve targets, the face they share being listed
twice (as the right face of the first cell and the left face of the second one). -/
theorem C15_face_list_structure_witness :
    (build_targets adjacent_world).length = 6 * adjacent_world.cells.length ∧
    (build_targets adjacent_world).length = 12 ∧
    ((build_targets adjacent_world).map (fun tg => (tg.a, tg.b, tg.c, tg.d))).count
      (-1, 0, 0, 1) = 2 :=
  ⟨(C15_face_list_structure adjacent_world).1, by decide, by decide⟩

/-- C14: for every target and every real ray with non-zero denominator, `t = -num / den` has
the value `-(a*ox+b*oy+c*oz+d) / (a*dx+b*dy+c*dz)`, the hit point `camera + delta * t`
satisfies the plane equation `a*x + b*y + c*z + d = 0` (also as `num` is computed by the
code), and every real parameter whose point satisfies the plane equation has the value of
`t`. -/
theorem C14_param_solves_plane (tg : Target) (camera delta : Point4) (hc : camera.Finite)
    (hd : delta.Finite) (h0 : tg.den delta ≠ 0) :
    (ray_t camera delta tg).isFinite = true ∧
    (ray_t camera delta tg).val =
      -(tg.a * camera.x.val + tg.b * camera.y.val + tg.c * camera.z.val + tg.d) /
        (tg.a * delta.x.val + tg.b * delta.y.val + tg.c * delta.z.val) ∧
    (hit_point camera delta (ray_t camera delta tg)).Finite ∧
    tg.a * (hit_point camera delta (ray_t camera delta tg)).x.val +
      tg.b * (hit_point camera delta (ray_t camera delta tg)).y.val +
      tg.c * (hit_point camera delta (ray_t camera delta tg)).z.val + tg.d = 0 ∧
    (ray_num (hit_point camera delta (ray_t camera delta tg)) tg).val = 0 ∧
    ∀ s : Dbl, s.isFinite = true →
      tg.a * (hit_point camera delta s).x.val + tg.b * (hit_point camera delta s).y.val +
        tg.c * (hit_point camera delta s).z.val + tg.d = 0 →
      s.val = (ray_t camera delta tg).val := by
  have ht := ray_t_isReal hc hd tg h0
  obtain ⟨hx, hy, hz⟩ := hit_point_isReal hc hd ht
  have hfin : (hit_point camera delta (ray_t camera delta tg)).Finite := ⟨hx.1, hy.1, hz.1⟩
  have hden : tg.a * delta.x.val + tg.b * delta.y.val + tg.c * delta.z.val ≠ 0 := h0
  have hplane : tg.a * (hit_point camera delta (ray_t camera delta tg)).x.val +
      tg.b * (hit_point camera delta (ray_t camera delta tg)).y.val +
      tg.c * (hit_point camera delta (ray_t camera delta tg)).z.val + tg.d = 0 := by
    rw [hx.2, hy.2, hz.2]
    unfold Target.param Target.num Target.den
    field_simp
    ring
  refine ⟨ht.1, ?_, hfin, hplane, ?_, ?_⟩
  · rw [ht.2]; rfl
  · rw [(ray_num_isReal hfin tg).2]
    exact hplane
  · intro s hs heq
    obtain ⟨sx, sy, sz⟩ := hit_point_isReal hc hd (IsReal.of_isFinite hs)
    rw [sx.2, sy.2, sz.2] at heq
    rw [ht.2]
    unfold Target.param Target.num Target.den
    field_simp
    linarith

/-- C14 (witness): the front face of the cell `(0, 0, 0)` and the ray from `(1/2, 1/2, -3)`
in direction `(0, 0, 1)`: `t = 3`. -/
theorem C14_param_solves_plane_witness :
    (Point4.ofRat (1/2) (1/2) (-3)).Finite ∧ (Point4.ofRat 0 0 1).Finite ∧
    (unit_front (solid_texture 5)).den (Point4.ofRat 0 0 1) ≠ 0 ∧
    (ray_t (Point4.ofRat (1/2) (1/2) (-3)) (Point4.ofRat 0 0 1)
      (unit_front (solid_texture 5))).isFinite = true ∧
    ray_t (Point4.ofRat (1/2) (1/2) (-3)) (Point4.ofRat 0 0 1) (unit_front (solid_texture 5))
      = Dbl.fin 3 :=
  ⟨⟨rfl, rfl, rfl⟩, ⟨rfl, rfl, rfl⟩, by decide!,
    (C14_param_solves_plane (unit_front (solid_texture 5)) (Point4.ofRat (1/2) (1/2) (-3))
      (Point4.ofRat 0 0 1) ⟨rfl, rfl, rfl⟩ ⟨rfl, rfl, rfl⟩ (by decide!)).1,
    by decide!⟩

theorem clamp_of_mem_Ico {k : Dbl} {q : ℚ} (h : IsReal k q) (h0 : 0 ≤ q) (h1 : q < 1) :
    clamp k = k := by
  have z0 : IsReal (Dbl.ofInt 0) 0 := by simpa using IsReal.ofInt 0
  have z1 : IsReal (Dbl.ofInt 1) 1 := by simpa using IsReal.ofInt 1
  unfold clamp
  simp only [h.lt z0, not_lt.mpr h0, decide_False, Bool.false_eq_true, if_false, Dbl.ge,
    z1.le h, not_le.mpr h1]

theorem clamp_of_neg {k : Dbl} {q : ℚ} (h : IsReal k q) (h0 : q < 0) :
    clamp k = Dbl.ofInt 0 := by
  have z0 : IsReal (Dbl.ofInt 0) 0 := by simpa using IsReal.ofInt 0
  have z1 : IsReal (Dbl.ofInt 1) 1 := by simpa using IsReal.ofInt 1
  unfold clamp
  simp only [h.lt z0, h0, decide_True, if_true, Dbl.ge, z1.le z0]
  norm_num

theorem clamp_of_one_le {k : Dbl} {q : ℚ} (h : IsReal k q) (h1 : 1 ≤ q) :
    clamp k = one_minus_eps := by
  have z0 : IsReal (Dbl.ofInt 0) 0 := by simpa using IsReal.ofInt 0
  have z1 : IsReal (Dbl.ofInt 1) 1 := by simpa using IsReal.ofInt 1
  unfold clamp
  have hn : ¬ q < 0 := by linarith
  simp only [h.lt z0, hn, decide_False, Bool.false_eq_true, if_false, Dbl.ge, z1.le h, h1,
    decide_True, if_true]

/-- C13: for every real local coordinate `f` and every integer corner `x1`, the clamped
fraction `clamp (f - x1)` is a real number in `[0, 1)`; a value of `f - x1` already in `[0, 1)`
is returned unchanged, a value below `0` becomes `0` and a value `>= 1` becomes `1 - 1e-7`;
and a hit on the upper edge of a unit rectangle (local offset `1` in `flatx` or in `flaty`) is
accepted by the rectangle test and its offset is mapped to `1 - 1e-7`. -/
theorem C13_clamp_range (f : Dbl) (x1 : Int) (hf : f.isFinite = true) :
    ((clamp (Dbl.sub f (Dbl.ofInt x1))).isFinite = true ∧
      0 ≤ (clamp (Dbl.sub f (Dbl.ofInt x1))).val ∧
      (clamp (Dbl.sub f (Dbl.ofInt x1))).val < 1) ∧
    (0 ≤ f.val - x1 → f.val - x1 < 1 →
      clamp (Dbl.sub f (Dbl.ofInt x1)) = Dbl.sub f (Dbl.ofInt x1) ∧
      (clamp (Dbl.sub f (Dbl.ofInt x1))).val = f.val - x1) ∧
    (f.val - x1 < 0 → clamp (Dbl.sub f (Dbl.ofInt x1)) = Dbl.ofInt 0) ∧
    (1 ≤ f.val - x1 → clamp (Dbl.sub f (Dbl.ofInt x1)) = one_minus_eps) ∧
    one_minus_eps.val = 1 - 1 / 10000000 ∧
    (∀ tg : Target, tg.x2 = tg.x1 + 1 → tg.y2 = tg.y1 + 1 →
      (tg.y1 : ℚ) ≤ f.val → f.val ≤ tg.y2 →
      rect_rejects (Dbl.ofInt tg.x2, f) tg = false ∧
      clamp (Dbl.sub (Dbl.ofInt tg.x2) (Dbl.ofInt tg.x1)) = one_minus_eps) ∧
    (∀ tg : Target, tg.x2 = tg.x1 + 1 → tg.y2 = tg.y1 + 1 →
      (tg.x1 : ℚ) ≤ f.val → f.val ≤ tg.x2 →
      rect_rejects (f, Dbl.ofInt tg.y2) tg = false ∧
      clamp (Dbl.sub (Dbl.ofInt tg.y2) (Dbl.ofInt tg.y1)) = one_minus_eps) := by
  have hk := (IsReal.of_isFinite hf).sub (IsReal.ofInt x1)
  have hc := clamp_isReal hk
  refine ⟨⟨hc.1, ?_, ?_⟩, ?_, ?_, ?_, one_minus_eps_isReal.2, ?_, ?_⟩
  · rw [hc.2]; exact clampQ_nonneg _
  · rw [hc.2]; exact clampQ_lt_one _
  · intro h0 h1
    have := clamp_of_mem_Ico hk h0 h1
    exact ⟨this, by rw [this, hk.2]⟩
  · intro h0; exact clamp_of_neg hk h0
  · intro h1; exact clamp_of_one_le hk h1
  · intro tg hx hy h1 h2
    constructor
    · rw [@rect_rejects_of_isReal (Dbl.ofInt tg.x2, f) tg.x2 f.val (IsReal.ofInt _)
        (IsReal.of_isFinite hf)]
      have : (tg.x1 : ℚ) ≤ tg.x2 := by rw [hx]; push_cast; linarith
      simp [not_lt.mpr this, not_lt.mpr h1, not_lt.mpr h2]
    · apply clamp_of_one_le ((IsReal.ofInt tg.x2).sub (IsReal.ofInt tg.x1))
      rw [hx]; push_cast; linarith
  · intro tg hx hy h1 h2
    constructor
    · rw [@rect_rejects_of_isReal (f, Dbl.ofInt tg.y2) f.val tg.y2 (IsReal.of_isFinite hf)
        (IsReal.ofInt _)]
      have : (tg.y1 : ℚ) ≤ tg.y2 := by rw [hy]; push_cast; linarith
      simp [not_lt.mpr this, not_lt.mpr h1, not_lt.mpr h2]
    · apply clamp_of_one_le ((IsReal.ofInt tg.y2).sub (IsReal.ofInt tg.y1))
      rw [hy]; push_cast; linarith

/-- C13 (witness): the claim at the local coordinate `7/4` and the corner `1`: the offset
`3/4` is left unchanged. -/
theorem C13_clamp_range_witness :
    (Dbl.fin (7/4)).isFinite = true ∧
    (clamp (Dbl.sub (Dbl.fin (7/4)) (Dbl.ofInt 1))).isFinite = true ∧
    0 ≤ (clamp (Dbl.sub (Dbl.fin (7/4)) (Dbl.ofInt 1))).val ∧
    (clamp (Dbl.sub (Dbl.fin (7/4)) (Dbl.ofInt 1))).val < 1 ∧
    clamp (Dbl.sub (Dbl.fin (7/4)) (Dbl.ofInt 1)) = Dbl.fin (3/4) ∧
    clamp (Dbl.sub (Dbl.fin 2) (Dbl.ofInt 1)) = Dbl.fin (9999999/10000000) :=
  ⟨rfl, (C13_clamp_range (Dbl.fin (7/4)) 1 rfl).1.1, (C13_clamp_range (Dbl.fin (7/4)) 1 rfl).1.2.1,
    (C13_clamp_range (Dbl.fin (7/4)) 1 rfl).1.2.2, by decide!, by decide!⟩

/-- C11 (counterexample): a target whose `t` equals the current best distance is not rejected
by the distance test, and it replaces the current best colour: with `min_value` holding the
distance 3 and the colour `(9, 9, 9)`, the front face of the cell `(0, 0, 0)`, hit at `t = 3`,
stores its own colour `(5, 5, 5)`. -/
theorem C11_counterexample :
    ray_t (Point4.ofRat (1/2) (1/2) (-3)) (Point4.ofRat 0 0 1) (unit_front (solid_texture 5))
      = Dbl.fin 3 ∧
    distance_rejects (Dbl.fin 3) (Dbl.fin 3) = false ∧
    scan_target (Point4.ofRat (1/2) (1/2) (-3)) (Point4.ofRat 0 0 1)
      (Dbl.fin 3, ⟨9, 9, 9, 0⟩) (unit_front (solid_texture 5)) =
      some (Dbl.fin 3, ⟨5, 5, 5, 0⟩) := by
  decide!

/-- C11 (amended): with a best distance that is `+infinity` or real, and apart from the case
`t = +infinity` while the best distance is still `+infinity`, a target is rejected by the
distance test exactly when its `t` is negative, is not finite, or is strictly greater than
the best distance. In particular a target whose real `t >= 0` equals the best distance is not
rejected, and when its intersection is valid the loop body stores the colour sampled from it
in place of the best colour. -/
theorem C11_distance_test (t best : Dbl) (hb : best = Dbl.pinf ∨ best.isFinite = true)
    (hex : ¬ (t = Dbl.pinf ∧ best = Dbl.pinf)) :
    (distance_rejects t best = true ↔
      (t.isFinite = true ∧ t.val < 0) ∨ t.isFinite = false ∨
        (t.isFinite = true ∧ best.isFinite = true ∧ best.val < t.val)) ∧
    (t.isFinite = true → best.isFinite = true → 0 ≤ t.val → t.val = best.val →
      distance_rejects t best = false) ∧
    (∀ (camera delta : Point4) (tg : Target) (c0 : Color), camera.Finite → delta.Finite →
      tg.Valid camera delta → best.isFinite = true → best.val = tg.param camera delta →
      scan_target camera delta (best, c0) tg =
        (hit_color camera delta tg).map (fun c => (ray_t camera delta tg, c))) := by
  refine ⟨?_, ?_, ?_⟩
  · rcases hb with hb | hb
    · subst hb
      cases t <;> simp [distance_rejects, Dbl.lt, Dbl.gt, Dbl.isNaN, Dbl.isFinite, Dbl.ofInt,
        Dbl.val] at hex ⊢
    · rcases isFinite_cases hb with hb' | ⟨q, hb'⟩ <;> subst hb' <;> cases t <;>
        simp [distance_rejects, Dbl.lt, Dbl.gt, Dbl.isNaN, Dbl.isFinite, Dbl.ofInt, Dbl.val]
  · intro ht hbf h0 heq
    have z0 : IsReal (Dbl.ofInt 0) 0 := by simpa using IsReal.ofInt 0
    simp [distance_rejects, Dbl.gt, (IsReal.of_isFinite ht).lt z0,
      (IsReal.of_isFinite hbf).lt (IsReal.of_isFinite ht), isNaN_of_isFinite ht, h0, heq.symm]
  · intro camera delta tg c0 hc hd hv hbf heq
    rw [scan_target_of_valid hc hd hv]
    have ht := ray_t_isReal hc hd tg hv.1
    have : Dbl.lt best (ray_t camera delta tg) = false := by
      rw [(IsReal.of_isFinite hbf).lt ht, heq]
      simp
    simp [this]

/-- C11 (witness): the amended claim at `t = 3` and the best distance `3`. -/
theorem C11_distance_test_witness :
    (Dbl.fin 3 = Dbl.pinf ∨ (Dbl.fin 3).isFinite = true) ∧
    ¬ (Dbl.fin 3 = Dbl.pinf ∧ Dbl.fin 3 = Dbl.pinf) ∧
    distance_rejects (Dbl.fin 3) (Dbl.fin 3) = false :=
  ⟨Or.inr rfl, by decide,
    (C11_distance_test (Dbl.fin 3) (Dbl.fin 3) (Or.inr rfl) (by decide)).2.1 rfl rfl
      (by norm_num [Dbl.val]) rfl⟩

theorem truncQ_eq_zero_of_neg {q : ℚ} (h : q < 0) (h0 : 0 ≤ truncQ q) : truncQ q = 0 := by
  rw [truncQ_of_nonpos h.le] at h0 ⊢
  have : ⌈q⌉ ≤ 0 := Int.ceil_le.mpr (by exact_mod_cast h.le)
  omega

/-- C12 (counterexample): on the front face of the cell `(0, 0, 0)` with a texture of 4 x 4
pixels, the accepted hit at local coordinates `(1/2, 1 - 5e-8)` has `ky = -5e-8` after the
flip; the texture is read at `pixel_y = 0`, while `floor(ky * 4) = -1`. -/
theorem C12_counterexample :
    rect_rejects (Dbl.fin (1/2), Dbl.fin (1 - 5/100000000)) (unit_front (grid_texture 4 4))
      = false ∧
    tex_fraction (Dbl.fin (1/2), Dbl.fin (1 - 5/100000000)) (unit_front (grid_texture 4 4))
      = (Dbl.fin (1/2), Dbl.fin (-(5/100000000))) ∧
    pixel_index (Dbl.fin (1/2), Dbl.fin (-(5/100000000))) (grid_texture 4 4) = some (2, 0) ∧
    ⌊(-(5/100000000) : ℚ) * ((grid_texture 4 4).height : ℚ)⌋ = -1 := by
  refine ⟨by decide!, by decide!, by decide!, ?_⟩
  rw [Int.floor_eq_iff]
  norm_num [grid_texture]

/-- C12 (amended): for every accepted hit with real local coordinates, with `(kx, ky)` the
values after clamping and the orientation convention, the indices used to read the texture
are `kx * width` and `ky * height` truncated toward zero: `pixel_x = floor(kx * width)`,
`pixel_y = floor(ky * height)` when `ky >= 0` and `pixel_y = 0` when `ky < 0`; and the texture
of a target that can be sampled is read at these indices. -/
theorem C12_pixel_index_truncates (tg : Target) (flat : Dbl × Dbl)
    (h1 : flat.1.isFinite = true) (h2 : flat.2.isFinite = true) :
    (tex_fraction flat tg).1.isFinite = true ∧ (tex_fraction flat tg).2.isFinite = true ∧
    0 ≤ (tex_fraction flat tg).1.val ∧
    (∀ px py, pixel_index (tex_fraction flat tg) tg.texture = some (px, py) →
      px = ⌊(tex_fraction flat tg).1.val * tg.texture.width⌋ ∧
      (0 ≤ (tex_fraction flat tg).2.val →
        py = ⌊(tex_fraction flat tg).2.val * tg.texture.height⌋) ∧
      ((tex_fraction flat tg).2.val < 0 → py = 0)) ∧
    (tg.Samplable →
      pixel_index (tex_fraction flat tg) tg.texture =
        some (⌊(tex_fraction flat tg).1.val * tg.texture.width⌋,
          if 0 ≤ (tex_fraction flat tg).2.val
          then ⌊(tex_fraction flat tg).2.val * tg.texture.height⌋ else 0)) := by
  obtain ⟨k1, k2⟩ := tex_fraction_isReal (IsReal.of_isFinite h1) (IsReal.of_isFinite h2) tg
  obtain ⟨b1, b2, b3, b4⟩ := fraction_bounds tg (flat.1.val, flat.2.val)
  have hw : (0 : ℚ) ≤ tg.texture.width := by positivity
  have hh : (0 : ℚ) ≤ tg.texture.height := by positivity
  have hpx : truncQ ((tg.fraction (flat.1.val, flat.2.val)).1 * tg.texture.width) =
      ⌊(tg.fraction (flat.1.val, flat.2.val)).1 * tg.texture.width⌋ :=
    truncQ_of_nonneg (mul_nonneg b1 hw)
  rw [k1.2, k2.2]
  refine ⟨k1.1, k2.1, b1, ?_, ?_⟩
  · intro px py hidx
    rw [pixel_index_of_isReal k1 k2] at hidx
    split_ifs at hidx with hb
    simp only [Option.some.injEq, Prod.mk.injEq] at hidx
    obtain ⟨hx, hy⟩ := hidx
    refine ⟨by rw [← hx, hpx], ?_, ?_⟩
    · intro hq
      rw [← hy, truncQ_of_nonneg (mul_nonneg hq hh)]
    · intro hq
      rw [← hy]
      by_cases hz : (tg.texture.height : ℚ) = 0
      · rw [hz, mul_zero]; decide!
      · have hpos : (0 : ℚ) < tg.texture.height := lt_of_le_of_ne hh (Ne.symm hz)
        exact truncQ_eq_zero_of_neg (mul_neg_of_neg_of_pos hq hpos) hb.2.1
  · intro hs
    obtain ⟨sw, sh, smax⟩ := hs
    have hq0 : 0 ≤ (tg.fraction (flat.1.val, flat.2.val)).2 ∨
        (-(1 / 10000000) < (tg.fraction (flat.1.val, flat.2.val)).2 ∧
          tg.texture.height ≤ 10000000) := by
      by_cases hy : tg.a ≠ 0 ∨ tg.b = 0
      · exact Or.inr ⟨b3, smax hy⟩
      · push_neg at hy
        exact Or.inl (fraction_snd_nonneg tg _ hy.1 hy.2)
    have hidx := pixel_index_safe k1 k2 sw sh b1 b2 hq0 b4
    rw [hidx, hpx]
    have hpos : (0 : ℚ) < tg.texture.height := by exact_mod_cast sh
    by_cases hq : 0 ≤ (tg.fraction (flat.1.val, flat.2.val)).2
    · rw [if_pos hq, truncQ_of_nonneg (mul_nonneg hq hh)]
    · rw [if_neg hq]
      push_neg at hq
      have hnn : 0 ≤ truncQ ((tg.fraction (flat.1.val, flat.2.val)).2 * tg.texture.height) := by
        have := hidx
        rw [pixel_index_of_isReal k1 k2] at this
        split_ifs at this with hb
        exact hb.2.1
      rw [truncQ_eq_zero_of_neg (mul_neg_of_neg_of_pos hq hpos) hnn]

/-- C12 (witness): the amended claim at the hit of the counterexample: the texture is read at
column `floor(1/2 * 4) = 2` and row `0`. -/
theorem C12_pixel_index_truncates_witness :
    (Dbl.fin (1/2)).isFinite = true ∧ (Dbl.fin (1 - 5/100000000)).isFinite = true ∧
    (unit_front (grid_texture 4 4)).Samplable ∧
    pixel_index
      (tex_fraction (Dbl.fin (1/2), Dbl.fin (1 - 5/100000000)) (unit_front (grid_texture 4 4)))
      (unit_front (grid_texture 4 4)).texture =
      some (⌊(tex_fraction (Dbl.fin (1/2), Dbl.fin (1 - 5/100000000))
          (unit_front (grid_texture 4 4))).1.val *
            (unit_front (grid_texture 4 4)).texture.width⌋,
        if 0 ≤ (tex_fraction (Dbl.fin (1/2), Dbl.fin (1 - 5/100000000))
          (unit_front (grid_texture 4 4))).2.val
        then ⌊(tex_fraction (Dbl.fin (1/2), Dbl.fin (1 - 5/100000000))
          (unit_front (grid_texture 4 4))).2.val *
            (unit_front (grid_texture 4 4)).texture.height⌋ else 0) ∧
    pixel_index
      (tex_fraction (Dbl.fin (1/2), Dbl.fin (1 - 5/100000000)) (unit_front (grid_texture 4 4)))
      (unit_front (grid_texture 4 4)).texture = some (2, 0) :=
  ⟨rfl, rfl, by decide,
    (C12_pixel_index_truncates (unit_front (grid_texture 4 4))
      (Dbl.fin (1/2), Dbl.fin (1 - 5/100000000)) rfl rfl).2.2.2.2 (by decide),
    by decide!⟩

theorem point_on_screen_isReal (x y : Nat) :
    IsReal (point_on_screen x y).x ((x : ℚ) / 800 * (2 / 5) - 1 / 5) ∧
    IsReal (point_on_screen x y).y (-((y : ℚ) / 600 * (3 / 10) - 3 / 20)) ∧
    IsReal (point_on_screen x y).z (1 / 5) ∧
    IsReal (point_on_screen x y).w 0 := by
  have hx := (((IsReal.ofNat x).div (IsReal.ofNat img_width) (by norm_num [img_width])).mul
    (IsReal.fin (2 / 5))).sub ((IsReal.fin (2 / 5)).div (IsReal.ofInt 2) (by norm_num))
  have hy := ((((IsReal.ofNat y).div (IsReal.ofNat img_height) (by norm_num [img_height])).mul
    (IsReal.fin (3 / 10))).sub ((IsReal.fin (3 / 10)).div (IsReal.ofInt 2) (by norm_num))).neg
  refine ⟨?_, ?_, IsReal.fin _, by simpa using IsReal.ofInt 0⟩
  · convert hx using 1
    norm_num [img_width]
  · convert hy using 1
    norm_num [img_height]

theorem pixel_delta_isReal (x y : Nat) :
    IsReal (pixel_delta x y).x ((x : ℚ) / 800 * (2 / 5) - 1 / 5) ∧
    IsReal (pixel_delta x y).y (-((y : ℚ) / 600 * (3 / 10) - 3 / 20)) ∧
    IsReal (pixel_delta x y).z (1 / 5) ∧
    IsReal (pixel_delta x y).w 0 := by
  obtain ⟨hx, hy, hz, hw⟩ := point_on_screen_isReal x y
  have z0 : IsReal (Dbl.ofInt 0) 0 := by simpa using IsReal.ofInt 0
  refine ⟨?_, ?_, ?_, ?_⟩
  · simpa [pixel_delta, Point4.sub, Point4.add, Point4.neg, main_camera] using hx.add z0.neg
  · simpa [pixel_delta, Point4.sub, Point4.add, Point4.neg, main_camera] using hy.add z0.neg
  · simpa [pixel_delta, Point4.sub, Point4.add, Point4.neg, main_camera] using hz.add z0.neg
  · simpa [pixel_delta, Point4.sub, Point4.add, Point4.neg, main_camera] using hw.add z0.neg

theorem add_neg_zero {x : Dbl} (hx : x.isFinite = true) :
    Dbl.add x (Dbl.neg (Dbl.ofInt 0)) = x := by
  cases x <;> simp [Dbl.isFinite] at hx <;> simp [Dbl.add, Dbl.neg, Dbl.ofInt]

theorem pixel_delta_eq (x y : Nat) : pixel_delta x y = point_on_screen x y := by
  obtain ⟨hx, hy, hz, hw⟩ := point_on_screen_isReal x y
  unfold pixel_delta Point4.sub Point4.add Point4.neg main_camera
  simp only [add_neg_zero hx.1, add_neg_zero hy.1, add_neg_zero hz.1, add_neg_zero hw.1]

theorem render_rows_some (world : World) (x : Nat) (ys : List Nat)
    (state : Image × List (Nat × Nat))
    (h : ∀ y ∈ ys, ∃ p, render_pixel world x y = some p) :
    ∃ next, render_rows world x ys state = some next := by
  induction ys generalizing state with
  | nil => exact ⟨state, rfl⟩
  | cons y rest ih =>
    obtain ⟨p, hp⟩ := h y (List.mem_cons_self _ _)
    simp only [render_rows, hp]
    exact ih _ (fun y' hy' => h y' (List.mem_cons_of_mem _ hy'))

theorem render_rows_spec (world : World) (x : Nat) (ys : List Nat) (hnd : ys.Nodup)
    (state next : Image × List (Nat × Nat))
    (h : render_rows world x ys state = some next) :
    next.2 = state.2 ++ ys.map (fun y => (x, y)) ∧
    (∀ y ∈ ys, render_pixel world x y = some (next.1 y x)) ∧
    (∀ row col, ¬ (col = x ∧ row ∈ ys) → next.1 row col = state.1 row col) := by
  induction ys generalizing state with
  | nil =>
    simp only [render_rows, Option.some.injEq] at h
    subst h
    simp
  | cons y rest ih =>
    simp only [render_rows] at h
    cases hp : render_pixel world x y with
    | none => rw [hp] at h; exact absurd h (by simp)
    | some p =>
      rw [hp] at h
      obtain ⟨hny, hnd'⟩ := List.nodup_cons.mp hnd
      obtain ⟨h1, h2, h3⟩ := ih hnd' _ h
      refine ⟨?_, ?_, ?_⟩
      · rw [h1]; simp
      · intro y' hy'
        rcases List.mem_cons.mp hy' with heq | hmem
        · subst heq
          rw [h3 y' x (fun hc => hny hc.2), hp]
          simp [Image.set]
        · exact h2 y' hmem
      · intro row col hn
        rw [h3 row col (fun hc => hn ⟨hc.1, List.mem_cons_of_mem _ hc.2⟩)]
        unfold Image.set
        simp only
        rw [if_neg]
        rintro ⟨hr, hc⟩
        exact hn ⟨hc, by rw [hr]; exact List.mem_cons_self _ _⟩

theorem render_columns_some (world : World) (xs : List Nat)
    (state : Image × List (Nat × Nat))
    (h : ∀ x ∈ xs, ∀ y ∈ List.range img_height, ∃ p, render_pixel world x y = some p) :
    ∃ next, render_columns world xs state = some next := by
  induction xs generalizing state with
  | nil => exact ⟨state, rfl⟩
  | cons x rest ih =>
    obtain ⟨mid, hmid⟩ := render_rows_some world x (List.range img_height) state
      (h x (List.mem_cons_self _ _))
    simp only [render_columns, hmid]
    exact ih _ (fun x' hx' => h x' (List.mem_cons_of_mem _ hx'))

theorem render_columns_spec (world : World) (xs : List Nat) (hnd : xs.Nodup)
    (state next : Image × List (Nat × Nat))
    (h : render_columns world xs state = some next) :
    next.2 = state.2 ++ xs.flatMap (fun x => (List.range img_height).map (fun y => (x, y))) ∧
    (∀ x ∈ xs, ∀ y ∈ List.range img_height, render_pixel world x y = some (next.1 y x)) ∧
    (∀ row col, col ∉ xs → next.1 row col = state.1 row col) := by
  induction xs generalizing state with
  | nil =>
    simp only [render_columns, Option.some.injEq] at h
    subst h
    simp
  | cons x rest ih =>
    simp only [render_columns] at h
    cases hm : render_rows world x (List.range img_height) state with
    | none => rw [hm] at h; exact absurd h (by simp)
    | some mid =>
      rw [hm] at h
      obtain ⟨hnx, hnd'⟩ := List.nodup_cons.mp hnd
      obtain ⟨r1, r2, r3⟩ := render_rows_spec world x _ (List.nodup_range _) state mid hm
      obtain ⟨h1, h2, h3⟩ := ih hnd' _ h
      refine ⟨?_, ?_, ?_⟩
      · rw [h1, r1]; simp
      · intro x' hx' y hy
        rcases List.mem_cons.mp hx' with heq | hmem
        · subst heq
          rw [h3 y x' hnx]
          exact r2 y hy
        · exact h2 x' hmem y hy
      · intro row col hn
        rw [h3 row col (fun hc => hn (List.mem_cons_of_mem _ hc))]
        exact r3 row col (fun hc => hn (by rw [hc.1]; exact List.mem_cons_self _ _))

theorem pixel_grid_mem (x y : Nat) : (x, y) ∈ pixel_grid ↔ x < 800 ∧ y < 600 := by
  unfold pixel_grid
  simp only [List.mem_flatMap, List.mem_map, List.mem_range, Prod.mk.injEq, img_width,
    img_height]
  constructor
  · rintro ⟨a, ha, b, hb, h1, h2⟩
    subst h1; subst h2
    exact ⟨ha, hb⟩
  · rintro ⟨hx, hy⟩
    exact ⟨x, hx, y, hy, rfl, rfl⟩

theorem pixel_grid_nodup : pixel_grid.Nodup := by
  unfold pixel_grid
  rw [List.nodup_flatMap]
  refine ⟨fun x _ => (List.nodup_range _).map (fun a b h => (Prod.mk.inj h).2), ?_⟩
  refine (List.nodup_range _).imp ?_
  intro a b hab
  rw [Function.onFun, List.disjoint_left]
  intro p hp hq
  obtain ⟨y, _, hy⟩ := List.mem_map.mp hp
  obtain ⟨y', _, hy'⟩ := List.mem_map.mp hq
  rw [← hy'] at hy
  exact hab (Prod.mk.inj hy).1

/-- C17: for every pixel `(x, y)` the camera is the origin and the direction passed to
`trace_ray` is the view-plane point `(x/800*0.4 - 0.2, -(y/600*0.3 - 0.15), 0.2)`; the pixel
`(0, 0)` maps to `(-0.2, 0.15, 0.2)`; `wx` is strictly increasing in `x` and `wy` strictly
decreasing in `y`; the pixels visited are the pixels with `x < 800` and `y < 600`, each
exactly once; the loop completes when every call of `trace_ray` returns, and when it completes
`trace_ray` has been called exactly once for each pixel and the pixel written at row `y`,
column `x` holds the red, green and blue of the colour returned for `(x, y)`. -/
theorem C17_driver_mapping (world : World) :
    (main_camera.x.val = 0 ∧ main_camera.y.val = 0 ∧ main_camera.z.val = 0 ∧
      main_camera.Finite) ∧
    (∀ x y : Nat, pixel_delta x y = point_on_screen x y ∧
      (pixel_delta x y).Finite ∧
      (pixel_delta x y).x.val = (x : ℚ) / 800 * (4 / 10) - 2 / 10 ∧
      (pixel_delta x y).y.val = -((y : ℚ) / 600 * (3 / 10) - 15 / 100) ∧
      (pixel_delta x y).z.val = 2 / 10) ∧
    ((pixel_delta 0 0).x.val = -(2 / 10) ∧ (pixel_delta 0 0).y.val = 15 / 100 ∧
      (pixel_delta 0 0).z.val = 2 / 10) ∧
    (∀ x x' y : Nat, x < x' → (pixel_delta x y).x.val < (pixel_delta x' y).x.val) ∧
    (∀ x y y' : Nat, y < y' → (pixel_delta x y').y.val < (pixel_delta x y).y.val) ∧
    (pixel_grid.Nodup ∧ ∀ x y : Nat, (x, y) ∈ pixel_grid ↔ x < 800 ∧ y < 600) ∧
    ((∀ x y : Nat, x < 800 → y < 600 →
        ∃ c, trace_ray main_camera (pixel_delta x y) world = some c) →
      ∃ img, main_render world = some (img, pixel_grid)) ∧
    (∀ img traced, main_render world = some (img, traced) →
      traced = pixel_grid ∧
      ∀ x y : Nat, x < 800 → y < 600 →
        ∃ c, trace_ray main_camera (pixel_delta x y) world = some c ∧
          img y x = ⟨c.r, c.g, c.b⟩) := by
  have hval : ∀ x y : Nat,
      (pixel_delta x y).x.val = (x : ℚ) / 800 * (4 / 10) - 2 / 10 ∧
      (pixel_delta x y).y.val = -((y : ℚ) / 600 * (3 / 10) - 15 / 100) ∧
      (pixel_delta x y).z.val = 2 / 10 := by
    intro x y
    obtain ⟨hx, hy, hz, _⟩ := pixel_delta_isReal x y
    refine ⟨?_, ?_, ?_⟩
    · rw [hx.2]; norm_num
    · rw [hy.2]; norm_num
    · rw [hz.2]; norm_num
  have hspec : ∀ img traced, main_render world = some (img, traced) →
      traced = pixel_grid ∧
      ∀ x y : Nat, x < 800 → y < 600 →
        ∃ c, trace_ray main_camera (pixel_delta x y) world = some c ∧
          img y x = ⟨c.r, c.g, c.b⟩ := by
    intro img traced h
    obtain ⟨h1, h2, _⟩ := render_columns_spec world _ (List.nodup_range _) _ _ h
    refine ⟨by simpa [pixel_grid] using h1, ?_⟩
    intro x y hx hy
    have hp := h2 x (List.mem_range.mpr hx) y (List.mem_range.mpr hy)
    unfold render_pixel at hp
    cases ht : trace_ray main_camera (pixel_delta x y) world with
    | none => rw [ht] at hp; exact absurd hp (by simp)
    | some c =>
      rw [ht] at hp
      simp only [Option.map_some', Option.some.injEq] at hp
      exact ⟨c, rfl, hp.symm⟩
  refine ⟨⟨rfl, rfl, rfl, ⟨rfl, rfl, rfl⟩⟩, ?_, ?_, ?_, ?_, ⟨pixel_grid_nodup, pixel_grid_mem⟩,
    ?_, hspec⟩
  · intro x y
    obtain ⟨hx, hy, hz, _⟩ := pixel_delta_isReal x y
    exact ⟨pixel_delta_eq x y, ⟨hx.1, hy.1, hz.1⟩, hval x y⟩
  · obtain ⟨h1, h2, h3⟩ := hval 0 0
    rw [h1, h2, h3]
    norm_num
  · intro x x' y hlt
    rw [(hval x y).1, (hval x' y).1]
    have : (x : ℚ) < x' := by exact_mod_cast hlt
    linarith
  · intro x y y' hlt
    rw [(hval x y).2.1, (hval x y').2.1]
    have : (y : ℚ) < y' := by exact_mod_cast hlt
    linarith
  · intro hall
    obtain ⟨next, hnext⟩ := render_columns_some world (List.range img_width) (blank_image, [])
      (fun x hx y hy => by
        obtain ⟨c, hc⟩ := hall x y (List.mem_range.mp hx) (List.mem_range.mp hy)
        exact ⟨_, by unfold render_pixel; rw [hc]; rfl⟩)
    have hn : main_render world = some (next.1, next.2) := hnext
    exact ⟨next.1, by rw [hn, (hspec _ _ hn).1]⟩

/-- C17 (witness): for the empty world every call of `trace_ray` returns the background and
the loop completes, having traced every pixel once. -/
theorem C17_driver_mapping_witness :
    (∀ x y : Nat, x < 800 → y < 600 →
      ∃ c, trace_ray main_camera (pixel_delta x y) World.empty = some c) ∧
    (∃ img, main_render World.empty = some (img, pixel_grid)) ∧
    (pixel_delta 0 0).x.val = -(2 / 10) :=
  ⟨fun _ _ _ _ => ⟨_, trace_ray_empty _ _⟩,
    (C17_driver_mapping World.empty).2.2.2.2.2.2.1 (fun _ _ _ _ => ⟨_, trace_ray_empty _ _⟩),
    (C17_driver_mapping World.empty).2.2.1.1⟩

theorem cell_targets_translate (v coords : Coords) (block : Block) :
    cell_targets (coords.translate v) block =
      (cell_targets coords block).map (Target.translate v) := by
  simp [cell_targets, Target.translate, Coords.translate]
  omega

theorem build_targets_translate (v : Coords) (world : World) :
    build_targets (world.translate v) = (build_targets world).map (Target.translate v) := by
  unfold build_targets World.translate
  simp only
  induction world.cells with
  | nil => rfl
  | cons entry rest ih =>
    simp only [List.map_cons, List.flatMap_cons, List.map_append, ih, cell_targets_translate]

theorem scan_target_eq (camera delta : Point4) (min_value : Dbl × Color) (tg : Target) :
    scan_target camera delta min_value tg =
      if distance_rejects (ray_t camera delta tg) min_value.1 = true then some min_value
      else if rect_rejects (flat_coords (hit_point camera delta (ray_t camera delta tg)) tg) tg
          = true then some min_value
      else (pixel_index
          (tex_fraction (flat_coords (hit_point camera delta (ray_t camera delta tg)) tg) tg)
          tg.texture).map
        (fun p => (ray_t camera delta tg, sample_color tg.texture p.1 p.2)) := by
  unfold scan_target
  simp only
  split_ifs
  · rfl
  · rfl
  · cases pixel_index
      (tex_fraction (flat_coords (hit_point camera delta (ray_t camera delta tg)) tg) tg)
      tg.texture with
    | none => rfl
    | some p => rfl

theorem add_ofInt_eq {x : Dbl} (hx : x.isFinite = true) (n : Int) :
    Dbl.add x (Dbl.ofInt n) = Dbl.fin (x.val + n) := by
  cases x <;> simp [Dbl.isFinite] at hx <;> simp [Dbl.add, Dbl.ofInt, Dbl.val]

theorem translate_finite (v : Coords) {camera : Point4} (hc : camera.Finite) :
    (camera.translate v).Finite ∧
    (camera.translate v).x.val = camera.x.val + v.x ∧
    (camera.translate v).y.val = camera.y.val + v.y ∧
    (camera.translate v).z.val = camera.z.val + v.z := by
  have hx := (IsReal.of_isFinite hc.1).add (IsReal.ofInt v.x)
  have hy := (IsReal.of_isFinite hc.2.1).add (IsReal.ofInt v.y)
  have hz := (IsReal.of_isFinite hc.2.2).add (IsReal.ofInt v.z)
  exact ⟨⟨hx.1, hy.1, hz.1⟩, hx.2, hy.2, hz.2⟩

theorem ray_num_eq_fin {camera : Point4} (hc : camera.Finite) (tg : Target) :
    ray_num camera tg = Dbl.fin (tg.num camera) := by
  have h := (((IsReal.ofInt tg.a).mul (IsReal.of_isFinite hc.1)).add
    ((IsReal.ofInt tg.b).mul (IsReal.of_isFinite hc.2.1))).add
    ((IsReal.ofInt tg.c).mul (IsReal.of_isFinite hc.2.2))
  unfold ray_num
  rw [add_ofInt_eq h.1, h.2]
  rfl

theorem ray_t_translate (v : Coords) {camera : Point4} (hc : camera.Finite) (delta : Point4)
    (tg : Target) :
    ray_t (camera.translate v) delta (tg.translate v) = ray_t camera delta tg := by
  obtain ⟨hc', hx, hy, hz⟩ := translate_finite v hc
  have hnum : ray_num (camera.translate v) (tg.translate v) = ray_num camera tg := by
    rw [ray_num_eq_fin hc', ray_num_eq_fin hc]
    congr 1
    simp only [Target.num, hx, hy, hz, Target.translate]
    push_cast
    ring
  unfold ray_t
  rw [hnum]
  rfl

theorem mul_pinf_special {d : Dbl} (hd : d.isFinite = true) :
    (Dbl.mul d Dbl.pinf).isFinite = false := by
  cases d <;> simp [Dbl.isFinite] at hd
  · simp only [Dbl.mul, Dbl.isNaN, Dbl.isInf, Dbl.inf, Dbl.val, Dbl.signBit, Dbl.isFinite]
    simp only [Bool.or_self, Bool.false_eq_true, if_false, Bool.or_true, if_true,
      Bool.true_and, Bool.false_and, Bool.or_false, decide_eq_true_eq]
    split_ifs <;> rfl
  · rfl

theorem add_special {c s : Dbl} (hc : c.isFinite = true) (hs : s.isFinite = false) :
    Dbl.add c s = s := by
  cases c <;> simp [Dbl.isFinite] at hc <;> cases s <;> simp [Dbl.isFinite] at hs <;> rfl

theorem special_cmp_ofInt {s : Dbl} (hs : s.isFinite = false) (n m : Int) :
    Dbl.lt s (Dbl.ofInt n) = Dbl.lt s (Dbl.ofInt m) ∧
    Dbl.gt s (Dbl.ofInt n) = Dbl.gt s (Dbl.ofInt m) ∧
    Dbl.sub s (Dbl.ofInt n) = s ∧ Dbl.sub s (Dbl.ofInt m) = s := by
  cases s <;> simp [Dbl.isFinite] at hs <;>
    simp [Dbl.lt, Dbl.gt, Dbl.sub, Dbl.neg, Dbl.ofInt] <;>
    (constructor <;> split_ifs <;> rfl)

theorem local_coords_translate (v : Coords) {camera : Point4} (hc : camera.Finite)
    (delta : Point4) (tg : Target) (t : ℚ) :
    ((tg.translate v).local_coords (camera.translate v) delta t).1 - (tg.translate v).x1 =
      (tg.local_coords camera delta t).1 - tg.x1 ∧
    ((tg.translate v).local_coords (camera.translate v) delta t).1 - (tg.translate v).x2 =
      (tg.local_coords camera delta t).1 - tg.x2 ∧
    ((tg.translate v).local_coords (camera.translate v) delta t).2 - (tg.translate v).y1 =
      (tg.local_coords camera delta t).2 - tg.y1 ∧
    ((tg.translate v).local_coords (camera.translate v) delta t).2 - (tg.translate v).y2 =
      (tg.local_coords camera delta t).2 - tg.y2 := by
  obtain ⟨_, hx, hy, hz⟩ := translate_finite v hc
  unfold Target.local_coords
  simp only [Target.translate, hx, hy, hz]
  split_ifs <;> simp only <;> push_cast <;> refine ⟨?_, ?_, ?_, ?_⟩ <;> ring

theorem fraction_translate (v : Coords) {camera : Point4} (hc : camera.Finite)
    (delta : Point4) (tg : Target) (t : ℚ) :
    (tg.translate v).fraction ((tg.translate v).local_coords (camera.translate v) delta t) =
      tg.fraction (tg.local_coords camera delta t) := by
  obtain ⟨h1, _, h3, _⟩ := local_coords_translate v hc delta tg t
  unfold Target.fraction
  simp only [h1, h3]
  rfl

theorem scan_target_translate (v : Coords) {camera delta : Point4} (hc : camera.Finite)
    (hd : delta.Finite) (min_value : Dbl × Color) (tg : Target) :
    scan_target (camera.translate v) delta min_value (tg.translate v) =
      scan_target camera delta min_value tg := by
  obtain ⟨hc', _, _, _⟩ := translate_finite v hc
  rw [scan_target_eq, scan_target_eq, ray_t_translate v hc]
  by_cases hdist : distance_rejects (ray_t camera delta tg) min_value.1 = true
  · rw [if_pos hdist, if_pos hdist]
  · rw [if_neg hdist, if_neg hdist]
    by_cases hfin : (ray_t camera delta tg).isFinite = true
    · have ht := IsReal.of_isFinite hfin
      obtain ⟨f1, f2⟩ := flat_coords_isReal hc hd ht tg
      obtain ⟨g1, g2⟩ := flat_coords_isReal hc' hd ht (tg.translate v)
      obtain ⟨l1, l2, l3, l4⟩ :=
        local_coords_translate v hc delta tg (ray_t camera delta tg).val
      have hrect : rect_rejects (flat_coords (hit_point (camera.translate v) delta
          (ray_t camera delta tg)) (tg.translate v)) (tg.translate v) =
          rect_rejects (flat_coords (hit_point camera delta (ray_t camera delta tg)) tg) tg := by
        rw [rect_rejects_of_isReal g1 g2, rect_rejects_of_isReal f1 f2]
        have e1 : ∀ a b c d : ℚ, a - b = c - d → (decide (a < b) = decide (c < d)) := by
          intro a b c d h
          congr 1
          exact propext ⟨fun h' => by linarith, fun h' => by linarith⟩
        have e2 : ∀ a b c d : ℚ, a - b = c - d → (decide (b < a) = decide (d < c)) := by
          intro a b c d h
          congr 1
          exact propext ⟨fun h' => by linarith, fun h' => by linarith⟩
        rw [e1 _ _ _ _ l1, e2 _ _ _ _ l2, e1 _ _ _ _ l3, e2 _ _ _ _ l4]
      have hpix : pixel_index (tex_fraction (flat_coords (hit_point (camera.translate v) delta
          (ray_t camera delta tg)) (tg.translate v)) (tg.translate v))
          (tg.translate v).texture =
          pixel_index (tex_fraction (flat_coords (hit_point camera delta
            (ray_t camera delta tg)) tg) tg) tg.texture := by
        obtain ⟨k1, k2⟩ := tex_fraction_isReal f1 f2 tg
        obtain ⟨m1, m2⟩ := tex_fraction_isReal g1 g2 (tg.translate v)
        rw [pixel_index_of_isReal k1 k2, pixel_index_of_isReal m1 m2,
          fraction_translate v hc]
        rfl
      rw [hrect, hpix]
      rfl
    · have hsp : ray_t camera delta tg = Dbl.pinf := by
        have hnot : (ray_t camera delta tg).isFinite = false := by simpa using hfin
        cases htv : ray_t camera delta tg with
        | fin q => rw [htv] at hnot; simp [Dbl.isFinite] at hnot
        | nzero => rw [htv] at hnot; simp [Dbl.isFinite] at hnot
        | pinf => rfl
        | ninf =>
          rw [htv] at hdist
          exact absurd (by simp [distance_rejects, Dbl.lt, Dbl.ofInt]) hdist
        | nan =>
          rw [htv] at hdist
          exact absurd (by simp [distance_rejects, Dbl.isNaN]) hdist
      rw [hsp]
      have sx := mul_pinf_special hd.1
      have sy := mul_pinf_special hd.2.1
      have sz := mul_pinf_special hd.2.2
      have hflat : flat_coords (hit_point (camera.translate v) delta Dbl.pinf)
          (tg.translate v) = flat_coords (hit_point camera delta Dbl.pinf) tg := by
        unfold flat_coords hit_point Point4.add Point4.mul
        simp only [add_special hc'.1 sx, add_special hc'.2.1 sy, add_special hc'.2.2 sz,
          add_special hc.1 sx, add_special hc.2.1 sy, add_special hc.2.2 sz]
        rfl
      have hs1 : (flat_coords (hit_point camera delta Dbl.pinf) tg).1.isFinite = false := by
        unfold flat_coords hit_point Point4.add Point4.mul
        simp only [add_special hc.1 sx, add_special hc.2.1 sy, add_special hc.2.2 sz]
        split_ifs <;> assumption
      have hs2 : (flat_coords (hit_point camera delta Dbl.pinf) tg).2.isFinite = false := by
        unfold flat_coords hit_point Point4.add Point4.mul
        simp only [add_special hc.1 sx, add_special hc.2.1 sy, add_special hc.2.2 sz]
        split_ifs <;> assumption
      rw [hflat]
      have hrect : rect_rejects (flat_coords (hit_point camera delta Dbl.pinf) tg)
          (tg.translate v) =
          rect_rejects (flat_coords (hit_point camera delta Dbl.pinf) tg) tg := by
        unfold rect_rejects
        rw [(special_cmp_ofInt hs1 (tg.translate v).x1 tg.x1).1,
          (special_cmp_ofInt hs1 (tg.translate v).x2 tg.x2).2.1,
          (special_cmp_ofInt hs2 (tg.translate v).y1 tg.y1).1,
          (special_cmp_ofInt hs2 (tg.translate v).y2 tg.y2).2.1]
      have hfrac : tex_fraction (flat_coords (hit_point camera delta Dbl.pinf) tg)
          (tg.translate v) =
          tex_fraction (flat_coords (hit_point camera delta Dbl.pinf) tg) tg := by
        unfold tex_fraction
        rw [(special_cmp_ofInt hs1 (tg.translate v).x1 tg.x1).2.2.1,
          (special_cmp_ofInt hs1 (tg.translate v).x1 tg.x1).2.2.2,
          (special_cmp_ofInt hs2 (tg.translate v).y1 tg.y1).2.2.1,
          (special_cmp_ofInt hs2 (tg.translate v).y1 tg.y1).2.2.2]
        rfl
      rw [hrect, hfrac]
      rfl

theorem scan_loop_translate (v : Coords) {camera delta : Point4} (hc : camera.Finite)
    (hd : delta.Finite) (l : List Target) (min_value : Dbl × Color) :
    scan_loop (camera.translate v) delta min_value (l.map (Target.translate v)) =
      scan_loop camera delta min_value l := by
  induction l generalizing min_value with
  | nil => rfl
  | cons tg rest ih =>
    simp only [List.map_cons, scan_loop, scan_target_translate v hc hd]
    cases scan_target camera delta min_value tg with
    | none => rfl
    | some next => exact ih next

/-- C20: for every world, every real camera and direction and every integer vector `v`,
translating every occupied cell by `v` (each keeping its block, in the same scan order) and
the camera by `v` leaves unchanged the state of the scan loop after every number of scanned
targets, hence the best distance, the winning face and the colour returned by `trace_ray`. -/
theorem C20_translation_invariance (world : World) (camera delta : Point4) (v : Coords)
    (hc : camera.Finite) (hd : delta.Finite) :
    trace_ray (camera.translate v) delta (world.translate v) = trace_ray camera delta world ∧
    (world.translate v).cells =
      world.cells.map (fun entry => (⟨entry.1.x + v.x, entry.1.y + v.y, entry.1.z + v.z⟩,
        entry.2)) ∧
    (build_targets (world.translate v)).map Target.texture =
      (build_targets world).map Target.texture ∧
    (∀ n : Nat,
      scan_loop (camera.translate v) delta initial_min_value
          ((build_targets (world.translate v)).take n) =
        scan_loop camera delta initial_min_value ((build_targets world).take n)) ∧
    (camera.translate v).x.val = camera.x.val + v.x ∧
    (camera.translate v).y.val = camera.y.val + v.y ∧
    (camera.translate v).z.val = camera.z.val + v.z := by
  obtain ⟨_, hx, hy, hz⟩ := translate_finite v hc
  refine ⟨?_, rfl, ?_, ?_, hx, hy, hz⟩
  · unfold trace_ray
    rw [build_targets_translate, scan_loop_translate v hc hd]
  · rw [build_targets_translate, List.map_map]
    rfl
  · intro n
    rw [build_targets_translate, ← List.map_take, scan_loop_translate v hc hd]

/-- C20 (witness): the edge-grazing ray of the cell `(0, 0, 0)`, where the left and the front
face tie, translated by `(3, -2, 7)`: the front face still wins. -/
theorem C20_translation_invariance_witness :
    edge_camera.Finite ∧ edge_delta.Finite ∧
    trace_ray (edge_camera.translate ⟨3, -2, 7⟩) edge_delta
        ((World.single ⟨0, 0, 0⟩ numbered_block).translate ⟨3, -2, 7⟩) =
      trace_ray edge_camera edge_delta (World.single ⟨0, 0, 0⟩ numbered_block) ∧
    trace_ray (edge_camera.translate ⟨3, -2, 7⟩) edge_delta
        ((World.single ⟨0, 0, 0⟩ numbered_block).translate ⟨3, -2, 7⟩) = some ⟨5, 5, 5, 0⟩ :=
  ⟨⟨rfl, rfl, rfl⟩, ⟨rfl, rfl, rfl⟩,
    (C20_translation_invariance (World.single ⟨0, 0, 0⟩ numbered_block) edge_camera edge_delta
      ⟨3, -2, 7⟩ ⟨rfl, rfl, rfl⟩ ⟨rfl, rfl, rfl⟩).1,
    by decide!⟩

theorem mul_fin_pos_cases {x : Dbl} (hx : x.isFinite = true) {k : ℚ} (hk : 0 < k) :
    (x = Dbl.nzero ∧ Dbl.mul x (Dbl.fin k) = Dbl.nzero) ∨
    (x = Dbl.fin 0 ∧ Dbl.mul x (Dbl.fin k) = Dbl.fin 0) ∨
    (∃ q, q ≠ 0 ∧ x = Dbl.fin q ∧ Dbl.mul x (Dbl.fin k) = Dbl.fin (q * k)) := by
  have hk0 : k ≠ 0 := hk.ne'
  have hkn : ¬ k < 0 := not_lt.mpr hk.le
  rcases isFinite_cases hx with h | ⟨q, h⟩
  · left
    subst h
    simp [Dbl.mul, Dbl.isNaN, Dbl.isInf, Dbl.val, Dbl.signBit, Dbl.zero, hkn]
  · subst h
    by_cases hq : q = 0
    · right; left
      subst hq
      simp [Dbl.mul, Dbl.isNaN, Dbl.isInf, Dbl.val, Dbl.signBit, Dbl.zero, hkn]
    · right; right
      refine ⟨q, hq, rfl, ?_⟩
      simp [Dbl.mul, Dbl.isNaN, Dbl.isInf, Dbl.val, hq, hk0]

theorem mul_ofInt_scale (n : Int) {x : Dbl} (hx : x.isFinite = true) {k : ℚ} (hk : 0 < k) :
    Dbl.mul (Dbl.ofInt n) (Dbl.mul x (Dbl.fin k)) =
      Dbl.mul (Dbl.mul (Dbl.ofInt n) x) (Dbl.fin k) := by
  have hk0 : k ≠ 0 := hk.ne'
  have hkn : ¬ k < 0 := not_lt.mpr hk.le
  rcases mul_fin_pos_cases hx hk with ⟨h1, h2⟩ | ⟨h1, h2⟩ | ⟨q, hq, h1, h2⟩
  · rw [h2, h1]
    by_cases hn : (n : ℚ) < 0 <;>
      simp [Dbl.mul, Dbl.isNaN, Dbl.isInf, Dbl.val, Dbl.signBit, Dbl.zero, Dbl.ofInt, hn, hkn]
  · rw [h2, h1]
    by_cases hn : (n : ℚ) < 0 <;>
      simp [Dbl.mul, Dbl.isNaN, Dbl.isInf, Dbl.val, Dbl.signBit, Dbl.zero, Dbl.ofInt, hn, hkn]
  · rw [h2, h1]
    by_cases hn0 : (n : ℚ) = 0
    · have hn0' : n = 0 := by exact_mod_cast hn0
      subst hn0'
      have e : ((q * k < 0) ↔ (q < 0)) := by
        constructor
        · intro h; by_contra hc; push_neg at hc; nlinarith
        · intro h; nlinarith
      by_cases hq0 : q < 0 <;>
        simp [Dbl.mul, Dbl.isNaN, Dbl.isInf, Dbl.val, Dbl.signBit, Dbl.zero, Dbl.ofInt, hkn,
          e, hq0]
    · have hn0' : n ≠ 0 := by exact_mod_cast hn0
      simp [Dbl.mul, Dbl.isNaN, Dbl.isInf, Dbl.val, Dbl.ofInt, hn0', hq, hk0]
      ring

theorem add_scale {x y : Dbl} (hx : x.isFinite = true) (hy : y.isFinite = true) {k : ℚ}
    (hk : 0 < k) :
    Dbl.add (Dbl.mul x (Dbl.fin k)) (Dbl.mul y (Dbl.fin k)) =
      Dbl.mul (Dbl.add x y) (Dbl.fin k) := by
  have hk0 : k ≠ 0 := hk.ne'
  have hkn : ¬ k < 0 := not_lt.mpr hk.le
  rcases mul_fin_pos_cases hx hk with ⟨h1, h2⟩ | ⟨h1, h2⟩ | ⟨p, hp, h1, h2⟩ <;>
    rcases mul_fin_pos_cases hy hk with ⟨g1, g2⟩ | ⟨g1, g2⟩ | ⟨q, hq, g1, g2⟩ <;>
    rw [h2, g2, h1, g1]
  · simp [Dbl.add, Dbl.mul, Dbl.isNaN, Dbl.isInf, Dbl.val, Dbl.signBit, Dbl.zero, hkn]
  · simp [Dbl.add, Dbl.mul, Dbl.isNaN, Dbl.isInf, Dbl.val, Dbl.signBit, Dbl.zero, hkn]
  · simp [Dbl.add, Dbl.mul, Dbl.isNaN, Dbl.isInf, Dbl.val, hq, hk0]
  · simp [Dbl.add, Dbl.mul, Dbl.isNaN, Dbl.isInf, Dbl.val, Dbl.signBit, Dbl.zero, hkn]
  · simp [Dbl.add, Dbl.mul, Dbl.isNaN, Dbl.isInf, Dbl.val, Dbl.signBit, Dbl.zero, hkn]
  · simp [Dbl.add, Dbl.mul, Dbl.isNaN, Dbl.isInf, Dbl.val, hq, hk0]
  · simp [Dbl.add, Dbl.mul, Dbl.isNaN, Dbl.isInf, Dbl.val, hp, hk0]
  · simp [Dbl.add, Dbl.mul, Dbl.isNaN, Dbl.isInf, Dbl.val, hp, hk0]
  · by_cases hs : p + q = 0
    · have hs' : p * k + q * k = 0 := by rw [← add_mul, hs, zero_mul]
      simp [Dbl.add, Dbl.mul, Dbl.isNaN, Dbl.isInf, Dbl.val, Dbl.signBit, Dbl.zero, hs, hs',
        hkn]
    · simp [Dbl.add, Dbl.mul, Dbl.isNaN, Dbl.isInf, Dbl.val, hs, hk0]
      ring

theorem ray_den_scale {delta : Point4} (hd : delta.Finite) (tg : Target) {k : ℚ} (hk : 0 < k) :
    ray_den (Point4.mul delta (Dbl.fin k)) tg = Dbl.mul (ray_den delta tg) (Dbl.fin k) := by
  unfold ray_den Point4.mul
  simp only
  have fx := IsReal.of_isFinite hd.1
  have fy := IsReal.of_isFinite hd.2.1
  have fz := IsReal.of_isFinite hd.2.2
  rw [mul_ofInt_scale tg.a hd.1 hk, mul_ofInt_scale tg.b hd.2.1 hk,
    mul_ofInt_scale tg.c hd.2.2 hk,
    add_scale ((IsReal.ofInt tg.a).mul fx).1 ((IsReal.ofInt tg.b).mul fy).1 hk,
    add_scale (((IsReal.ofInt tg.a).mul fx).add ((IsReal.ofInt tg.b).mul fy)).1
      ((IsReal.ofInt tg.c).mul fz).1 hk]

theorem div_scale {n d : Dbl} (hn : n.isFinite = true) (hd : d.isFinite = true) {k : ℚ}
    (hk : 0 < k) :
    (d.val ≠ 0 → IsReal (Dbl.div n (Dbl.mul d (Dbl.fin k))) (n.val / d.val / k)) ∧
    (d.val = 0 → Dbl.div n (Dbl.mul d (Dbl.fin k)) = Dbl.div n d) := by
  constructor
  · intro h0
    have hdk := (IsReal.of_isFinite hd).mul (IsReal.fin k)
    have := (IsReal.of_isFinite hn).div hdk (mul_ne_zero h0 hk.ne')
    convert this using 1
    field_simp
  · intro h0
    rcases mul_fin_pos_cases hd hk with ⟨h1, h2⟩ | ⟨h1, h2⟩ | ⟨q, hq, h1, h2⟩
    · rw [h2, h1]
    · rw [h2, h1]
    · rw [h1] at h0
      exact absurd h0 hq

theorem mul_scale_pinf {d : Dbl} (hd : d.isFinite = true) {k : ℚ} (hk : 0 < k) :
    Dbl.mul (Dbl.mul d (Dbl.fin k)) Dbl.pinf = Dbl.mul d Dbl.pinf := by
  have hk0 : k ≠ 0 := hk.ne'
  rcases mul_fin_pos_cases hd hk with ⟨h1, h2⟩ | ⟨h1, h2⟩ | ⟨q, hq, h1, h2⟩
  · rw [h2, h1]
  · rw [h2, h1]
  · rw [h2, h1]
    have e : ((q * k < 0) ↔ (q < 0)) := by
      constructor
      · intro h; by_contra hc; push_neg at hc; nlinarith
      · intro h; nlinarith
    simp [Dbl.mul, Dbl.isNaN, Dbl.isInf, Dbl.isFinite, Dbl.val, Dbl.signBit, hq, hk0, e]

theorem scale_finite {delta : Point4} (hd : delta.Finite) (k : ℚ) :
    (Point4.mul delta (Dbl.fin k)).Finite ∧
    (Point4.mul delta (Dbl.fin k)).x.val = delta.x.val * k ∧
    (Point4.mul delta (Dbl.fin k)).y.val = delta.y.val * k ∧
    (Point4.mul delta (Dbl.fin k)).z.val = delta.z.val * k := by
  have hx := (IsReal.of_isFinite hd.1).mul (IsReal.fin k)
  have hy := (IsReal.of_isFinite hd.2.1).mul (IsReal.fin k)
  have hz := (IsReal.of_isFinite hd.2.2).mul (IsReal.fin k)
  exact ⟨⟨hx.1, hy.1, hz.1⟩, hx.2, hy.2, hz.2⟩

theorem lt_pinf_of_isFinite {x : Dbl} (hx : x.isFinite = true) :
    Dbl.lt Dbl.pinf x = false ∧ Dbl.lt x Dbl.pinf = true := by
  cases x <;> simp [Dbl.isFinite] at hx <;> simp [Dbl.lt]

theorem scan_target_scale {camera delta : Point4} (hc : camera.Finite) (hd : delta.Finite)
    {k : ℚ} (hk : 0 < k) (tg : Target) (mv mv' : Dbl × Color) (hcol : mv'.2 = mv.2)
    (hR : Dbl.ScaledBy k mv.1 mv'.1) :
    (scan_target camera delta mv tg = none ∧
      scan_target camera (Point4.mul delta (Dbl.fin k)) mv' tg = none) ∨
    (∃ m m', scan_target camera delta mv tg = some m ∧
      scan_target camera (Point4.mul delta (Dbl.fin k)) mv' tg = some m' ∧
      m'.2 = m.2 ∧ Dbl.ScaledBy k m.1 m'.1) := by
  obtain ⟨hd', sx, sy, sz⟩ := scale_finite hd k
  have hN := (ray_num_isReal hc tg).neg
  have hD := ray_den_isReal hd tg
  have z0 : IsReal (Dbl.ofInt 0) 0 := by simpa using IsReal.ofInt 0
  rw [scan_target_eq, scan_target_eq]
  by_cases h0 : tg.den delta = 0
  · -- parallel target: the same special value of `t` for both directions
    have ht' : ray_t camera (Point4.mul delta (Dbl.fin k)) tg = ray_t camera delta tg := by
      unfold ray_t
      rw [ray_den_scale hd tg hk]
      exact (div_scale hN.1 hD.1 hk).2 (by rw [hD.2]; exact h0)
    rw [ht']
    have hflat : flat_coords (hit_point camera (Point4.mul delta (Dbl.fin k)) Dbl.pinf) tg =
        flat_coords (hit_point camera delta Dbl.pinf) tg := by
      unfold flat_coords hit_point Point4.add Point4.mul
      simp only [mul_scale_pinf hd.1 hk, mul_scale_pinf hd.2.1 hk, mul_scale_pinf hd.2.2 hk]
    rcases ray_t_parallel hc hd tg h0 with ht | ht | ht
    · right
      refine ⟨mv, mv', ?_, ?_, hcol, hR⟩ <;> rw [ht] <;> simp [distance_rejects, Dbl.isNaN]
    · rw [ht, hflat]
      rcases hR with ⟨hb, hb'⟩ | ⟨hb, hb', _⟩
      · have e1 : distance_rejects Dbl.pinf mv.1 = false := by rw [hb]; rfl
        have e2 : distance_rejects Dbl.pinf mv'.1 = false := by rw [hb']; rfl
        simp only [e1, e2, Bool.false_eq_true, if_false]
        by_cases hr : rect_rejects (flat_coords (hit_point camera delta Dbl.pinf) tg) tg = true
        · right
          exact ⟨mv, mv', by rw [if_pos hr], by rw [if_pos hr], hcol, Or.inl ⟨hb, hb'⟩⟩
        · rw [if_neg hr, if_neg hr]
          cases pixel_index (tex_fraction (flat_coords (hit_point camera delta Dbl.pinf) tg)
            tg) tg.texture with
          | none => left; exact ⟨rfl, rfl⟩
          | some p => right; exact ⟨_, _, rfl, rfl, rfl, Or.inl ⟨rfl, rfl⟩⟩
      · right
        have e1 : distance_rejects Dbl.pinf mv.1 = true := by
          simp [distance_rejects, Dbl.gt, (lt_pinf_of_isFinite hb).2]
        have e2 : distance_rejects Dbl.pinf mv'.1 = true := by
          simp [distance_rejects, Dbl.gt, (lt_pinf_of_isFinite hb').2]
        exact ⟨mv, mv', by rw [if_pos e1], by rw [if_pos e2], hcol, Or.inr ⟨hb, hb', ‹_›⟩⟩
    · right
      refine ⟨mv, mv', ?_, ?_, hcol, hR⟩ <;> rw [ht] <;>
        simp [distance_rejects, Dbl.lt, Dbl.ofInt]
  · -- real `t`: the second direction gives `t / k` and the same hit point
    have ht := ray_t_isReal hc hd tg h0
    have ht' : IsReal (ray_t camera (Point4.mul delta (Dbl.fin k)) tg)
        (tg.param camera delta / k) := by
      have := (div_scale hN.1 hD.1 hk).1 (by rw [hD.2]; exact h0)
      unfold ray_t
      rw [ray_den_scale hd tg hk]
      convert this using 1
      rw [hN.2, hD.2]
      rfl
    have hkpos : (0 : ℚ) < k := hk
    have hdist : distance_rejects (ray_t camera (Point4.mul delta (Dbl.fin k)) tg) mv'.1 =
        distance_rejects (ray_t camera delta tg) mv.1 := by
      unfold distance_rejects Dbl.gt
      rw [ht'.lt z0, ht.lt z0, isNaN_of_isFinite ht'.1, isNaN_of_isFinite ht.1]
      have e1 : decide (tg.param camera delta / k < 0) = decide (tg.param camera delta < 0) := by
        congr 1
        exact propext ⟨fun h => by
          by_contra hn
          exact absurd h (not_lt.mpr (div_nonneg (not_lt.mp hn) hkpos.le)),
          fun h => div_neg_of_neg_of_pos h hkpos⟩
      rw [e1]
      rcases hR with ⟨hb, hb'⟩ | ⟨hb, hb', hv⟩
      · rw [hb, hb', (lt_pinf_of_isFinite ht'.1).1, (lt_pinf_of_isFinite ht.1).1]
      · rw [(IsReal.of_isFinite hb').lt ht', (IsReal.of_isFinite hb).lt ht]
        have e2 : decide (mv'.1.val < tg.param camera delta / k) =
            decide (mv.1.val < tg.param camera delta) := by
          congr 1
          rw [← hv]
          exact propext (lt_div_iff₀ hkpos)
        rw [e2]
    have hloc : tg.local_coords camera (Point4.mul delta (Dbl.fin k))
        (tg.param camera delta / k) =
        tg.local_coords camera delta (tg.param camera delta) := by
      unfold Target.local_coords
      simp only [sx, sy, sz]
      have e : ∀ d : ℚ, d * k * (tg.param camera delta / k) = d * tg.param camera delta := by
        intro d
        field_simp
        ring
      simp only [e]
    obtain ⟨f1, f2⟩ := flat_coords_isReal hc hd ht tg
    obtain ⟨g1, g2⟩ := flat_coords_isReal hc hd' ht' tg
    rw [hloc] at g1 g2
    have hrect : rect_rejects (flat_coords (hit_point camera (Point4.mul delta (Dbl.fin k))
        (ray_t camera (Point4.mul delta (Dbl.fin k)) tg)) tg) tg =
        rect_rejects (flat_coords (hit_point camera delta (ray_t camera delta tg)) tg) tg := by
      rw [rect_rejects_of_isReal g1 g2, rect_rejects_of_isReal f1 f2]
    have hpix : pixel_index (tex_fraction (flat_coords (hit_point camera
        (Point4.mul delta (Dbl.fin k)) (ray_t camera (Point4.mul delta (Dbl.fin k)) tg)) tg)
        tg) tg.texture =
        pixel_index (tex_fraction (flat_coords (hit_point camera delta
          (ray_t camera delta tg)) tg) tg) tg.texture := by
      obtain ⟨k1, k2⟩ := tex_fraction_isReal f1 f2 tg
      obtain ⟨m1, m2⟩ := tex_fraction_isReal g1 g2 tg
      rw [pixel_index_of_isReal k1 k2, pixel_index_of_isReal m1 m2]
    rw [hdist, hrect, hpix]
    by_cases hdr : distance_rejects (ray_t camera delta tg) mv.1 = true
    · right
      exact ⟨mv, mv', by rw [if_pos hdr], by rw [if_pos hdr], hcol, hR⟩
    · rw [if_neg hdr, if_neg hdr]
      by_cases hr : rect_rejects (flat_coords (hit_point camera delta (ray_t camera delta tg))
          tg) tg = true
      · right
        exact ⟨mv, mv', by rw [if_pos hr], by rw [if_pos hr], hcol, hR⟩
      · rw [if_neg hr, if_neg hr]
        cases pixel_index (tex_fraction (flat_coords (hit_point camera delta
          (ray_t camera delta tg)) tg) tg) tg.texture with
        | none => left; exact ⟨rfl, rfl⟩
        | some p =>
          right
          refine ⟨_, _, rfl, rfl, rfl, Or.inr ⟨ht.1, ht'.1, ?_⟩⟩
          simp only [Option.map_some']
          rw [ht'.2, ht.2]
          field_simp

theorem scan_loop_scale {camera delta : Point4} (hc : camera.Finite) (hd : delta.Finite)
    {k : ℚ} (hk : 0 < k) (l : List Target) (mv mv' : Dbl × Color) (hcol : mv'.2 = mv.2)
    (hR : Dbl.ScaledBy k mv.1 mv'.1) :
    (scan_loop camera delta mv l = none ∧
      scan_loop camera (Point4.mul delta (Dbl.fin k)) mv' l = none) ∨
    (∃ m m', scan_loop camera delta mv l = some m ∧
      scan_loop camera (Point4.mul delta (Dbl.fin k)) mv' l = some m' ∧
      m'.2 = m.2 ∧ Dbl.ScaledBy k m.1 m'.1) := by
  induction l generalizing mv mv' with
  | nil => exact Or.inr ⟨mv, mv', rfl, rfl, hcol, hR⟩
  | cons tg rest ih =>
    rcases scan_target_scale hc hd hk tg mv mv' hcol hR with ⟨e1, e2⟩ | ⟨m, m', e1, e2, hc', hR'⟩
    · left
      simp only [scan_loop, e1, e2, and_self]
    · simp only [scan_loop, e1, e2]
      exact ih m m' hc' hR'

/-- C19: for every world, every real camera and direction `delta` and every real `k > 0`,
`trace_ray` with the direction `delta * k` returns exactly what it returns with `delta` (the
same colour, or it stops in both cases); after every number of scanned targets the two scans
hold the same colour, and the best distance of the scaled scan is that of the original one
divided by `k`. -/
theorem C19_scale_invariance (world : World) (camera delta : Point4) (k : ℚ)
    (hc : camera.Finite) (hd : delta.Finite) (hk : 0 < k) :
    trace_ray camera (Point4.mul delta (Dbl.fin k)) world = trace_ray camera delta world ∧
    (Point4.mul delta (Dbl.fin k)).x.val = delta.x.val * k ∧
    (Point4.mul delta (Dbl.fin k)).y.val = delta.y.val * k ∧
    (Point4.mul delta (Dbl.fin k)).z.val = delta.z.val * k ∧
    ∀ n : Nat,
      (scan_loop camera delta initial_min_value ((build_targets world).take n) = none ∧
        scan_loop camera (Point4.mul delta (Dbl.fin k)) initial_min_value
          ((build_targets world).take n) = none) ∨
      (∃ m m', scan_loop camera delta initial_min_value ((build_targets world).take n) = some m ∧
        scan_loop camera (Point4.mul delta (Dbl.fin k)) initial_min_value
          ((build_targets world).take n) = some m' ∧
        m'.2 = m.2 ∧ Dbl.ScaledBy k m.1 m'.1) := by
  obtain ⟨_, sx, sy, sz⟩ := scale_finite hd k
  refine ⟨?_, sx, sy, sz, ?_⟩
  · unfold trace_ray
    rcases scan_loop_scale hc hd hk (build_targets world) initial_min_value initial_min_value
      rfl (Or.inl ⟨rfl, rfl⟩) with ⟨e1, e2⟩ | ⟨m, m', e1, e2, hcol, _⟩
    · rw [e1, e2]
    · rw [e1, e2]
      simp only [Option.map_some', hcol]
  · intro n
    exact scan_loop_scale hc hd hk _ initial_min_value initial_min_value rfl (Or.inl ⟨rfl, rfl⟩)

/-- C19 (witness): the edge-grazing ray of the cell `(0, 0, 0)` with its direction made three
times as long: the front face is still returned. -/
theorem C19_scale_invariance_witness :
    edge_camera.Finite ∧ edge_delta.Finite ∧ (0 : ℚ) < 3 ∧
    trace_ray edge_camera (Point4.mul edge_delta (Dbl.fin 3))
        (World.single ⟨0, 0, 0⟩ numbered_block) =
      trace_ray edge_camera edge_delta (World.single ⟨0, 0, 0⟩ numbered_block) ∧
    trace_ray edge_camera (Point4.mul edge_delta (Dbl.fin 3))
        (World.single ⟨0, 0, 0⟩ numbered_block) = some ⟨5, 5, 5, 0⟩ :=
  ⟨⟨rfl, rfl, rfl⟩, ⟨rfl, rfl, rfl⟩, by norm_num,
    (C19_scale_invariance (World.single ⟨0, 0, 0⟩ numbered_block) edge_camera edge_delta 3
      ⟨rfl, rfl, rfl⟩ ⟨rfl, rfl, rfl⟩ (by norm_num)).1,
    by decide!⟩

theorem slab_entry (c d lo hi t : ℚ) (ht : 0 ≤ t) (h1 : lo ≤ c + d * t)
    (h2 : c + d * t ≤ hi) :
    ∃ e, 0 ≤ e ∧ e ≤ t ∧
      (∀ s, e ≤ s → s ≤ t → lo ≤ c + d * s ∧ c + d * s ≤ hi) ∧
      ((c < lo ∨ hi < c) → 0 < e ∧ d ≠ 0 ∧ (c + d * e = lo ∨ c + d * e = hi)) ∧
      (¬ (c < lo ∨ hi < c) → e = 0) := by
  by_cases hlo : c < lo
  · have hdt : 0 < d * t := by linarith
    have hd : 0 < d := by
      by_contra hn
      have : d * t ≤ 0 := mul_nonpos_of_nonpos_of_nonneg (not_lt.mp hn) ht
      linarith
    have he : c + d * ((lo - c) / d) = lo := by
      field_simp
    have hpos : 0 < (lo - c) / d := div_pos (by linarith) hd
    refine ⟨(lo - c) / d, hpos.le, ?_, ?_, fun _ => ⟨hpos, hd.ne', Or.inl he⟩,
      fun h => absurd (Or.inl hlo) h⟩
    · rw [div_le_iff₀ hd]
      linarith
    · intro s hs1 hs2
      have e1 : d * ((lo - c) / d) ≤ d * s := mul_le_mul_of_nonneg_left hs1 hd.le
      have e2 : d * s ≤ d * t := mul_le_mul_of_nonneg_left hs2 hd.le
      constructor <;> linarith
  · by_cases hhi : hi < c
    · have hd : d < 0 := by
        by_contra hn
        have : 0 ≤ d * t := mul_nonneg (not_lt.mp hn) ht
        linarith
      have hne : d ≠ 0 := hd.ne
      have he : c + d * ((hi - c) / d) = hi := by
        field_simp
      have hpos : 0 < (hi - c) / d := div_pos_of_neg_of_neg (by linarith) hd
      refine ⟨(hi - c) / d, hpos.le, ?_, ?_, fun _ => ⟨hpos, hd.ne, Or.inr he⟩,
        fun h => absurd (Or.inr hhi) h⟩
      · rw [div_le_iff_of_neg hd]
        linarith
      · intro s hs1 hs2
        have e1 : d * s ≤ d * ((hi - c) / d) := mul_le_mul_of_nonpos_left hs1 hd.le
        have e2 : d * t ≤ d * s := mul_le_mul_of_nonpos_left hs2 hd.le
        constructor <;> linarith
    · refine ⟨0, le_refl 0, ht, ?_, fun h => absurd h (by tauto), fun _ => rfl⟩
      intro s hs1 hs2
      rcases le_total 0 d with hd | hd
      · have e1 : 0 ≤ d * s := mul_nonneg hd hs1
        have e2 : d * s ≤ d * t := mul_le_mul_of_nonneg_left hs2 hd
        constructor <;> linarith
      · have e1 : d * s ≤ 0 := mul_nonpos_of_nonpos_of_nonneg hd hs1
        have e2 : d * t ≤ d * s := mul_le_mul_of_nonpos_left hs2 hd
        constructor <;> linarith

/-- A segment that starts outside a closed box and ends in it enters the box through one of
its faces, at a parameter not larger than the one of its end. -/
theorem box_entry (c d lo hi : Fin 3 → ℚ) (t : ℚ) (ht : 0 ≤ t)
    (hP : ∀ i, lo i ≤ c i + d i * t ∧ c i + d i * t ≤ hi i)
    (hout : ∃ i, c i < lo i ∨ hi i < c i) :
    ∃ j s, d j ≠ 0 ∧ (c j + d j * s = lo j ∨ c j + d j * s = hi j) ∧ 0 ≤ s ∧ s ≤ t ∧
      ∀ i, lo i ≤ c i + d i * s ∧ c i + d i * s ≤ hi i := by
  choose e he0 het hin hout' hins using
    fun i => slab_entry (c i) (d i) (lo i) (hi i) t ht (hP i).1 (hP i).2
  obtain ⟨j, -, hj⟩ := Finset.exists_max_image Finset.univ e ⟨0, Finset.mem_univ _⟩
  obtain ⟨i0, hi0⟩ := hout
  have hpos : 0 < e j := lt_of_lt_of_le (hout' i0 hi0).1 (hj i0 (Finset.mem_univ _))
  have hjout : c j < lo j ∨ hi j < c j := by
    by_contra hn
    rw [hins j hn] at hpos
    exact lt_irrefl _ hpos
  obtain ⟨_, hd, hplane⟩ := hout' j hjout
  exact ⟨j, e j, hd, hplane, he0 j, het j, fun i => hin i (e j) (hj i (Finset.mem_univ _)) (het j)⟩

theorem valid_of_hit (u : Target) (camera delta : Point4) (s : ℚ) (hden : u.den delta ≠ 0)
    (hs : 0 ≤ s) (hnum : u.num camera + u.den delta * s = 0)
    (hrect : (u.x1 : ℚ) ≤ (u.local_coords camera delta s).1 ∧
      (u.local_coords camera delta s).1 ≤ u.x2 ∧
      (u.y1 : ℚ) ≤ (u.local_coords camera delta s).2 ∧
      (u.local_coords camera delta s).2 ≤ u.y2) :
    u.Valid camera delta ∧ u.param camera delta = s := by
  have hp : u.param camera delta = s := by
    unfold Target.param
    field_simp
    linarith
  refine ⟨⟨hden, ?_, ?_⟩, hp⟩
  · rw [hp]; exact hs
  · rw [hp]; exact hrect

theorem cell_face_valid (k : Coords) (bk : Block) (camera delta : Point4) (s : ℚ)
    (hs : 0 ≤ s) (j : Fin 3) (hd : delta.coord j ≠ 0)
    (hplane : camera.coord j + delta.coord j * s = k.coord j ∨
      camera.coord j + delta.coord j * s = k.coord j + 1)
    (hin : ∀ i, (k.coord i : ℚ) ≤ camera.coord i + delta.coord i * s ∧
      camera.coord i + delta.coord i * s ≤ k.coord i + 1) :
    ∃ u ∈ cell_targets k bk, u.Valid camera delta ∧ u.param camera delta = s ∧
      u.axis = j ∧ (u.d : ℚ) = camera.coord j + delta.coord j * s := by
  have hx := hin 0
  have hy := hin 1
  have hz := hin 2
  simp only [Point4.coord, Coords.coord] at hx hy hz
  fin_cases j <;> simp only [Point4.coord, Coords.coord, Fin.zero_eta, Fin.mk_one,
    Fin.reduceFinMk] at hd hplane ⊢ <;> rcases hplane with hpl | hpl
  · refine ⟨⟨-1, 0, 0, k.x, k.y, k.z, k.y + 1, k.z + 1, bk.left⟩, by simp [cell_targets], ?_⟩
    obtain ⟨h1, h2⟩ := valid_of_hit ⟨-1, 0, 0, k.x, k.y, k.z, k.y + 1, k.z + 1, bk.left⟩
      camera delta s (by simpa [Target.den] using hd) hs
      (by simp only [Target.num, Target.den]; push_cast; linarith)
      (by simp only [Target.local_coords]; push_cast; exact ⟨hy.1, hy.2, hz.1, hz.2⟩)
    exact ⟨h1, h2, by simp [Target.axis], by rw [hpl]⟩
  · refine ⟨⟨-1, 0, 0, k.x + 1, k.y, k.z, k.y + 1, k.z + 1, bk.right⟩,
      by simp [cell_targets], ?_⟩
    obtain ⟨h1, h2⟩ := valid_of_hit ⟨-1, 0, 0, k.x + 1, k.y, k.z, k.y + 1, k.z + 1, bk.right⟩
      camera delta s (by simpa [Target.den] using hd) hs
      (by simp only [Target.num, Target.den]; push_cast; linarith)
      (by simp only [Target.local_coords]; push_cast; exact ⟨hy.1, hy.2, hz.1, hz.2⟩)
    exact ⟨h1, h2, by simp [Target.axis], by rw [hpl]; push_cast; ring⟩
  · refine ⟨⟨0, -1, 0, k.y, k.x, k.z, k.x + 1, k.z + 1, bk.bottom⟩,
      by simp [cell_targets], ?_⟩
    obtain ⟨h1, h2⟩ := valid_of_hit ⟨0, -1, 0, k.y, k.x, k.z, k.x + 1, k.z + 1, bk.bottom⟩
      camera delta s (by simpa [Target.den] using hd) hs
      (by simp only [Target.num, Target.den]; push_cast; linarith)
      (by simp only [Target.local_coords]; push_cast; exact ⟨hx.1, hx.2, hz.1, hz.2⟩)
    exact ⟨h1, h2, by simp [Target.axis], by rw [hpl]⟩
  · refine ⟨⟨0, -1, 0, k.y + 1, k.x, k.z, k.x + 1, k.z + 1, bk.top⟩,
      by simp [cell_targets], ?_⟩
    obtain ⟨h1, h2⟩ := valid_of_hit ⟨0, -1, 0, k.y + 1, k.x, k.z, k.x + 1, k.z + 1, bk.top⟩
      camera delta s (by simpa [Target.den] using hd) hs
      (by simp only [Target.num, Target.den]; push_cast; linarith)
      (by simp only [Target.local_coords]; push_cast; exact ⟨hx.1, hx.2, hz.1, hz.2⟩)
    exact ⟨h1, h2, by simp [Target.axis], by rw [hpl]; push_cast; ring⟩
  · refine ⟨⟨0, 0, -1, k.z, k.x, k.y, k.x + 1, k.y + 1, bk.front⟩,
      by simp [cell_targets], ?_⟩
    obtain ⟨h1, h2⟩ := valid_of_hit ⟨0, 0, -1, k.z, k.x, k.y, k.x + 1, k.y + 1, bk.front⟩
      camera delta s (by simpa [Target.den] using hd) hs
      (by simp only [Target.num, Target.den]; push_cast; linarith)
      (by simp only [Target.local_coords]; push_cast; exact ⟨hx.1, hx.2, hy.1, hy.2⟩)
    exact ⟨h1, h2, by simp [Target.axis], by rw [hpl]⟩
  · refine ⟨⟨0, 0, -1, k.z + 1, k.x, k.y, k.x + 1, k.y + 1, bk.back⟩,
      by simp [cell_targets], ?_⟩
    obtain ⟨h1, h2⟩ := valid_of_hit ⟨0, 0, -1, k.z + 1, k.x, k.y, k.x + 1, k.y + 1, bk.back⟩
      camera delta s (by simpa [Target.den] using hd) hs
      (by simp only [Target.num, Target.den]; push_cast; linarith)
      (by simp only [Target.local_coords]; push_cast; exact ⟨hx.1, hx.2, hy.1, hy.2⟩)
    exact ⟨h1, h2, by simp [Target.axis], by rw [hpl]; push_cast; ring⟩

theorem num_add_den_mul_param (tg : Target) (camera delta : Point4) (h0 : tg.den delta ≠ 0) :
    tg.num camera + tg.den delta * tg.param camera delta = 0 := by
  unfold Target.param
  field_simp
  ring

/-- Where a valid intersection with a face of the cell `k` lies: in the plane of the face,
and within the cell along the two other axes. -/
theorem face_hit_coords {k : Coords} {bk : Block} {tg : Target} (h : tg ∈ cell_targets k bk)
    {camera delta : Point4} (hv : tg.Valid camera delta) :
    camera.coord tg.axis + delta.coord tg.axis * tg.param camera delta = tg.d ∧
    (tg.d = k.coord tg.axis ∨ tg.d = k.coord tg.axis + 1) ∧
    (∀ i, i ≠ tg.axis →
      (k.coord i : ℚ) ≤ camera.coord i + delta.coord i * tg.param camera delta ∧
      camera.coord i + delta.coord i * tg.param camera delta ≤ k.coord i + 1) ∧
    (tg.StrictHit camera delta → ∀ i, i ≠ tg.axis →
      (k.coord i : ℚ) < camera.coord i + delta.coord i * tg.param camera delta ∧
      camera.coord i + delta.coord i * tg.param camera delta < k.coord i + 1) := by
  obtain ⟨h0, -, r1, r2, r3, r4⟩ := hv
  have hplane := num_add_den_mul_param tg camera delta h0
  unfold Target.StrictHit
  generalize tg.param camera delta = t at *
  simp only [cell_targets, List.mem_cons, List.mem_singleton, List.not_mem_nil, or_false] at h
  rcases h with h | h | h | h | h | h <;> subst h <;>
    simp only [Target.num, Target.den, Target.local_coords, Target.axis, Int.reduceNeg,
      ne_eq, neg_eq_zero, one_ne_zero, not_false_eq_true, not_true_eq_false, if_true, if_false,
      Point4.coord, Coords.coord] at r1 r2 r3 r4 hplane ⊢ <;>
    push_cast at r1 r2 r3 r4 hplane ⊢ <;>
    refine ⟨by linarith, by simp, ?_, ?_⟩
  all_goals first
    | (intro i hi
       fin_cases i <;> simp at hi <;> simp only [Point4.coord, Coords.coord] <;>
         constructor <;> assumption)
    | (intro hs i hi
       fin_cases i <;> simp at hi <;> simp only [Point4.coord, Coords.coord] <;>
         constructor <;> linarith [hs.1, hs.2.1, hs.2.2.1, hs.2.2.2])

theorem step_coord (p : Coords) (axis i : Fin 3) :
    (((p.step axis).coord i : Int) : ℚ) = p.coord i + if i = axis then 1 else 0 := by
  fin_cases axis <;> fin_cases i <;> simp [Coords.step, Coords.coord]

theorem inCube_iff (k : Coords) (p : Point4) :
    k.inCube p ↔ ∀ i, (k.coord i : ℚ) ≤ p.coord i ∧ p.coord i ≤ k.coord i + 1 := by
  unfold Coords.inCube
  constructor
  · rintro ⟨h1, h2, h3, h4, h5, h6⟩ i
    fin_cases i
    · exact ⟨h1, h2⟩
    · exact ⟨h3, h4⟩
    · exact ⟨h5, h6⟩
  · intro h
    exact ⟨(h 0).1, (h 0).2, (h 1).1, (h 1).2, (h 2).1, (h 2).2⟩

/-- A ray from outside two face-adjacent cells that has a valid intersection with a target on
their shared face has a valid intersection, not farther, with a face of one of the two cells
that is not on the shared face; it is strictly nearer when the shared face is met strictly
inside its rectangle. -/
theorem shared_face_has_nearer (p q : Coords) (bp bq : Block) (axis : Fin 3)
    (hadj : q = p.step axis) (camera delta : Point4) (hp : ¬ p.inCube camera)
    (hq : ¬ q.inCube camera) (tg : Target)
    (htg : tg ∈ cell_targets p bp ∨ tg ∈ cell_targets q bq)
    (hsh : tg.OnSharedFace q axis) (hv : tg.Valid camera delta) :
    ∃ u, (u ∈ cell_targets p bp ∨ u ∈ cell_targets q bq) ∧ ¬ u.OnSharedFace q axis ∧
      u.Valid camera delta ∧ u.param camera delta ≤ tg.param camera delta ∧
      (tg.StrictHit camera delta → u.param camera delta < tg.param camera delta) := by
  obtain ⟨hax, hd⟩ := hsh
  have hqc : ∀ i, ((q.coord i : Int) : ℚ) = p.coord i + if i = axis then 1 else 0 := by
    intro i
    rw [hadj]
    exact step_coord p axis i
  have hqa : ((q.coord axis : Int) : ℚ) = p.coord axis + 1 := by
    rw [hqc axis, if_pos rfl]
  have hqo : ∀ i, i ≠ axis → ((q.coord i : Int) : ℚ) = p.coord i := by
    intro i hi
    rw [hqc i, if_neg hi, add_zero]
  -- the hit point, in the plane of the shared face
  have hplaneP : camera.coord axis + delta.coord axis * tg.param camera delta =
      p.coord axis + 1 := by
    have h1 : camera.coord tg.axis + delta.coord tg.axis * tg.param camera delta = tg.d := by
      rcases htg with h | h
      · exact (face_hit_coords h hv).1
      · exact (face_hit_coords h hv).1
    rw [hax, hd] at h1
    rw [h1, hqa]
  have hrectP : ∀ i, i ≠ axis →
      ((p.coord i : ℚ) ≤ camera.coord i + delta.coord i * tg.param camera delta ∧
        camera.coord i + delta.coord i * tg.param camera delta ≤ p.coord i + 1) ∧
      (tg.StrictHit camera delta →
        (p.coord i : ℚ) < camera.coord i + delta.coord i * tg.param camera delta ∧
        camera.coord i + delta.coord i * tg.param camera delta < p.coord i + 1) := by
    intro i hi
    rcases htg with h | h
    · obtain ⟨-, -, h3, h4⟩ := face_hit_coords h hv
      exact ⟨h3 i (by rw [hax]; exact hi), fun hs => h4 hs i (by rw [hax]; exact hi)⟩
    · obtain ⟨-, -, h3, h4⟩ := face_hit_coords h hv
      have e := hqo i hi
      have h3i := h3 i (by rw [hax]; exact hi)
      rw [e] at h3i
      refine ⟨h3i, fun hs => ?_⟩
      have h4i := h4 hs i (by rw [hax]; exact hi)
      rw [e] at h4i
      exact h4i
  -- the hit point lies in the box formed by the two cells
  have hP : ∀ i, (p.coord i : ℚ) ≤ camera.coord i + delta.coord i * tg.param camera delta ∧
      camera.coord i + delta.coord i * tg.param camera delta ≤ (q.coord i : ℚ) + 1 := by
    intro i
    by_cases hi : i = axis
    · subst hi
      rw [hplaneP, hqa]
      constructor <;> linarith
    · rw [hqo i hi]
      exact (hrectP i hi).1
  -- the camera lies outside that box
  have hout : ∃ i, camera.coord i < (p.coord i : ℚ) ∨ (q.coord i : ℚ) + 1 < camera.coord i := by
    by_contra hn
    push_neg at hn
    by_cases hc : camera.coord axis ≤ p.coord axis + 1
    · apply hp
      rw [inCube_iff]
      intro i
      by_cases hi : i = axis
      · subst hi
        exact ⟨(hn i).1, hc⟩
      · have := (hn i).2
        rw [hqo i hi] at this
        exact ⟨(hn i).1, this⟩
    · apply hq
      rw [inCube_iff]
      intro i
      by_cases hi : i = axis
      · subst hi
        rw [hqa]
        exact ⟨by linarith, by have := (hn i).2; rw [hqa] at this; exact this⟩
      · have := hn i
        rw [hqo i hi] at this ⊢
        exact this
  obtain ⟨j, s, hdj, hplane, hs0, hst, hin⟩ :=
    box_entry camera.coord delta.coord (fun i => (p.coord i : ℚ))
      (fun i => (q.coord i : ℚ) + 1) (tg.param camera delta) hv.2.1 hP hout
  -- the entry point lies on a face of one of the two cells
  have hface : ∃ u, (u ∈ cell_targets p bp ∨ u ∈ cell_targets q bq) ∧
      u.Valid camera delta ∧ u.param camera delta = s ∧ u.axis = j ∧
      (u.d : ℚ) = camera.coord j + delta.coord j * s := by
    by_cases hc : camera.coord axis + delta.coord axis * s ≤ p.coord axis + 1
    · obtain ⟨u, hu, h⟩ := cell_face_valid p bp camera delta s hs0 j hdj
        (by
          rcases hplane with h | h
          · exact Or.inl h
          · by_cases hj : j = axis
            · subst hj
              rw [hqa] at h
              rw [h] at hc
              linarith
            · rw [hqo j hj] at h
              exact Or.inr h)
        (by
          intro i
          by_cases hi : i = axis
          · subst hi
            exact ⟨(hin i).1, hc⟩
          · have := hin i
            rw [hqo i hi] at this
            exact this)
      exact ⟨u, Or.inl hu, h⟩
    · obtain ⟨u, hu, h⟩ := cell_face_valid q bq camera delta s hs0 j hdj
        (by
          rcases hplane with h | h
          · by_cases hj : j = axis
            · subst hj
              rw [h] at hc
              exact absurd (by linarith) hc
            · rw [← hqo j hj] at h
              exact Or.inl h
          · exact Or.inr h)
        (by
          intro i
          by_cases hi : i = axis
          · subst hi
            rw [hqa]
            exact ⟨by linarith, by have := (hin i).2; rw [hqa] at this; exact this⟩
          · have := hin i
            rw [hqo i hi]
            rw [hqo i hi] at this
            exact this)
      exact ⟨u, Or.inr hu, h⟩
  obtain ⟨u, hu, huv, hus, huj, hud⟩ := hface
  refine ⟨u, hu, ?_, huv, by rw [hus]; exact hst, ?_⟩
  · rintro ⟨h1, h2⟩
    have hj : j = axis := huj.symm.trans h1
    subst hj
    rw [h2, hqa] at hud
    rcases hplane with h | h
    · rw [h] at hud
      linarith
    · rw [h, hqa] at hud
      linarith
  · intro hstrict
    rw [hus]
    rcases lt_or_eq_of_le hst with h | h
    · exact h
    · exfalso
      rw [h] at hplane
      by_cases hj : j = axis
      · subst hj
        rw [hplaneP, hqa] at hplane
        rcases hplane with h' | h' <;> linarith
      · have := (hrectP j hj).2 hstrict
        rw [hqo j hj] at hplane
        rcases hplane with h' | h'
        · rw [h'] at this
          exact lt_irrefl _ this.1
        · rw [h'] at this
          exact lt_irrefl _ this.2

/-- What the scan loop holds when it completes: the initial value when no target is valid,
and otherwise the distance and the colour of a valid target of minimal `t`. -/
theorem scan_loop_winner {camera delta : Point4} (hc : camera.Finite) (hd : delta.Finite)
    (hne : delta.NonZero) (l : List Target) (hl : ∀ tg ∈ l, tg.Proper)
    (m : Dbl × Color) (hm : scan_loop camera delta initial_min_value l = some m) :
    ((∀ tg ∈ l, ¬ tg.Valid camera delta) ∧ m = initial_min_value) ∨
    (∃ w ∈ l, w.Valid camera delta ∧
      (∀ u ∈ l, u.Valid camera delta → w.param camera delta ≤ u.param camera delta) ∧
      hit_color camera delta w = some m.2 ∧ m.1 = ray_t camera delta w) := by
  induction l using List.reverseRecOn generalizing m with
  | nil =>
    left
    refine ⟨fun _ h => absurd h (List.not_mem_nil _), ?_⟩
    simpa [scan_loop] using hm.symm
  | append_singleton l u ih =>
    have hl' : ∀ tg ∈ l, tg.Proper := fun tg h => hl tg (List.mem_append_left _ h)
    have hu := hl u (List.mem_append_right _ (List.mem_singleton_self u))
    rw [scan_loop_snoc] at hm
    cases h0 : scan_loop camera delta initial_min_value l with
    | none => rw [h0] at hm; exact absurd hm (by simp)
    | some m0 =>
      rw [h0, Option.some_bind] at hm
      have ih0 := ih hl' m0 h0
      by_cases hv : u.Valid camera delta
      · have htu := ray_t_isReal hc hd u hv.1
        rw [scan_target_of_valid hc hd hv] at hm
        by_cases hlt : Dbl.lt m0.1 (ray_t camera delta u) = true
        · rw [if_pos hlt] at hm
          have hmm : m = m0 := (Option.some.inj hm).symm
          subst hmm
          rcases ih0 with ⟨_, hinit⟩ | ⟨w, hw, hwv, hmin, hcol, hbest⟩
          · exfalso
            rw [hinit] at hlt
            have hf : Dbl.lt initial_min_value.1 (ray_t camera delta u) = false :=
              (lt_pinf_of_isFinite htu.1).1
            rw [hf] at hlt
            exact absurd hlt (by simp)
          · right
            have htw := ray_t_isReal hc hd w hwv.1
            rw [hbest, htw.lt htu, decide_eq_true_eq] at hlt
            refine ⟨w, List.mem_append_left _ hw, hwv, ?_, hcol, hbest⟩
            intro x hx hxv
            rcases List.mem_append.mp hx with h | h
            · exact hmin x h hxv
            · rw [List.mem_singleton.mp h]
              exact hlt.le
        · rw [if_neg hlt] at hm
          obtain ⟨c, hcu, hmc⟩ := Option.map_eq_some'.mp hm
          right
          refine ⟨u, List.mem_append_right _ (List.mem_singleton_self u), hv, ?_, ?_, ?_⟩
          · intro x hx hxv
            rcases List.mem_append.mp hx with h | h
            · rcases ih0 with ⟨hnone, _⟩ | ⟨w, hw, hwv, hmin, _, hbest⟩
              · exact absurd hxv (hnone x h)
              · have htw := ray_t_isReal hc hd w hwv.1
                rw [hbest, htw.lt htu, decide_eq_true_eq, not_lt] at hlt
                exact hlt.trans (hmin x h hxv)
            · rw [List.mem_singleton.mp h]
          · rw [← hmc]
            exact hcu
          · rw [← hmc]
      · rw [scan_target_of_not_valid hc hd hne hu hv] at hm
        have hmm : m = m0 := (Option.some.inj hm).symm
        subst hmm
        rcases ih0 with ⟨hnone, hinit⟩ | ⟨w, hw, hwv, hmin, hcol, hbest⟩
        · left
          refine ⟨?_, hinit⟩
          intro x hx
          rcases List.mem_append.mp hx with h | h
          · exact hnone x h
          · rw [List.mem_singleton.mp h]
            exact hv
        · right
          refine ⟨w, List.mem_append_left _ hw, hwv, ?_, hcol, hbest⟩
          intro x hx hxv
          rcases List.mem_append.mp hx with h | h
          · exact hmin x h hxv
          · rw [List.mem_singleton.mp h] at hxv
            exact absurd hxv hv

theorem mem_build_targets {world : World} {k : Coords} {bk : Block}
    (hk : (k, bk) ∈ world.cells) {tg : Target} (h : tg ∈ cell_targets k bk) :
    tg ∈ build_targets world :=
  List.mem_flatMap.mpr ⟨(k, bk), hk, h⟩

/-- C16 (counterexample): in the world of the two cells `(0, 0, 0)` and `(0, 1, 0)`, which
share the face `y = 1`, the ray from `(-1, 0, 1/2)` (strictly outside both closed cubes) in
direction `(1, 1, 0)` meets the edge `x = 0, y = 1` at `t = 1`. The left and top faces of the
first cell and the left and bottom faces of the second cell tie there; the bottom face of the
second cell, which lies on the shared face, is scanned last among them and `trace_ray`
returns its colour `(12, 12, 12)`, which no other target shows. -/
theorem C16_counterexample :
    (∀ entry ∈ stacked_world.cells, ¬ entry.1.inCube (Point4.ofRat (-1) 0 (1/2))) ∧
    stacked_world.cells.map Prod.fst = [⟨0, 0, 0⟩, Coords.step ⟨0, 0, 0⟩ 1] ∧
    (build_targets stacked_world).map (fun u =>
      (decide (u.OnSharedFace ⟨0, 1, 0⟩ 1),
        decide (u.Valid (Point4.ofRat (-1) 0 (1/2)) (Point4.ofRat 1 1 0)),
        hit_color (Point4.ofRat (-1) 0 (1/2)) (Point4.ofRat 1 1 0) u)) =
      [(false, true, some ⟨3, 3, 3, 0⟩), (false, false, some ⟨4, 4, 4, 0⟩),
        (false, false, some ⟨2, 2, 2, 0⟩), (true, true, some ⟨1, 1, 1, 0⟩),
        (false, false, some ⟨5, 5, 5, 0⟩), (false, false, some ⟨6, 6, 6, 0⟩),
        (false, true, some ⟨13, 13, 13, 0⟩), (false, true, some ⟨14, 14, 14, 0⟩),
        (true, true, some ⟨12, 12, 12, 0⟩), (false, true, some ⟨11, 11, 11, 0⟩),
        (false, false, some ⟨15, 15, 15, 0⟩), (false, false, some ⟨16, 16, 16, 0⟩)] ∧
    scan_loop (Point4.ofRat (-1) 0 (1/2)) (Point4.ofRat 1 1 0) initial_min_value
      (build_targets stacked_world) = some (Dbl.fin 1, ⟨12, 12, 12, 0⟩) ∧
    trace_ray (Point4.ofRat (-1) 0 (1/2)) (Point4.ofRat 1 1 0) stacked_world =
      some ⟨12, 12, 12, 0⟩ := by
  decide!

/-- C16 (amended): for every world containing two face-adjacent occupied cells `p` and
`q = p.step axis`, every real ray whose camera lies strictly outside every occupied cell's
closed unit cube, and every target `tg` of the two cells that lies on their shared face and
that the ray meets strictly inside the face's rectangle: the target is a candidate of the
scan, some target not on the shared face has a valid intersection at a strictly smaller `t`,
and whenever `trace_ray` returns a colour, that colour is the one sampled from a valid target
of minimal `t`, whose `t` is strictly smaller than that of `tg` (so `tg` is not the winning
hit); for a world with samplable textures `trace_ray` does return. Both cells emit a target
on the shared face, with the same plane and rectangle. -/
theorem C16_interior_face_not_nearest (world : World) (camera delta : Point4)
    (hc : camera.Finite) (hd : delta.Finite) (p q : Coords) (bp bq : Block) (axis : Fin 3)
    (hp : (p, bp) ∈ world.cells) (hq : (q, bq) ∈ world.cells) (hadj : q = p.step axis)
    (hout : ∀ entry ∈ world.cells, ¬ entry.1.inCube camera)
    (tg : Target) (htg : tg ∈ cell_targets p bp ∨ tg ∈ cell_targets q bq)
    (hsh : tg.OnSharedFace q axis) (hv : tg.Valid camera delta)
    (hstrict : tg.StrictHit camera delta) :
    tg ∈ build_targets world ∧
    (∃ u ∈ build_targets world, ¬ u.OnSharedFace q axis ∧ u.Valid camera delta ∧
      u.param camera delta < tg.param camera delta) ∧
    (∀ c, trace_ray camera delta world = some c →
      ∃ w ∈ build_targets world, w.Valid camera delta ∧
        (∀ u ∈ build_targets world, u.Valid camera delta →
          w.param camera delta ≤ u.param camera delta) ∧
        w.param camera delta < tg.param camera delta ∧
        hit_color camera delta w = some c) ∧
    (world.Safe → ∃ c, trace_ray camera delta world = some c) ∧
    (∃ t1 ∈ cell_targets p bp, ∃ t2 ∈ cell_targets q bq,
      t1.OnSharedFace q axis ∧ t2.OnSharedFace q axis ∧
      t1.a = t2.a ∧ t1.b = t2.b ∧ t1.c = t2.c ∧ t1.d = t2.d ∧
      t1.x1 = t2.x1 ∧ t1.y1 = t2.y1 ∧ t1.x2 = t2.x2 ∧ t1.y2 = t2.y2) := by
  have hne := nonZero_of_den_ne_zero hv.1
  have hmem : ∀ u, (u ∈ cell_targets p bp ∨ u ∈ cell_targets q bq) → u ∈ build_targets world :=
    fun u h => h.elim (mem_build_targets hp) (mem_build_targets hq)
  obtain ⟨u, hu, hush, huv, -, hlt⟩ := shared_face_has_nearer p q bp bq axis hadj camera delta
    (hout _ hp) (hout _ hq) tg htg hsh hv
  have hult := hlt hstrict
  refine ⟨hmem tg htg, ⟨u, hmem u hu, hush, huv, hult⟩, ?_, ?_, ?_⟩
  · intro c hcol
    unfold trace_ray at hcol
    obtain ⟨m, hm, hmc⟩ := Option.map_eq_some'.mp hcol
    rcases scan_loop_winner hc hd hne (build_targets world) (build_targets_proper world) m hm
      with ⟨hnone, _⟩ | ⟨w, hw, hwv, hmin, hwc, _⟩
    · exact absurd huv (hnone u (hmem u hu))
    · refine ⟨w, hw, hwv, hmin, lt_of_le_of_lt (hmin u (hmem u hu) huv) hult, ?_⟩
      rw [hwc, hmc]
  · intro hs
    rcases scan_loop_spec hc hd hne (build_targets world) (build_targets_wf hs) with
      ⟨hnone, _⟩ | ⟨l1, w, l2, c, _, _, _, _, _, hscan⟩
    · exact absurd huv (hnone u (hmem u hu))
    · refine ⟨c, ?_⟩
      unfold trace_ray
      rw [hscan]
      rfl
  · subst hadj
    fin_cases axis
    · exact ⟨⟨-1, 0, 0, p.x + 1, p.y, p.z, p.y + 1, p.z + 1, bp.right⟩,
        by simp [cell_targets],
        ⟨-1, 0, 0, p.x + 1, p.y, p.z, p.y + 1, p.z + 1, bq.left⟩,
        by simp [cell_targets, Coords.step],
        by simp [Target.OnSharedFace, Target.axis, Coords.coord, Coords.step],
        by simp [Target.OnSharedFace, Target.axis, Coords.coord, Coords.step],
        rfl, rfl, rfl, rfl, rfl, rfl, rfl, rfl⟩
    · exact ⟨⟨0, -1, 0, p.y + 1, p.x, p.z, p.x + 1, p.z + 1, bp.top⟩,
        by simp [cell_targets],
        ⟨0, -1, 0, p.y + 1, p.x, p.z, p.x + 1, p.z + 1, bq.bottom⟩,
        by simp [cell_targets, Coords.step],
        by simp [Target.OnSharedFace, Target.axis, Coords.coord, Coords.step],
        by simp [Target.OnSharedFace, Target.axis, Coords.coord, Coords.step],
        rfl, rfl, rfl, rfl, rfl, rfl, rfl, rfl⟩
    · exact ⟨⟨0, 0, -1, p.z + 1, p.x, p.y, p.x + 1, p.y + 1, bp.back⟩,
        by simp [cell_targets],
        ⟨0, 0, -1, p.z + 1, p.x, p.y, p.x + 1, p.y + 1, bq.front⟩,
        by simp [cell_targets, Coords.step],
        by simp [Target.OnSharedFace, Target.axis, Coords.coord, Coords.step],
        by simp [Target.OnSharedFace, Target.axis, Coords.coord, Coords.step],
        rfl, rfl, rfl, rfl, rfl, rfl, rfl, rfl⟩

/-- C16 (witness): the two cells `(0, 0, 0)` and `(1, 0, 0)` and the ray from `(-1, 1/2, 1/2)`
in direction `(1, 0, 0)`, which meets the shared face `x = 1` at its centre at `t = 2`, after
the left face of the first cell at `t = 1`: the colour returned is the one of that left
face. -/
theorem C16_interior_face_not_nearest_witness :
    (Point4.ofRat (-1) (1/2) (1/2)).Finite ∧ (Point4.ofRat 1 0 0).Finite ∧
    (∀ entry ∈ adjacent_world.cells, ¬ entry.1.inCube (Point4.ofRat (-1) (1/2) (1/2))) ∧
    Target.OnSharedFace ⟨-1, 0, 0, 1, 0, 0, 1, 1, solid_texture 4⟩ ⟨1, 0, 0⟩ 0 ∧
    Target.Valid ⟨-1, 0, 0, 1, 0, 0, 1, 1, solid_texture 4⟩ (Point4.ofRat (-1) (1/2) (1/2))
      (Point4.ofRat 1 0 0) ∧
    Target.StrictHit ⟨-1, 0, 0, 1, 0, 0, 1, 1, solid_texture 4⟩ (Point4.ofRat (-1) (1/2) (1/2))
      (Point4.ofRat 1 0 0) ∧
    (∃ u ∈ build_targets adjacent_world, ¬ u.OnSharedFace ⟨1, 0, 0⟩ 0 ∧
      u.Valid (Point4.ofRat (-1) (1/2) (1/2)) (Point4.ofRat 1 0 0) ∧
      u.param (Point4.ofRat (-1) (1/2) (1/2)) (Point4.ofRat 1 0 0) <
        Target.param ⟨-1, 0, 0, 1, 0, 0, 1, 1, solid_texture 4⟩
          (Point4.ofRat (-1) (1/2) (1/2)) (Point4.ofRat 1 0 0)) ∧
    trace_ray (Point4.ofRat (-1) (1/2) (1/2)) (Point4.ofRat 1 0 0) adjacent_world =
      some ⟨3, 3, 3, 0⟩ :=
  ⟨⟨rfl, rfl, rfl⟩, ⟨rfl, rfl, rfl⟩, by decide!, by decide, by decide!, by decide!,
    (C16_interior_face_not_nearest adjacent_world (Point4.ofRat (-1) (1/2) (1/2))
      (Point4.ofRat 1 0 0) ⟨rfl, rfl, rfl⟩ ⟨rfl, rfl, rfl⟩ ⟨0, 0, 0⟩ ⟨1, 0, 0⟩ numbered_block
      numbered_block 0 (List.mem_cons_self _ _)
      (List.mem_cons_of_mem _ (List.mem_cons_self _ _)) rfl (by decide!)
      ⟨-1, 0, 0, 1, 0, 0, 1, 1, solid_texture 4⟩
      (Or.inl (List.mem_cons_of_mem _ (List.mem_cons_self _ _))) (by decide) (by decide!)
      (by decide!)).2.1,
    by decide!⟩

end Blocktrace
